import Mathlib

/-!
# Verification development for the `noise` package

A shallow embedding of the Go package `noise` (Perlin, simplex, Catmull-Rom
spline and octave noise).

Conventions of the embedding.

* `float64` values are elements of a linearly ordered field `α` with a floor
  function (exact arithmetic; instantiate `α := ℚ` to evaluate). The rounding
  of float64 is modelled for the loop variable of `catmullRomCached.init`
  (`float64Round`, `catmullRomCached.initRounded`), where it decides how many
  samples the cache stores.
* Go `int` values are `Int`; slices are `List`s; an index expression
  `s[i]` is `index s i`, which is `none` exactly when Go would panic. The
  conversion of a float64 to `int` is the floor for the values that fit in an
  `int` (`intFloor`); `intFloor64` and `Perlin.Noise64` model it outside that
  range.
* A function returns `Option` when the Go code can panic or fail to
  terminate; loops without an a priori bound take an explicit amount of fuel.
* Functions of Go's standard library that are not rational (`math.Sqrt`,
  `math.Pow`, `math.Cos`, `math.Sin`, `math.Pi`) and the random source of
  `math/rand` are parameters (`MathLib`, `RandLib`).
-/

namespace Noise

/-! ## Standard-library parameters -/

/-- The functions of Go's `math` package used by the source that are not
rational operations. -/
structure MathLib (α : Type) where
  Pi : α
  Cos : α → α
  Sin : α → α
  Sqrt : α → α
  Pow : α → α → α

/-- The part of `math/rand` used by the source: `NewSource seed` gives the
initial state of `rand.New(rand.NewSource(seed))` and `Intn st n` is one
call of `rng.Intn(n)`, returning the drawn number and the next state. -/
structure RandLib (σ : Type) where
  NewSource : Int → σ
  Intn : σ → Int → Int × σ

/-- The documented contract of `Intn`: the result lies in `[0, n)`. -/
def RandLib.InRange {σ : Type} (lib : RandLib σ) : Prop :=
  ∀ (st : σ) (n : Int), 0 < n → 0 ≤ (lib.Intn st n).1 ∧ (lib.Intn st n).1 < n

/-! ## utility.go -/

/-- The constant `hashSize2D = 2048 * 4`. -/
def hashSize2D : Int := 2048 * 4

/-- The type `point2D`. -/
structure point2D (α : Type) where
  X : α
  Y : α

section Utility

variable {α : Type} [LinearOrderedField α] [FloorRing α]

/-- The variable `unitCircleDelta = math.Pi / 6`. -/
def unitCircleDelta (m : MathLib α) : α := m.Pi / 6

/-- The table `gradient2D` of twelve vectors. -/
def gradient2D (m : MathLib α) : List (point2D α) :=
  [ ⟨1, 0⟩,
    ⟨m.Cos (unitCircleDelta m), m.Sin (unitCircleDelta m)⟩,
    ⟨m.Cos (unitCircleDelta m * 2), m.Sin (unitCircleDelta m * 2)⟩,
    ⟨m.Cos (unitCircleDelta m * 3), m.Sin (unitCircleDelta m * 3)⟩,
    ⟨m.Cos (unitCircleDelta m * 4), m.Sin (unitCircleDelta m * 4)⟩,
    ⟨m.Cos (unitCircleDelta m * 5), m.Sin (unitCircleDelta m * 5)⟩,
    ⟨m.Cos (unitCircleDelta m * 6), m.Sin (unitCircleDelta m * 6)⟩,
    ⟨m.Cos (unitCircleDelta m * 7), m.Sin (unitCircleDelta m * 7)⟩,
    ⟨m.Cos (unitCircleDelta m * 8), m.Sin (unitCircleDelta m * 8)⟩,
    ⟨m.Cos (unitCircleDelta m * 9), m.Sin (unitCircleDelta m * 9)⟩,
    ⟨m.Cos (unitCircleDelta m * 10), m.Sin (unitCircleDelta m * 10)⟩,
    ⟨m.Cos (unitCircleDelta m * 11), m.Sin (unitCircleDelta m * 11)⟩ ]

/-- The method `point2D.DotFloat64`. -/
def point2D.DotFloat64 (p : point2D α) (x y : α) : α := p.X * x + p.Y * y

/-- The method `point2D.Dot`. -/
def point2D.Dot (p o : point2D α) : α := p.DotFloat64 o.X o.Y

/-- The method `point2D.Scale`. -/
def point2D.Scale (p : point2D α) (s : α) : point2D α := ⟨p.X * s, p.Y * s⟩

/-- The method `point2D.Add`. -/
def point2D.Add (p o : point2D α) : point2D α := ⟨p.X + o.X, p.Y + o.Y⟩

/-- The method `point2D.LinearInterpolation`. -/
def point2D.LinearInterpolation (p o : point2D α) (x : α) : α :=
  p.Y + (o.Y - p.Y) * (x - p.X) / (o.X - p.X)

/-- The function `intFloor`: `int(math.Floor(x))`, for `x` whose floor fits in
an `int` (`-2^63 <= floor < 2^63`); `intFloor64` is the conversion for every
`x`. -/
def intFloor (x : α) : Int := ⌊x⌋

/-- The function `fader`. -/
def fader (t : α) : α := t * t * t * (10 + t * (-15 + t * 6))

/-- The function `linearInterpolation`. -/
def linearInterpolation (x0 x1 t : α) : α := (1 - t) * x0 + t * x1

/-- The function `coordTransformToUnskew`. -/
def coordTransformToUnskew (m : MathLib α) (dims : Int) : α :=
  (m.Sqrt ((dims + 1 : Int) : α) - 1) / (dims : α)

/-- The function `coordTransformToSkew`. -/
def coordTransformToSkew (m : MathLib α) (dims : Int) : α :=
  ((1 / m.Sqrt ((dims + 1 : Int) : α)) - 1) / (dims : α)

end Utility

/-- The function `intMod`: `int(math.Mod(float64(a), float64(b)))`. The
result of `math.Mod` has the sign of the dividend, which is the truncating
remainder. -/
def intMod (a b : Int) : Int := Int.tmod a b

/-- A slice index expression `l[i]`: `none` when Go panics with an index out
of range. -/
def index {β : Type} (l : List β) (i : Int) : Option β :=
  if 0 ≤ i then l[i.toNat]? else none

/-- The loop `for v < 0 { v += hashSize2D }` that follows each reduction
`v = intMod(c, hashSize2D)` in the `Noise` methods. -/
def addWhileNegative (v : Int) : Int :=
  if v < 0 then addWhileNegative (v + hashSize2D) else v
termination_by (-v).toNat
decreasing_by
  simp only [hashSize2D]
  omega

/-- The body shared by `Perlin.init`, `Simplex.init` and
`PerlinCatmullRom.init`: the loop
`for i := 0; i < hashSize2D; i++ { hash = append(hash, rng.Intn(hashSize2D)) }`
with `n` iterations left. -/
def appendDraws {σ : Type} (lib : RandLib σ) : Nat → σ → List Int → σ × List Int
  | 0, rng, hash => (rng, hash)
  | n + 1, rng, hash =>
    appendDraws lib n (lib.Intn rng hashSize2D).2 (hash ++ [(lib.Intn rng hashSize2D).1])

/-! ## perlin.go -/

/-- The type `Perlin`. -/
structure Perlin (σ : Type) where
  rng : σ
  hash : List Int

/-- The method `Perlin.init`. -/
def Perlin.init {σ : Type} (lib : RandLib σ) (s : Perlin σ) : Perlin σ :=
  let r := appendDraws lib hashSize2D.toNat s.rng s.hash
  { rng := r.1, hash := r.2 ++ r.2 }

/-- The function `NewPerlin`. -/
def NewPerlin {σ : Type} (lib : RandLib σ) (seed : Int) : Perlin σ :=
  Perlin.init lib { rng := lib.NewSource seed, hash := [] }

/-- The method `Perlin.Noise`; `none` when an index is out of range. -/
def Perlin.Noise {σ α : Type} [LinearOrderedField α] [FloorRing α]
    (m : MathLib α) (s : Perlin σ) (x y : α) : Option α := do
  let x0 := intFloor x
  let y0 := intFloor y
  let relX := x - (x0 : α)
  let relY := y - (y0 : α)
  let x0 := addWhileNegative (intMod x0 hashSize2D)
  let y0 := addWhileNegative (intMod y0 hashSize2D)
  let hy0 ← index s.hash y0
  let h00 ← index s.hash (x0 + hy0)
  let grad00 := intMod h00 (gradient2D m).length
  let h10 ← index s.hash (x0 + 1 + hy0)
  let grad10 := intMod h10 (gradient2D m).length
  let hy1 ← index s.hash (y0 + 1)
  let h01 ← index s.hash (x0 + hy1)
  let grad01 := intMod h01 (gradient2D m).length
  let h11 ← index s.hash (x0 + 1 + hy1)
  let grad11 := intMod h11 (gradient2D m).length
  let g00 ← index (gradient2D m) grad00
  let noise00 := g00.DotFloat64 relX relY
  let g10 ← index (gradient2D m) grad10
  let noise10 := g10.DotFloat64 (relX - 1) relY
  let g01 ← index (gradient2D m) grad01
  let noise01 := g01.DotFloat64 relX (relY - 1)
  let g11 ← index (gradient2D m) grad11
  let noise11 := g11.DotFloat64 (relX - 1) (relY - 1)
  let fadeX := fader relX
  let fadeY := fader relY
  let noiseX0 := linearInterpolation noise00 noise10 fadeX
  let noiseX1 := linearInterpolation noise01 noise11 fadeX
  return linearInterpolation noiseX0 noiseX1 fadeY

/-! ## catmullRom.go -/

/-- The type `catmullRom`. -/
structure catmullRom (α : Type) where
  alpha : α
  p0 : point2D α
  p1 : point2D α
  p2 : point2D α
  p3 : point2D α
  t1 : α
  t2 : α
  t3 : α

section Spline

variable {α : Type} [LinearOrderedField α] [FloorRing α]

/-- The method `catmullRom.nextT`. -/
def catmullRom.nextT (m : MathLib α) (c : catmullRom α) (p0 p1 : point2D α) : α :=
  let dx := p1.X - p0.X
  let dx2 := dx * dx
  let dy := p1.Y - p0.Y
  let dy2 := dy * dy
  m.Pow (m.Sqrt (dx2 + dy2)) c.alpha

/-- The function `newCatmullRom`. -/
def newCatmullRom (m : MathLib α) (alpha : α) (p0 p1 p2 p3 : point2D α) : catmullRom α :=
  let c : catmullRom α :=
    { alpha := alpha, p0 := p0, p1 := p1, p2 := p2, p3 := p3, t1 := 0, t2 := 0, t3 := 0 }
  let c := { c with t1 := c.nextT m c.p0 c.p1 }
  let c := { c with t2 := c.nextT m c.p1 c.p2 + c.t1 }
  let c := { c with t3 := c.nextT m c.p2 c.p3 + c.t2 }
  c

/-- The method `catmullRom.LowerT`. -/
def catmullRom.LowerT (c : catmullRom α) : α := c.t1

/-- The method `catmullRom.UpperT`. -/
def catmullRom.UpperT (c : catmullRom α) : α := c.t2

/-- The method `catmullRom.lowerUpper`. When `tUpper = tLower` the quotients
are `0` here (division by zero in a field) and `NaN` or an infinity in
float64; no statement below depends on the value of such a quotient. -/
def catmullRom.lowerUpper (_c : catmullRom α) (tLower tUpper t : α) : α × α :=
  ((tUpper - t) / (tUpper - tLower), (t - tLower) / (tUpper - tLower))

/-- The method `catmullRom.At`. -/
def catmullRom.At (c : catmullRom α) (t : α) : point2D α :=
  let a1 := c.lowerUpper 0 c.t1 t
  let a2 := c.lowerUpper c.t1 c.t2 t
  let a3 := c.lowerUpper c.t2 c.t3 t
  let pa1 := (c.p0.Scale a1.1).Add (c.p1.Scale a1.2)
  let pa2 := (c.p1.Scale a2.1).Add (c.p2.Scale a2.2)
  let pa3 := (c.p2.Scale a3.1).Add (c.p3.Scale a3.2)
  let b1 := c.lowerUpper 0 c.t2 t
  let b2 := c.lowerUpper c.t1 c.t3 t
  let pb1 := (pa1.Scale b1.1).Add (pa2.Scale b1.2)
  let pb2 := (pa2.Scale b2.1).Add (pa3.Scale b2.2)
  let cc := c.lowerUpper c.t1 c.t2 t
  (pb1.Scale cc.1).Add (pb2.Scale cc.2)

end Spline

/-! ## catmullRomCached.go -/

/-- The type `catmullRomCached`. -/
structure catmullRomCached (α : Type) where
  cache : List (point2D α)

section Cached

variable {α : Type} [LinearOrderedField α] [FloorRing α]

/-- The loop of `catmullRomCached.init`,
`for t := curve.LowerT(); t <= curve.UpperT(); t += delta`, from the state
`(t, cache)`, in exact arithmetic; `none` when the fuel runs out before the
loop ends. `catmullRomCached.initLoopRounded` is the loop with the rounding
of `t += delta`. -/
def catmullRomCached.initLoop (curve : catmullRom α) (delta : α) :
    Nat → α → List (point2D α) → Option (List (point2D α))
  | 0, _, _ => none
  | fuel + 1, t, cache =>
    if t ≤ curve.UpperT then
      catmullRomCached.initLoop curve delta fuel (t + delta) (cache ++ [curve.At t])
    else some cache

/-- The method `catmullRomCached.init`. -/
def catmullRomCached.init (fuel : Nat) (c : catmullRomCached α) (curve : catmullRom α)
    (nPoints : Int) : Option (catmullRomCached α) :=
  let nPoints := if nPoints ≤ 2 then 3 else nPoints
  let delta := (curve.UpperT - curve.LowerT) / ((nPoints - 1 : Int) : α)
  (catmullRomCached.initLoop curve delta fuel curve.LowerT c.cache).map
    fun cache => { cache := cache }

/-- The function `newCachedCatmullRom`; `make([]point2D, 0, nPoints)` panics
when `nPoints` is negative. -/
def newCachedCatmullRom (m : MathLib α) (fuel : Nat) (nPoints : Int) (alpha : α)
    (p0 p1 p2 p3 : point2D α) : Option (catmullRomCached α) :=
  if nPoints < 0 then none
  else catmullRomCached.init fuel { cache := [] } (newCatmullRom m alpha p0 p1 p2 p3) nPoints

/-- The function `newCentripetalCached`. -/
def newCentripetalCached (m : MathLib α) (fuel : Nat) (nPoints : Int)
    (p0 p1 p2 p3 : point2D α) : Option (catmullRomCached α) :=
  newCachedCatmullRom m fuel nPoints (1 / 2) p0 p1 p2 p3

/-- The function `newUniformCached`. -/
def newUniformCached (m : MathLib α) (fuel : Nat) (nPoints : Int)
    (p0 p1 p2 p3 : point2D α) : Option (catmullRomCached α) :=
  newCachedCatmullRom m fuel nPoints 0 p0 p1 p2 p3

/-- The function `newChordalCached`. -/
def newChordalCached (m : MathLib α) (fuel : Nat) (nPoints : Int)
    (p0 p1 p2 p3 : point2D α) : Option (catmullRomCached α) :=
  newCachedCatmullRom m fuel nPoints 1 p0 p1 p2 p3

/-- The loop of `catmullRomCached.InterpolateX` from the state
`(min, max, i)`, returning the value of `i` when the loop is left (by its
condition or by `break`); `none` when the fuel runs out or an index is out
of range. Under the loop condition `0 < i < len - 1` both `cache[i]` and
`cache[i+1]` exist, so reading them together does not add a panic. -/
def catmullRomCached.searchLoop (cache : List (point2D α)) (x : α) :
    Nat → Int → Int → Int → Option Int
  | 0, _, _, _ => none
  | fuel + 1, min, max, i =>
    if min ≤ max ∧ i > 0 ∧ i < (cache.length : Int) - 1 then
      match index cache i, index cache (i + 1) with
      | some ci, some ci1 =>
        if ci.X ≤ x ∧ ci1.X > x then some i
        else if ci.X > x then
          catmullRomCached.searchLoop cache x fuel min (i - 1) (Int.tdiv ((i - 1) + min) 2)
        else if ci1.X ≤ x then
          catmullRomCached.searchLoop cache x fuel (i + 1) max (Int.tdiv (max + (i + 1)) 2)
        else
          catmullRomCached.searchLoop cache x fuel min max (Int.tdiv (max + min) 2)
      | _, _ => none
    else some i

/-- The method `catmullRomCached.InterpolateX`. -/
def catmullRomCached.InterpolateX (fuel : Nat) (c : catmullRomCached α) (x : α) : Option α :=
  if c.cache.length = 0 then some 0
  else
    let min : Int := 0
    let max : Int := (c.cache.length : Int) - 1
    match catmullRomCached.searchLoop c.cache x fuel min max (Int.tdiv (max + min) 2) with
    | none => none
    | some i =>
      if i ≥ (c.cache.length : Int) - 1 then
        (index c.cache ((c.cache.length : Int) - 1)).map fun p => p.Y
      else if i < 0 then
        (index c.cache 0).map fun p => p.Y
      else
        match index c.cache i, index c.cache (i + 1) with
        | some ci, some ci1 => some (ci.LinearInterpolation ci1 x)
        | _, _ => none

end Cached

/-! ## octaveNoise.go -/

/-- The interface `Noiser`: one method `Noise(x, y float64) float64`. -/
structure Noiser (α : Type) where
  Noise : α → α → α

/-- The type `OctaveNoise`. -/
structure OctaveNoise (α : Type) where
  persistence : α
  octaves : List (Noiser α)

/-- The local variables of `OctaveNoise.Noise` that the loop updates. -/
structure OctaveLoopState (α : Type) where
  frequency : α
  amplitude : α
  result : α
  cumulativeAmp : α

section Octave

variable {α : Type} [LinearOrderedField α] [FloorRing α]

/-- The function `NewOctaveNoise`. -/
def NewOctaveNoise (persistence : α) : OctaveNoise α :=
  { persistence := persistence, octaves := [] }

/-- The method `OctaveNoise.AddOctave`. -/
def OctaveNoise.AddOctave (o : OctaveNoise α) (n : Noiser α) : OctaveNoise α :=
  { o with octaves := o.octaves ++ [n] }

/-- One iteration of the loop `for _, octave := range o.octaves`. -/
def OctaveNoise.loopBody (o : OctaveNoise α) (x y : α) (st : OctaveLoopState α)
    (octave : Noiser α) : OctaveLoopState α :=
  { result := st.result + octave.Noise (x * st.frequency) (y * st.frequency) * st.amplitude
    frequency := st.frequency * 2
    cumulativeAmp := st.cumulativeAmp + st.amplitude
    amplitude := st.amplitude * o.persistence }

/-- The method `OctaveNoise.Noise`. -/
def OctaveNoise.Noise (o : OctaveNoise α) (x y : α) : α :=
  (o.octaves.foldl (o.loopBody x y)
    { frequency := 1, amplitude := 1, result := 0, cumulativeAmp := 0 }).result

end Octave

/-! ## simplex.go -/

/-- The type `Simplex`. -/
structure Simplex (σ : Type) where
  rng : σ
  hash : List Int

/-- The method `Simplex.init`. -/
def Simplex.init {σ : Type} (lib : RandLib σ) (s : Simplex σ) : Simplex σ :=
  let r := appendDraws lib hashSize2D.toNat s.rng s.hash
  { rng := r.1, hash := r.2 ++ r.2 }

/-- The function `NewSimplex`. -/
def NewSimplex {σ : Type} (lib : RandLib σ) (seed : Int) : Simplex σ :=
  Simplex.init lib { rng := lib.NewSource seed, hash := [] }

/-- The method `Simplex.Noise`; `none` when an index is out of range. -/
def Simplex.Noise {σ α : Type} [LinearOrderedField α] [FloorRing α]
    (m : MathLib α) (s : Simplex σ) (x y : α) : Option α := do
  let commonFactorUnskew := (x + y) * coordTransformToUnskew m 2
  let simplexX := intFloor (x + commonFactorUnskew)
  let simplexY := intFloor (y + commonFactorUnskew)
  let skewFactor := coordTransformToSkew m 2
  let commonFactorSkew := ((simplexX + simplexY : Int) : α) * skewFactor
  let skewSimplexX := (simplexX : α) + commonFactorSkew
  let skewSimplexY := (simplexY : α) + commonFactorSkew
  let firstX := x - skewSimplexX
  let firstY := y - skewSimplexY
  let unitX : Int := if firstX > firstY then 1 else 0
  let unitY : Int := if firstX > firstY then 0 else 1
  let middleX := firstX - (unitX : α) - skewFactor
  let middleY := firstY - (unitY : α) - skewFactor
  let lastX := firstX - 1 - 2 * skewFactor
  let lastY := firstY - 1 - 2 * skewFactor
  let simplexX := addWhileNegative (intMod simplexX hashSize2D)
  let simplexY := addWhileNegative (intMod simplexY hashSize2D)
  let hy0 ← index s.hash simplexY
  let h0 ← index s.hash (simplexX + hy0)
  let grad0 := intMod h0 (gradient2D m).length
  let hy1 ← index s.hash (simplexY + unitY)
  let h1 ← index s.hash (simplexX + unitX + hy1)
  let grad1 := intMod h1 (gradient2D m).length
  let hy2 ← index s.hash (simplexY + 1)
  let h2 ← index s.hash (simplexX + 1 + hy2)
  let grad2 := intMod h2 (gradient2D m).length
  let t0 := 1 / 2 - firstX * firstX - firstY * firstY
  let t1 := 1 / 2 - middleX * middleX - middleY * middleY
  let t2 := 1 / 2 - lastX * lastX - lastY * lastY
  let contrib0 ←
    if t0 > 0 then
      (index (gradient2D m) grad0).map fun g => t0 * t0 * t0 * t0 * g.DotFloat64 firstX firstY
    else some 0
  let contrib1 ←
    if t1 > 0 then
      (index (gradient2D m) grad1).map fun g => t1 * t1 * t1 * t1 * g.DotFloat64 middleX middleY
    else some 0
  let contrib2 ←
    if t2 > 0 then
      (index (gradient2D m) grad2).map fun g => t2 * t2 * t2 * t2 * g.DotFloat64 lastX lastY
    else some 0
  return contrib0 + contrib1 + contrib2

/-! ## perlinCatmullRom.go -/

/-- The type `PerlinCatmullRom`. -/
structure PerlinCatmullRom (σ : Type) where
  rng : σ
  splineCacheSize : Int
  hash : List Int

/-- The method `PerlinCatmullRom.init`. -/
def PerlinCatmullRom.init {σ : Type} (lib : RandLib σ) (s : PerlinCatmullRom σ) :
    PerlinCatmullRom σ :=
  let r := appendDraws lib hashSize2D.toNat s.rng s.hash
  { s with rng := r.1, hash := r.2 ++ r.2 }

/-- The function `NewPerlinCatmullRom`. -/
def NewPerlinCatmullRom {σ : Type} (lib : RandLib σ) (splineCacheSize : Int) (seed : Int) :
    PerlinCatmullRom σ :=
  PerlinCatmullRom.init lib
    { rng := lib.NewSource seed, splineCacheSize := splineCacheSize, hash := [] }

/-- The method `PerlinCatmullRom.hashIdx`. -/
def PerlinCatmullRom.hashIdx {σ : Type} (s : PerlinCatmullRom σ) (idx : Int) : Option Int :=
  index s.hash (intMod idx s.hash.length)

/-- The three steps that `PerlinCatmullRom.Noise` repeats for each of the
sixteen lattice points of the 4x4 grid, here for the lattice point with hash
coordinates `(xi, yj)` and offset vector `pt`:
`grad := intMod(s.hashIdx(xi+s.hashIdx(yj)), len(gradient2D))`, then
`noise := gradient2D[grad].Dot(pt)`. -/
def PerlinCatmullRom.latticeNoise {σ α : Type} [LinearOrderedField α] [FloorRing α]
    (m : MathLib α) (s : PerlinCatmullRom σ) (xi yj : Int) (pt : point2D α) : Option α := do
  let hy ← s.hashIdx yj
  let h ← s.hashIdx (xi + hy)
  let grad := intMod h (gradient2D m).length
  let g ← index (gradient2D m) grad
  return g.Dot pt

/-- The two steps that `PerlinCatmullRom.Noise` repeats for each of its five
splines: `c = newCentripetalCached(s.splineCacheSize, p0, p1, p2, p3)` and
then `c.InterpolateX(q)`. -/
def PerlinCatmullRom.splineValue {σ α : Type} [LinearOrderedField α] [FloorRing α]
    (m : MathLib α) (fuel : Nat) (s : PerlinCatmullRom σ) (p0 p1 p2 p3 : point2D α) (q : α) :
    Option α := do
  let c ← newCentripetalCached m fuel s.splineCacheSize p0 p1 p2 p3
  c.InterpolateX fuel q

/-- One row of the 4x4 grid in `PerlinCatmullRom.Noise`: for the row with
hash coordinate `yj` and vertical offset `ry` (`relY + 1`, `relY`, `relY - 1`,
`relY - 2` for rows 0 to 3), the four lattice values `noise0j .. noise3j`, the
row spline through them queried at `float64(x0) + 1 + relX`, and the clamp
`math.Max(-1, math.Min(1, noiseXj))`. The source computes the sixteen lattice
values before the first spline; the statements of one row are grouped here,
which changes neither a value nor whether a panic occurs. -/
def PerlinCatmullRom.rowNoise {σ α : Type} [LinearOrderedField α] [FloorRing α]
    (m : MathLib α) (fuel : Nat) (s : PerlinCatmullRom σ) (x0 : Int) (relX : α)
    (yj : Int) (ry : α) : Option α := do
  let noise0 ← s.latticeNoise m x0 yj ⟨relX + 1, ry⟩
  let noise1 ← s.latticeNoise m (x0 + 1) yj ⟨relX, ry⟩
  let noise2 ← s.latticeNoise m (x0 + 2) yj ⟨relX - 1, ry⟩
  let noise3 ← s.latticeNoise m (x0 + 3) yj ⟨relX - 2, ry⟩
  let noiseX ← s.splineValue m fuel ⟨(x0 : α), noise0⟩ ⟨(x0 : α) + 1, noise1⟩
    ⟨(x0 : α) + 2, noise2⟩ ⟨(x0 : α) + 3, noise3⟩ ((x0 : α) + 1 + relX)
  return max (-1) (min 1 noiseX)

/-- The method `PerlinCatmullRom.Noise`; `none` when an index is out of range,
when a cache cannot be allocated or when the fuel of a loop runs out. -/
def PerlinCatmullRom.Noise {σ α : Type} [LinearOrderedField α] [FloorRing α]
    (m : MathLib α) (fuel : Nat) (s : PerlinCatmullRom σ) (x y : α) : Option α := do
  let x0 := intFloor x
  let y0 := intFloor y
  let relX := x - (x0 : α)
  let relY := y - (y0 : α)
  let x0 := addWhileNegative (intMod (x0 - 1) hashSize2D)
  let y0 := addWhileNegative (intMod (y0 - 1) hashSize2D)
  let noiseX0 ← s.rowNoise m fuel x0 relX y0 (relY + 1)
  let noiseX1 ← s.rowNoise m fuel x0 relX (y0 + 1) relY
  let noiseX2 ← s.rowNoise m fuel x0 relX (y0 + 2) (relY - 1)
  let noiseX3 ← s.rowNoise m fuel x0 relX (y0 + 3) (relY - 2)
  let noise ← s.splineValue m fuel ⟨(y0 : α), noiseX0⟩ ⟨(y0 : α) + 1, noiseX1⟩
    ⟨(y0 : α) + 2, noiseX2⟩ ⟨(y0 : α) + 3, noiseX3⟩ ((y0 : α) + 1 + relY)
  return noise

/-! ## catmullRom.go: the named constructors -/

/-- The function `newCentripetal`. -/
def newCentripetal {α : Type} [LinearOrderedField α] [FloorRing α] (m : MathLib α)
    (p0 p1 p2 p3 : point2D α) : catmullRom α :=
  newCatmullRom m (1 / 2) p0 p1 p2 p3

/-- The function `newUniform`. -/
def newUniform {α : Type} [LinearOrderedField α] [FloorRing α] (m : MathLib α)
    (p0 p1 p2 p3 : point2D α) : catmullRom α :=
  newCatmullRom m 0 p0 p1 p2 p3

/-- The function `newChordal`. -/
def newChordal {α : Type} [LinearOrderedField α] [FloorRing α] (m : MathLib α)
    (p0 p1 p2 p3 : point2D α) : catmullRom α :=
  newCatmullRom m 1 p0 p1 p2 p3

/-! ## png.go -/

/-- The parts of Go's standard library that `WriteGreyImagePng` uses: the
conversion `uint16(v)` of a `float64`, and `png.Encode(w, img)` on a
`Gray16` image given by its rows of pixels from top to bottom, which returns
the bytes it writes to `w` and its error (`none` for `nil`). -/
structure ImageLib (α : Type) where
  Uint16 : α → Nat
  Encode : List (List Nat) → List Nat × Option String

/-- What the goroutine of one row produces: the row `grays[y]`, the values
`MinValue` and `MaxValue` it sends on the channel `done`, and the arguments
of its calls of `noiser.Noise`. -/
structure RowResult (α : Type) where
  grays : List α
  MinValue : α
  MaxValue : α
  calls : List (α × α)

/-- What a call of `WriteGreyImagePng` does: the error it returns (`none`
for `nil`), the arguments of all calls of `noiser.Noise`, row by row, and the
bytes written to `w`. -/
structure PngOutcome (α : Type) where
  err : Option String
  calls : List (α × α)
  written : List Nat

section Png

variable {α : Type} [LinearOrderedField α] [FloorRing α]

/-- The loop `for x := 0; x < numberSamplesX; x++` of the goroutine of row
`y`, with `n` iterations left, from the state `(x, noiseX, minValue,
maxValue)` and the part of the row sampled so far. -/
def rowLoop (noiser : Noiser α) (y : Int) (noiseY noiseSampleDelta : α) :
    Nat → Int → α → α → α → List α → List (α × α) → RowResult α
  | 0, _, _, minValue, maxValue, row, calls =>
    { grays := row, MinValue := minValue, MaxValue := maxValue, calls := calls }
  | n + 1, x, noiseX, minValue, maxValue, row, calls =>
    let v := noiser.Noise noiseX noiseY
    if x = 0 ∧ y = 0 then
      rowLoop noiser y noiseY noiseSampleDelta n (x + 1) (noiseX + noiseSampleDelta) v v
        (row ++ [v]) (calls ++ [(noiseX, noiseY)])
    else if v > maxValue then
      rowLoop noiser y noiseY noiseSampleDelta n (x + 1) (noiseX + noiseSampleDelta) minValue v
        (row ++ [v]) (calls ++ [(noiseX, noiseY)])
    else if v < minValue then
      rowLoop noiser y noiseY noiseSampleDelta n (x + 1) (noiseX + noiseSampleDelta) v maxValue
        (row ++ [v]) (calls ++ [(noiseX, noiseY)])
    else
      rowLoop noiser y noiseY noiseSampleDelta n (x + 1) (noiseX + noiseSampleDelta) minValue
        maxValue (row ++ [v]) (calls ++ [(noiseX, noiseY)])

/-- The goroutine `go func(y int, noiseY float64)` of row `y`. -/
def rowWorker (noiser : Noiser α) (minX numberSamplesX : Int) (noiseSampleDelta : α) (y : Int)
    (noiseY : α) : RowResult α :=
  rowLoop noiser y noiseY noiseSampleDelta numberSamplesX.toNat 0 (minX : α) 0 0 [] []

/-- The loop `for y := 0; y < numberSamplesY; y++` that starts one goroutine
per row, with `n` rows left, from the state `(y, noiseY)`: the results of
the goroutines, by row. -/
def spawnLoop (noiser : Noiser α) (minX numberSamplesX : Int) (noiseSampleDelta : α) :
    Nat → Int → α → List (RowResult α)
  | 0, _, _ => []
  | n + 1, y, noiseY =>
    rowWorker noiser minX numberSamplesX noiseSampleDelta y noiseY ::
      spawnLoop noiser minX numberSamplesX noiseSampleDelta n (y + 1) (noiseY + noiseSampleDelta)

/-- The loop `for y := 0; y < numberSamplesY; y++ { mm := <-done ... }` on
the messages still to be received, in their order of arrival, from the state
`(y, minValue, maxValue)`. -/
def mergeLoop : List (RowResult α) → Int → α → α → α × α
  | [], _, minValue, maxValue => (minValue, maxValue)
  | mm :: rest, y, minValue, maxValue =>
    if y = 0 then mergeLoop rest (y + 1) mm.MinValue mm.MaxValue
    else if mm.MinValue < minValue then mergeLoop rest (y + 1) mm.MinValue maxValue
    else if mm.MaxValue > maxValue then mergeLoop rest (y + 1) minValue mm.MaxValue
    else mergeLoop rest (y + 1) minValue maxValue

/-- The messages on the channel `done` in their order of arrival, when the
goroutines complete in the order `order` (a list of row numbers). -/
def arrivals (order : List Nat) (results : List (RowResult α)) : List (RowResult α) :=
  order.filterMap fun k => results[k]?

/-- The values `(minValue, maxValue)` that `WriteGreyImagePng` holds after
its receive loop and uses for the normalisation, for positive sample counts
and the completion order `order`. -/
def WriteGreyImagePng.minMax (order : List Nat) (noiser : Noiser α)
    (minX minY numberSamplesX numberSamplesY : Int) (noiseSampleDelta : α) : α × α :=
  mergeLoop
    (arrivals order
      (spawnLoop noiser minX numberSamplesX noiseSampleDelta numberSamplesY.toNat 0 (minY : α)))
    0 0 0

/-- The image that `WriteGreyImagePng` fills before encoding: the pixel of
`grays[y][x]` is `uint16(linearInterpolation(0, 65535, frac))` with
`frac = (grays[y][x] - minValue) / (maxValue - minValue)`, set at row
`numberSamplesY - y - 1`, so the rows appear in reverse order. -/
def WriteGreyImagePng.image (lib : ImageLib α) (results : List (RowResult α))
    (minValue maxValue : α) : List (List Nat) :=
  (results.map fun r => r.grays.map fun g =>
    lib.Uint16 (linearInterpolation 0 65535 ((g - minValue) / (maxValue - minValue)))).reverse

/-- The function `WriteGreyImagePng`, for goroutines completing in the order
`order`. -/
def WriteGreyImagePng (lib : ImageLib α) (order : List Nat) (noiser : Noiser α)
    (minX minY numberSamplesX numberSamplesY : Int) (noiseSampleDelta : α) : PngOutcome α :=
  if numberSamplesX ≤ 0 ∨ numberSamplesY ≤ 0 then
    { err := some "invalid dimensions", calls := [], written := [] }
  else
    let results :=
      spawnLoop noiser minX numberSamplesX noiseSampleDelta numberSamplesY.toNat 0 (minY : α)
    let mm :=
      WriteGreyImagePng.minMax order noiser minX minY numberSamplesX numberSamplesY
        noiseSampleDelta
    let img := WriteGreyImagePng.image lib results mm.1 mm.2
    { err := (lib.Encode img).2
      calls := (results.map fun r => r.calls).flatten
      written := (lib.Encode img).1 }

end Png

/-! ## The `Noise` methods as operations on their receiver

The methods `Noise` have a pointer receiver. Here they are translated with the
receiver as the state of a state monad: a field read is `get`, a field
assignment or a call of `s.rng` would be `set`, and a computation that does
not involve the receiver is lifted. The results are related to the
definitions above by `Perlin.run_NoiseM`, `Simplex.run_simplexNoiseM` and
`PerlinCatmullRom.run_splineNoiseM`. -/

/-- The read `s.hash[i]` in a method with receiver `s *Perlin`. -/
def Perlin.readHash {σ : Type} (i : Int) : StateT (Perlin σ) Option Int := do
  let s ← get
  StateT.lift (index s.hash i)

/-- The method `Perlin.Noise` as an operation on its receiver. -/
def Perlin.NoiseM {σ α : Type} [LinearOrderedField α] [FloorRing α]
    (m : MathLib α) (x y : α) : StateT (Perlin σ) Option α := do
  let x0 := intFloor x
  let y0 := intFloor y
  let relX := x - (x0 : α)
  let relY := y - (y0 : α)
  let x0 := addWhileNegative (intMod x0 hashSize2D)
  let y0 := addWhileNegative (intMod y0 hashSize2D)
  let hy0 ← Perlin.readHash y0
  let h00 ← Perlin.readHash (x0 + hy0)
  let grad00 := intMod h00 (gradient2D m).length
  let h10 ← Perlin.readHash (x0 + 1 + hy0)
  let grad10 := intMod h10 (gradient2D m).length
  let hy1 ← Perlin.readHash (y0 + 1)
  let h01 ← Perlin.readHash (x0 + hy1)
  let grad01 := intMod h01 (gradient2D m).length
  let h11 ← Perlin.readHash (x0 + 1 + hy1)
  let grad11 := intMod h11 (gradient2D m).length
  let g00 ← StateT.lift (index (gradient2D m) grad00)
  let noise00 := g00.DotFloat64 relX relY
  let g10 ← StateT.lift (index (gradient2D m) grad10)
  let noise10 := g10.DotFloat64 (relX - 1) relY
  let g01 ← StateT.lift (index (gradient2D m) grad01)
  let noise01 := g01.DotFloat64 relX (relY - 1)
  let g11 ← StateT.lift (index (gradient2D m) grad11)
  let noise11 := g11.DotFloat64 (relX - 1) (relY - 1)
  let fadeX := fader relX
  let fadeY := fader relY
  let noiseX0 := linearInterpolation noise00 noise10 fadeX
  let noiseX1 := linearInterpolation noise01 noise11 fadeX
  return linearInterpolation noiseX0 noiseX1 fadeY

/-- The read `s.hash[i]` in a method with receiver `s *Simplex`. -/
def Simplex.readHash {σ : Type} (i : Int) : StateT (Simplex σ) Option Int := do
  let s ← get
  StateT.lift (index s.hash i)

/-- The method `Simplex.Noise` as an operation on its receiver. -/
def Simplex.NoiseM {σ α : Type} [LinearOrderedField α] [FloorRing α]
    (m : MathLib α) (x y : α) : StateT (Simplex σ) Option α := do
  let commonFactorUnskew := (x + y) * coordTransformToUnskew m 2
  let simplexX := intFloor (x + commonFactorUnskew)
  let simplexY := intFloor (y + commonFactorUnskew)
  let skewFactor := coordTransformToSkew m 2
  let commonFactorSkew := ((simplexX + simplexY : Int) : α) * skewFactor
  let skewSimplexX := (simplexX : α) + commonFactorSkew
  let skewSimplexY := (simplexY : α) + commonFactorSkew
  let firstX := x - skewSimplexX
  let firstY := y - skewSimplexY
  let unitX : Int := if firstX > firstY then 1 else 0
  let unitY : Int := if firstX > firstY then 0 else 1
  let middleX := firstX - (unitX : α) - skewFactor
  let middleY := firstY - (unitY : α) - skewFactor
  let lastX := firstX - 1 - 2 * skewFactor
  let lastY := firstY - 1 - 2 * skewFactor
  let simplexX := addWhileNegative (intMod simplexX hashSize2D)
  let simplexY := addWhileNegative (intMod simplexY hashSize2D)
  let hy0 ← Simplex.readHash simplexY
  let h0 ← Simplex.readHash (simplexX + hy0)
  let grad0 := intMod h0 (gradient2D m).length
  let hy1 ← Simplex.readHash (simplexY + unitY)
  let h1 ← Simplex.readHash (simplexX + unitX + hy1)
  let grad1 := intMod h1 (gradient2D m).length
  let hy2 ← Simplex.readHash (simplexY + 1)
  let h2 ← Simplex.readHash (simplexX + 1 + hy2)
  let grad2 := intMod h2 (gradient2D m).length
  let t0 := 1 / 2 - firstX * firstX - firstY * firstY
  let t1 := 1 / 2 - middleX * middleX - middleY * middleY
  let t2 := 1 / 2 - lastX * lastX - lastY * lastY
  let contrib0 ←
    if t0 > 0 then
      StateT.lift
        ((index (gradient2D m) grad0).map fun g => t0 * t0 * t0 * t0 * g.DotFloat64 firstX firstY)
    else StateT.lift (some 0)
  let contrib1 ←
    if t1 > 0 then
      StateT.lift
        ((index (gradient2D m) grad1).map fun g => t1 * t1 * t1 * t1 * g.DotFloat64 middleX middleY)
    else StateT.lift (some 0)
  let contrib2 ←
    if t2 > 0 then
      StateT.lift
        ((index (gradient2D m) grad2).map fun g => t2 * t2 * t2 * t2 * g.DotFloat64 lastX lastY)
    else StateT.lift (some 0)
  return contrib0 + contrib1 + contrib2

/-- The method `PerlinCatmullRom.hashIdx` as an operation on its receiver. -/
def PerlinCatmullRom.hashIdxM {σ : Type} (idx : Int) :
    StateT (PerlinCatmullRom σ) Option Int := do
  let s ← get
  StateT.lift (index s.hash (intMod idx s.hash.length))

/-- The steps of `PerlinCatmullRom.latticeNoise` as an operation on the
receiver of `Noise`. -/
def PerlinCatmullRom.latticeNoiseM {σ α : Type} [LinearOrderedField α] [FloorRing α]
    (m : MathLib α) (xi yj : Int) (pt : point2D α) :
    StateT (PerlinCatmullRom σ) Option α := do
  let hy ← PerlinCatmullRom.hashIdxM yj
  let h ← PerlinCatmullRom.hashIdxM (xi + hy)
  let grad := intMod h (gradient2D m).length
  let g ← StateT.lift (index (gradient2D m) grad)
  return g.Dot pt

/-- The steps of `PerlinCatmullRom.splineValue` as an operation on the
receiver of `Noise`: the field `s.splineCacheSize` is read. -/
def PerlinCatmullRom.splineValueM {σ α : Type} [LinearOrderedField α] [FloorRing α]
    (m : MathLib α) (fuel : Nat) (p0 p1 p2 p3 : point2D α) (q : α) :
    StateT (PerlinCatmullRom σ) Option α := do
  let s ← get
  let c ← StateT.lift (newCentripetalCached m fuel s.splineCacheSize p0 p1 p2 p3)
  StateT.lift (c.InterpolateX fuel q)

/-- The steps of `PerlinCatmullRom.rowNoise` as an operation on the receiver
of `Noise`. -/
def PerlinCatmullRom.rowNoiseM {σ α : Type} [LinearOrderedField α] [FloorRing α]
    (m : MathLib α) (fuel : Nat) (x0 : Int) (relX : α) (yj : Int) (ry : α) :
    StateT (PerlinCatmullRom σ) Option α := do
  let noise0 ← PerlinCatmullRom.latticeNoiseM m x0 yj ⟨relX + 1, ry⟩
  let noise1 ← PerlinCatmullRom.latticeNoiseM m (x0 + 1) yj ⟨relX, ry⟩
  let noise2 ← PerlinCatmullRom.latticeNoiseM m (x0 + 2) yj ⟨relX - 1, ry⟩
  let noise3 ← PerlinCatmullRom.latticeNoiseM m (x0 + 3) yj ⟨relX - 2, ry⟩
  let noiseX ← PerlinCatmullRom.splineValueM m fuel ⟨(x0 : α), noise0⟩ ⟨(x0 : α) + 1, noise1⟩
    ⟨(x0 : α) + 2, noise2⟩ ⟨(x0 : α) + 3, noise3⟩ ((x0 : α) + 1 + relX)
  return max (-1) (min 1 noiseX)

/-- The method `PerlinCatmullRom.Noise` as an operation on its receiver. -/
def PerlinCatmullRom.NoiseM {σ α : Type} [LinearOrderedField α] [FloorRing α]
    (m : MathLib α) (fuel : Nat) (x y : α) : StateT (PerlinCatmullRom σ) Option α := do
  let x0 := intFloor x
  let y0 := intFloor y
  let relX := x - (x0 : α)
  let relY := y - (y0 : α)
  let x0 := addWhileNegative (intMod (x0 - 1) hashSize2D)
  let y0 := addWhileNegative (intMod (y0 - 1) hashSize2D)
  let noiseX0 ← PerlinCatmullRom.rowNoiseM m fuel x0 relX y0 (relY + 1)
  let noiseX1 ← PerlinCatmullRom.rowNoiseM m fuel x0 relX (y0 + 1) relY
  let noiseX2 ← PerlinCatmullRom.rowNoiseM m fuel x0 relX (y0 + 2) (relY - 1)
  let noiseX3 ← PerlinCatmullRom.rowNoiseM m fuel x0 relX (y0 + 3) (relY - 2)
  let noise ← PerlinCatmullRom.splineValueM m fuel ⟨(y0 : α), noiseX0⟩
    ⟨(y0 : α) + 1, noiseX1⟩ ⟨(y0 : α) + 2, noiseX2⟩ ⟨(y0 : α) + 3, noiseX3⟩
    ((y0 : α) + 1 + relY)
  return noise

/-! ## The conversion `int(math.Floor(x))` outside the range of `int` -/

/-- The function `intFloor` with the 64-bit conversion: `int(math.Floor(x))`
is the floor when it fits in an `int` (`-2^63 <= floor < 2^63`); outside that
range the Go specification leaves the result to the implementation, and on
amd64 the conversion yields `-2^63`. -/
def intFloor64 {α : Type} [LinearOrderedField α] [FloorRing α] (x : α) : Int :=
  if -9223372036854775808 ≤ ⌊x⌋ ∧ ⌊x⌋ < 9223372036854775808 then ⌊x⌋
  else -9223372036854775808

/-- The method `Perlin.Noise` with the 64-bit conversion `intFloor64` for
`intFloor`; `none` when an index is out of range. -/
def Perlin.Noise64 {σ α : Type} [LinearOrderedField α] [FloorRing α]
    (m : MathLib α) (s : Perlin σ) (x y : α) : Option α := do
  let x0 := intFloor64 x
  let y0 := intFloor64 y
  let relX := x - (x0 : α)
  let relY := y - (y0 : α)
  let x0 := addWhileNegative (intMod x0 hashSize2D)
  let y0 := addWhileNegative (intMod y0 hashSize2D)
  let hy0 ← index s.hash y0
  let h00 ← index s.hash (x0 + hy0)
  let grad00 := intMod h00 (gradient2D m).length
  let h10 ← index s.hash (x0 + 1 + hy0)
  let grad10 := intMod h10 (gradient2D m).length
  let hy1 ← index s.hash (y0 + 1)
  let h01 ← index s.hash (x0 + hy1)
  let grad01 := intMod h01 (gradient2D m).length
  let h11 ← index s.hash (x0 + 1 + hy1)
  let grad11 := intMod h11 (gradient2D m).length
  let g00 ← index (gradient2D m) grad00
  let noise00 := g00.DotFloat64 relX relY
  let g10 ← index (gradient2D m) grad10
  let noise10 := g10.DotFloat64 (relX - 1) relY
  let g01 ← index (gradient2D m) grad01
  let noise01 := g01.DotFloat64 relX (relY - 1)
  let g11 ← index (gradient2D m) grad11
  let noise11 := g11.DotFloat64 (relX - 1) (relY - 1)
  let fadeX := fader relX
  let fadeY := fader relY
  let noiseX0 := linearInterpolation noise00 noise10 fadeX
  let noiseX1 := linearInterpolation noise01 noise11 fadeX
  return linearInterpolation noiseX0 noiseX1 fadeY

/-! ## The rounding of float64 in the loop of `catmullRomCached.init` -/

/-- Rounding of a rational to the nearest integer, a tie going to the even
neighbour. -/
def roundTiesEven (q : ℚ) : Int :=
  if q - (⌊q⌋ : ℚ) < 1 / 2 then ⌊q⌋
  else if 1 / 2 < q - (⌊q⌋ : ℚ) then ⌊q⌋ + 1
  else if ⌊q⌋ % 2 = 0 then ⌊q⌋ else ⌊q⌋ + 1

/-- The float64 nearest to a rational, as IEEE 754 rounds the exact result of
an operation (round to nearest, ties to even, 53 significant bits); the
exponent range of float64 is not modelled. -/
def float64Round (q : ℚ) : ℚ :=
  if q = 0 then 0
  else (roundTiesEven (q / 2 ^ (Int.log 2 |q| - 52)) : ℚ) * 2 ^ (Int.log 2 |q| - 52)

/-- The loop of `catmullRomCached.init` with the result of `t += delta`
rounded by `rnd`: `rnd = id` is the loop in exact arithmetic
(`catmullRomCached.initLoop`), `rnd = float64Round` is the loop as float64
executes it. The points `curve.At t` themselves are not rounded. -/
def catmullRomCached.initLoopRounded {α : Type} [LinearOrderedField α] [FloorRing α]
    (rnd : α → α) (curve : catmullRom α) (delta : α) :
    Nat → α → List (point2D α) → Option (List (point2D α))
  | 0, _, _ => none
  | fuel + 1, t, cache =>
    if t ≤ curve.UpperT then
      catmullRomCached.initLoopRounded rnd curve delta fuel (rnd (t + delta))
        (cache ++ [curve.At t])
    else some cache

/-- The method `catmullRomCached.init` with the results of the subtraction,
the division and `t += delta` rounded by `rnd`. -/
def catmullRomCached.initRounded {α : Type} [LinearOrderedField α] [FloorRing α]
    (rnd : α → α) (fuel : Nat) (c : catmullRomCached α) (curve : catmullRom α)
    (nPoints : Int) : Option (catmullRomCached α) :=
  let nPoints := if nPoints ≤ 2 then 3 else nPoints
  let delta := rnd (rnd (curve.UpperT - curve.LowerT) / ((nPoints - 1 : Int) : α))
  (catmullRomCached.initLoopRounded rnd curve delta fuel curve.LowerT c.cache).map
    fun cache => { cache := cache }

/-! ## Specification predicates -/

/-- The construction invariant of a permutation table: `2 * hashSize2D`
entries, each in `[0, hashSize2D)`, and the second half repeats the first. -/
def TableInvariant (hash : List Int) : Prop :=
  (hash.length : Int) = 2 * hashSize2D ∧
  (∀ v ∈ hash, 0 ≤ v ∧ v < hashSize2D) ∧
  ∀ i : Int, 0 ≤ i → i < hashSize2D →
    ∃ v, index hash i = some v ∧ index hash (i + hashSize2D) = some v

/-- The x coordinates of the samples never decrease along the cache. -/
def NonDecreasingX {α : Type} [LinearOrderedField α] (cache : List (point2D α)) : Prop :=
  List.Pairwise (fun p q => p.X ≤ q.X) cache

/-- The x coordinates of the samples strictly increase along the cache. -/
def StrictlyIncreasingX {α : Type} [LinearOrderedField α] (cache : List (point2D α)) : Prop :=
  List.Pairwise (fun p q => p.X < q.X) cache

/-- The sample at position `j`, or the origin outside the cache: a total
accessor used to state the loop invariants. -/
def sampleAt {α : Type} [LinearOrderedField α] (cache : List (point2D α)) (j : Int) :
    point2D α :=
  (index cache j).getD ⟨0, 0⟩

/-- The number of samples the spec asks of the cache: `max(nPoints, 3)`. -/
def sampleCount (nPoints : Int) : Nat := (max nPoints 3).toNat

/-- The parameter of sample `k` out of `m` evenly spaced ones over
`[LowerT, UpperT]`: `t1 + k*(t2 - t1)/(m - 1)`. -/
def sampleParam {α : Type} [LinearOrderedField α] [FloorRing α] (curve : catmullRom α)
    (m k : Nat) : α :=
  curve.LowerT + (k : α) * (curve.UpperT - curve.LowerT) / ((m : α) - 1)

/-- The cell coordinate after the reduction used by the `Noise` methods:
`v = intMod(c, hashSize2D); for v < 0 { v += hashSize2D }`. -/
def reducedCell (c : Int) : Int := addWhileNegative (intMod c hashSize2D)

/-- The skewed cell coordinate `intFloor(v + (x + y) * coordTransformToUnskew(2))`
of `Simplex.Noise`, for `v = x` (`simplexX`) or `v = y` (`simplexY`), before
its reduction. -/
def simplexCell {α : Type} [LinearOrderedField α] [FloorRing α] (m : MathLib α) (x y v : α) :
    Int :=
  intFloor (v + (x + y) * coordTransformToUnskew m 2)

/-- The contract of `math.Pow` used for uniform splines: `Pow(x, 0) = 1` for
every `x`. -/
def MathLib.PowZeroIsOne {α : Type} [LinearOrderedField α] (m : MathLib α) : Prop :=
  ∀ x : α, m.Pow x 0 = 1

/-- The contract of `math.Sqrt` on non-negative arguments: the result is
non-negative. -/
def MathLib.SqrtNonneg {α : Type} [LinearOrderedField α] (m : MathLib α) : Prop :=
  ∀ z : α, 0 ≤ z → 0 ≤ m.Sqrt z

/-- The contract of `math.Pow` for a non-negative base and an exponent in
`[0, 1]`: the result is non-negative. -/
def MathLib.PowNonneg {α : Type} [LinearOrderedField α] (m : MathLib α) : Prop :=
  ∀ b a : α, 0 ≤ b → 0 ≤ a → a ≤ 1 → 0 ≤ m.Pow b a

/-- The Euclidean chord length `|q - p|`, as `nextT` computes it:
`math.Sqrt(dx*dx + dy*dy)`. -/
def chordLength {α : Type} [LinearOrderedField α] (m : MathLib α) (p q : point2D α) : α :=
  m.Sqrt ((q.X - p.X) * (q.X - p.X) + (q.Y - p.Y) * (q.Y - p.Y))

/-- The contract of `math.Sqrt` and `math.Pow` that keeps the knots of a
centripetal spline apart: a chord of squared length at least 1 gives a
positive knot interval `Pow(Sqrt(z), 0.5)`. -/
def MathLib.ChordPositive {α : Type} [LinearOrderedField α] (m : MathLib α) : Prop :=
  ∀ z : α, 1 ≤ z → 0 < m.Pow (m.Sqrt z) (1 / 2)

/-- The contract of `math.Sqrt` in exact arithmetic: on a non-negative
argument the result is the non-negative square root. -/
def MathLib.SqrtExact {α : Type} [LinearOrderedField α] (m : MathLib α) : Prop :=
  ∀ z : α, 0 ≤ z → 0 ≤ m.Sqrt z ∧ m.Sqrt z * m.Sqrt z = z

/-- The contract of `math.Pow(b, 0.5)` in exact arithmetic: on a non-negative
base the result is the non-negative square root. -/
def MathLib.PowHalfExact {α : Type} [LinearOrderedField α] (m : MathLib α) : Prop :=
  ∀ b : α, 0 ≤ b → 0 ≤ m.Pow b (1 / 2) ∧ m.Pow b (1 / 2) * m.Pow b (1 / 2) = b

/-- The contract of `math.Cos` and `math.Sin` in exact arithmetic that makes
the vectors of `gradient2D` unit vectors. -/
def MathLib.UnitCircle {α : Type} [LinearOrderedField α] (m : MathLib α) : Prop :=
  ∀ θ : α, m.Cos θ * m.Cos θ + m.Sin θ * m.Sin θ = 1

/-- The offset `firstX` (for `v = x`) or `firstY` (for `v = y`) of
`Simplex.Noise`: `v - (float64(simplexV) +
float64(simplexX+simplexY) * coordTransformToSkew(2))`, with the cell
coordinates taken before their reduction. `Simplex.Noise_eq_first` expresses
`Simplex.Noise` through it. -/
def simplexFirst {α : Type} [LinearOrderedField α] [FloorRing α] (m : MathLib α) (x y v : α) :
    α :=
  v - ((simplexCell m x y v : α) +
    ((simplexCell m x y x + simplexCell m x y y : Int) : α) * coordTransformToSkew m 2)

/-- The gradient index that `Perlin.Noise` computes for a corner of a cell:
`intMod(s.hash[x+s.hash[y]], len(gradient2D))`, where `(x, y)` is
`(x0, y0)` for `grad00`, `(x0+1, y0)` for `grad10`, `(x0, y0+1)` for `grad01`
and `(x0+1, y0+1)` for `grad11`; `none` when a lookup is out of range.
`Perlin.Noise_eq_gradIndex` expresses `Perlin.Noise` through it. -/
def Perlin.gradIndex {σ α : Type} [LinearOrderedField α] [FloorRing α] (s : Perlin σ)
    (m : MathLib α) (x y : Int) : Option Int :=
  (index s.hash y).bind fun hy =>
    (index s.hash (x + hy)).map fun h => intMod h (gradient2D m).length

/-- A contract of `math.Sqrt` that holds for the exact square root and for
its correctly rounded float64 value: an argument of at least 1 gives a
result of at least 1. -/
def MathLib.SqrtGeOne {α : Type} [LinearOrderedField α] (m : MathLib α) : Prop :=
  ∀ z : α, 1 ≤ z → 1 ≤ m.Sqrt z

/-- A contract of `math.Pow(b, 0.5)` that holds for the exact square root: a
base of at least 1 gives a result of at least 1. -/
def MathLib.PowHalfGeOne {α : Type} [LinearOrderedField α] (m : MathLib α) : Prop :=
  ∀ b : α, 1 ≤ b → 1 ≤ m.Pow b (1 / 2)

/-- The state of a random source after `k` calls of `Intn(hashSize2D)`. -/
def drawState {σ : Type} (lib : RandLib σ) (rng : σ) (k : Nat) : σ :=
  (fun st => (lib.Intn st hashSize2D).2)^[k] rng

/-- The `k`-th number (counted from 0) that a random source gives to
successive calls of `Intn(hashSize2D)`. -/
def drawAt {σ : Type} (lib : RandLib σ) (rng : σ) (k : Nat) : Int :=
  (lib.Intn (drawState lib rng k) hashSize2D).1

/-- The permutation table the spec describes for a seed: the first
`hashSize2D` numbers drawn from the source seeded with it, followed by a
second copy of the same sequence. -/
def seedTable {σ : Type} (lib : RandLib σ) (seed : Int) : List Int :=
  (List.range hashSize2D.toNat).map (drawAt lib (lib.NewSource seed)) ++
    (List.range hashSize2D.toNat).map (drawAt lib (lib.NewSource seed))

/-! ## Sample inputs for evaluation -/

/-- A linear congruential generator, as a sample random source. -/
def lcgRand : RandLib Nat where
  NewSource := fun seed => seed.toNat
  Intn := fun st n => (((st % n.toNat : Nat) : Int), (st * 1103515245 + 12345) % 2147483648)

/-- Rational stand-ins for the irrational functions of `math`, to evaluate
the definitions on concrete inputs over `ℚ`. -/
def ratMath : MathLib ℚ where
  Pi := 22 / 7
  Cos := fun x => 1 - x * x / 2
  Sin := fun x => x
  Sqrt := fun x => (x + 1) / 2
  Pow := fun x a => 1 + a * (x - 1)

/-- A cache of five samples with strictly increasing x, for evaluation. -/
def cacheFive : catmullRomCached ℚ :=
  { cache := [⟨0, 0⟩, ⟨1, 0⟩, ⟨2, 1⟩, ⟨3, 0⟩, ⟨4, 0⟩] }

/-- A cache of three samples with strictly increasing x, for evaluation. -/
def cacheThree : catmullRomCached ℚ :=
  { cache := [⟨0, 0⟩, ⟨1, 1⟩, ⟨2, 2⟩] }

/-- A uniform spline (knots `t1 = 1`, `t2 = 2`, `t3 = 3`, as `newCatmullRom`
sets them for `alpha = 0`), for evaluation. -/
def splineSample : catmullRom ℚ :=
  { alpha := 0, p0 := ⟨0, 0⟩, p1 := ⟨1, 1⟩, p2 := ⟨2, 0⟩, p3 := ⟨3, 1⟩, t1 := 1, t2 := 2, t3 := 3 }

/-- Rational stand-ins for the functions of `math` that are exact at zero:
`Sqrt(0) = 0`, `Pow(x, 0) = 1` and `Pow(0, a) = 0` for `a ≠ 0`. -/
def ratMathZero : MathLib ℚ where
  Pi := 22 / 7
  Cos := fun x => 1 - x * x / 2
  Sin := fun x => x
  Sqrt := fun x => x
  Pow := fun b a => if a = 0 then 1 else b

/-- A centripetal spline whose second and third control points coincide, so
that its knots `t1` and `t2` coincide. -/
def splineCoincident : catmullRom ℚ :=
  newCentripetal ratMathZero ⟨0, 0⟩ ⟨1, 1⟩ ⟨1, 1⟩ ⟨2, 0⟩

/-- A noise source for evaluation: `Noise(x, y) = 5 + 2*y`. -/
def noiserRows : Noiser ℚ := { Noise := fun _ y => 5 + 2 * y }

/-- A stand-in for the image library, for evaluation: `uint16` truncates and
wraps, and `Encode` writes the pixels themselves and reports no error. -/
def imageLibSample : ImageLib ℚ where
  Uint16 := fun v => (⌊v⌋ % 65536).toNat
  Encode := fun img => (img.flatten, none)

/-! # Theorems -/

/-! ## Lemmas on the utilities -/

theorem index_eq_getElem {β : Type} (l : List β) (i : Int) (h0 : 0 ≤ i)
    (h1 : i.toNat < l.length) : index l i = some (l.get ⟨i.toNat, h1⟩) := by
  unfold index
  rw [if_pos h0]
  exact List.getElem?_eq_getElem h1

theorem index_isSome_of_lt {β : Type} (l : List β) (i : Int) (h0 : 0 ≤ i)
    (h1 : i < (l.length : Int)) : ∃ v, index l i = some v ∧ v ∈ l := by
  have h2 : i.toNat < l.length := by omega
  exact ⟨l.get ⟨i.toNat, h2⟩, index_eq_getElem l i h0 h2, List.get_mem l _ _⟩

theorem index_natCast {β : Type} (l : List β) (n : Nat) : index l (n : Int) = l[n]? := by
  unfold index
  simp

theorem addWhileNegative_of_nonneg (v : Int) (h : 0 ≤ v) : addWhileNegative v = v := by
  rw [addWhileNegative, if_neg (not_lt.mpr h)]

theorem addWhileNegative_of_neg (v : Int) (h : v < 0) (h2 : -hashSize2D ≤ v) :
    addWhileNegative v = v + hashSize2D := by
  rw [addWhileNegative, if_pos h]
  exact addWhileNegative_of_nonneg _ (by omega)

theorem tmod_neg_bounds (a b : Int) (ha : a < 0) (hb : 0 < b) :
    -b < Int.tmod a b ∧ Int.tmod a b ≤ 0 := by
  obtain ⟨n, rfl⟩ := Int.eq_negSucc_of_lt_zero ha
  obtain ⟨k, rfl⟩ := Int.eq_ofNat_of_zero_le hb.le
  have hk : 0 < k := by exact_mod_cast hb
  have h : Int.tmod (Int.negSucc n) (k : Int) = -(((n + 1) % k : Nat) : Int) := rfl
  rw [h]
  have := Nat.mod_lt (n + 1) hk
  omega

theorem intMod_bounds (a b : Int) (hb : 0 < b) : -b < intMod a b ∧ intMod a b < b := by
  unfold intMod
  rcases le_or_lt 0 a with h | h
  · have h1 := Int.tmod_nonneg b h
    have h2 := Int.tmod_lt_of_pos a hb
    omega
  · have h1 := tmod_neg_bounds a b h hb
    omega

theorem intMod_nonneg_bounds (a b : Int) (ha : 0 ≤ a) (hb : 0 < b) :
    0 ≤ intMod a b ∧ intMod a b < b :=
  ⟨Int.tmod_nonneg b ha, Int.tmod_lt_of_pos _ hb⟩

theorem wrap_bounds (c : Int) :
    0 ≤ addWhileNegative (intMod c hashSize2D) ∧
      addWhileNegative (intMod c hashSize2D) < hashSize2D := by
  have hpos : (0 : Int) < hashSize2D := by decide
  obtain ⟨h1, h2⟩ := intMod_bounds c hashSize2D hpos
  rcases le_or_lt 0 (intMod c hashSize2D) with h | h
  · rw [addWhileNegative_of_nonneg _ h]
    exact ⟨h, h2⟩
  · rw [addWhileNegative_of_neg _ h (by omega)]
    omega

/-! ## The permutation table -/

theorem appendDraws_length {σ : Type} (lib : RandLib σ) (n : Nat) (rng : σ) (hash : List Int) :
    (appendDraws lib n rng hash).2.length = hash.length + n := by
  induction n generalizing rng hash with
  | zero => simp [appendDraws]
  | succ k ih =>
    rw [appendDraws, ih]
    simp
    omega

theorem appendDraws_range {σ : Type} (lib : RandLib σ) (hlib : lib.InRange) (n : Nat) (rng : σ)
    (hash : List Int) (hh : ∀ v ∈ hash, 0 ≤ v ∧ v < hashSize2D) :
    ∀ v ∈ (appendDraws lib n rng hash).2, 0 ≤ v ∧ v < hashSize2D := by
  induction n generalizing rng hash with
  | zero => simpa [appendDraws] using hh
  | succ k ih =>
    rw [appendDraws]
    apply ih
    intro v hv
    rcases List.mem_append.mp hv with h | h
    · exact hh v h
    · rw [List.mem_singleton] at h
      rw [h]
      exact hlib rng hashSize2D (by decide)

theorem tableInvariant_double (d : List Int) (hlen : (d.length : Int) = hashSize2D)
    (hr : ∀ v ∈ d, 0 ≤ v ∧ v < hashSize2D) : TableInvariant (d ++ d) := by
  refine ⟨?_, ?_, ?_⟩
  · rw [List.length_append]
    push_cast
    omega
  · intro v hv
    rcases List.mem_append.mp hv with h | h <;> exact hr v h
  · intro i h0 h1
    have hi : i.toNat < d.length := by omega
    refine ⟨d.get ⟨i.toNat, hi⟩, ?_, ?_⟩
    · unfold index
      rw [if_pos h0, List.getElem?_append_left hi]
      exact List.getElem?_eq_getElem hi
    · unfold index
      have h2 : (0 : Int) ≤ i + hashSize2D := by omega
      have h3 : (i + hashSize2D).toNat = d.length + i.toNat := by omega
      rw [if_pos h2, h3, List.getElem?_append_right (by omega)]
      simp only [add_tsub_cancel_left]
      exact List.getElem?_eq_getElem hi

theorem tableInvariant_draws {σ : Type} (lib : RandLib σ) (hlib : lib.InRange) (rng : σ) :
    TableInvariant ((appendDraws lib hashSize2D.toNat rng []).2 ++
      (appendDraws lib hashSize2D.toNat rng []).2) := by
  apply tableInvariant_double
  · rw [appendDraws_length]
    decide
  · exact appendDraws_range lib hlib _ rng [] (by simp)

theorem TableInvariant.index_lt {hash : List Int} (hv : TableInvariant hash) (k : Int)
    (h0 : 0 ≤ k) (h1 : k < 2 * hashSize2D) :
    ∃ v, index hash k = some v ∧ 0 ≤ v ∧ v < hashSize2D := by
  obtain ⟨v, hv1, hv2⟩ := index_isSome_of_lt hash k h0 (by rw [hv.1]; exact h1)
  exact ⟨v, hv1, hv.2.1 v hv2⟩

theorem gradient2D_length {α : Type} [LinearOrderedField α] [FloorRing α] (m : MathLib α) :
    (gradient2D m).length = 12 := rfl

theorem gradient2D_index {α : Type} [LinearOrderedField α] [FloorRing α] (m : MathLib α)
    (h : Int) (h0 : 0 ≤ h) :
    ∃ g, index (gradient2D m) (intMod h (gradient2D m).length) = some g := by
  have hb := intMod_nonneg_bounds h (gradient2D m).length h0 (by rw [gradient2D_length]; decide)
  obtain ⟨g, hg, _⟩ := index_isSome_of_lt (gradient2D m) _ hb.1 hb.2
  exact ⟨g, hg⟩

theorem lcgRand_inRange : lcgRand.InRange := by
  intro st n hn
  have h : st % n.toNat < n.toNat := Nat.mod_lt _ (by omega)
  simp only [lcgRand]
  omega

theorem table_invariant_of_draws {σ : Type} (hash : List Int) (lib : RandLib σ)
    (hlib : lib.InRange) (rng : σ)
    (h : hash = (appendDraws lib hashSize2D.toNat rng []).2 ++
      (appendDraws lib hashSize2D.toNat rng []).2) : TableInvariant hash := by
  rw [h]
  exact tableInvariant_draws lib hlib rng

theorem Perlin.Noise_lattice {σ α : Type} [LinearOrderedField α] [FloorRing α]
    (m : MathLib α) (s : Perlin σ) (hs : TableInvariant s.hash) (i j : Int) :
    Perlin.Noise m s (i : α) (j : α) = some 0 := by
  have hH : hashSize2D = 8192 := by decide
  obtain ⟨hx0, hx1⟩ := wrap_bounds i
  obtain ⟨hy0, hy1⟩ := wrap_bounds j
  obtain ⟨vy0, ey0, ry0, ry0'⟩ := hs.index_lt _ hy0 (by omega)
  obtain ⟨vy1, ey1, ry1, ry1'⟩ :=
    hs.index_lt (addWhileNegative (intMod j hashSize2D) + 1) (by omega) (by omega)
  obtain ⟨v00, e00, r00, _⟩ :=
    hs.index_lt (addWhileNegative (intMod i hashSize2D) + vy0) (by omega) (by omega)
  obtain ⟨v10, e10, r10, _⟩ :=
    hs.index_lt (addWhileNegative (intMod i hashSize2D) + 1 + vy0) (by omega) (by omega)
  obtain ⟨v01, e01, r01, _⟩ :=
    hs.index_lt (addWhileNegative (intMod i hashSize2D) + vy1) (by omega) (by omega)
  obtain ⟨v11, e11, r11, _⟩ :=
    hs.index_lt (addWhileNegative (intMod i hashSize2D) + 1 + vy1) (by omega) (by omega)
  obtain ⟨g00, eg00⟩ := gradient2D_index m v00 r00
  obtain ⟨g10, eg10⟩ := gradient2D_index m v10 r10
  obtain ⟨g01, eg01⟩ := gradient2D_index m v01 r01
  obtain ⟨g11, eg11⟩ := gradient2D_index m v11 r11
  simp only [Perlin.Noise, intFloor, Int.floor_intCast, ey0, ey1, e00, e10, e01, e11, eg00,
    eg10, eg01, eg11, Option.bind_eq_bind, Option.some_bind, Option.pure_def, sub_self]
  simp [linearInterpolation, fader, point2D.DotFloat64]

/-- C10: after construction by `NewPerlin`, `NewSimplex` or
`NewPerlinCatmullRom`, the permutation table has exactly `2 * hashSize2D`
entries, every entry lies in `[0, hashSize2D)`, and `table[i]` equals
`table[i + hashSize2D]` for every `i` in `[0, hashSize2D)`, provided the
random source returns values of `Intn(n)` in `[0, n)`. -/
theorem table_invariant_after_construction {σ : Type} (lib : RandLib σ) (hlib : lib.InRange)
    (seed : Int) (splineCacheSize : Int) :
    TableInvariant (NewPerlin lib seed).hash ∧
      TableInvariant (NewSimplex lib seed).hash ∧
      TableInvariant (NewPerlinCatmullRom lib splineCacheSize seed).hash :=
  ⟨table_invariant_of_draws _ lib hlib _ rfl, table_invariant_of_draws _ lib hlib _ rfl,
    table_invariant_of_draws _ lib hlib _ rfl⟩

theorem table_invariant_after_construction_witness :
    lcgRand.InRange ∧
      (TableInvariant (NewPerlin lcgRand 42).hash ∧
        TableInvariant (NewSimplex lcgRand 42).hash ∧
        TableInvariant (NewPerlinCatmullRom lcgRand 2 42).hash) :=
  ⟨lcgRand_inRange, table_invariant_after_construction lcgRand lcgRand_inRange 42 2⟩

/-! ## The spline cache: binary search -/

theorem index_eq_sampleAt {α : Type} [LinearOrderedField α] (l : List (point2D α)) (j : Int) (h0 : 0 ≤ j)
    (h1 : j < (l.length : Int)) : index l j = some (sampleAt l j) := by
  obtain ⟨v, hv, _⟩ := index_isSome_of_lt l j h0 h1
  simp [sampleAt, hv]

theorem sampleAt_le {α : Type} [LinearOrderedField α] (l : List (point2D α)) (hl : NonDecreasingX l) (i j : Int) (h0 : 0 ≤ i)
    (hij : i ≤ j) (h1 : j < (l.length : Int)) : (sampleAt l i).X ≤ (sampleAt l j).X := by
  rcases eq_or_lt_of_le hij with h | h
  · rw [h]
  · have hi : i.toNat < l.length := by omega
    have hj : j.toNat < l.length := by omega
    have e1 : sampleAt l i = l.get ⟨i.toNat, hi⟩ := by
      simp [sampleAt, index_eq_getElem l i h0 hi]
    have e2 : sampleAt l j = l.get ⟨j.toNat, hj⟩ := by
      simp [sampleAt, index_eq_getElem l j (by omega) hj]
    rw [e1, e2]
    exact List.pairwise_iff_get.mp hl ⟨i.toNat, hi⟩ ⟨j.toNat, hj⟩ (by
      show i.toNat < j.toNat
      omega)

theorem sampleAt_lt {α : Type} [LinearOrderedField α] (l : List (point2D α)) (hl : StrictlyIncreasingX l) (i j : Int)
    (h0 : 0 ≤ i) (hij : i < j) (h1 : j < (l.length : Int)) :
    (sampleAt l i).X < (sampleAt l j).X := by
  have hi : i.toNat < l.length := by omega
  have hj : j.toNat < l.length := by omega
  have e1 : sampleAt l i = l.get ⟨i.toNat, hi⟩ := by
    simp [sampleAt, index_eq_getElem l i h0 hi]
  have e2 : sampleAt l j = l.get ⟨j.toNat, hj⟩ := by
    simp [sampleAt, index_eq_getElem l j (by omega) hj]
  rw [e1, e2]
  exact List.pairwise_iff_get.mp hl ⟨i.toNat, hi⟩ ⟨j.toNat, hj⟩ (by
    show i.toNat < j.toNat
    omega)

/-- One unfolding of the search loop when the loop condition holds. -/
theorem searchLoop_step {α : Type} [LinearOrderedField α] [FloorRing α] (l : List (point2D α)) (x : α) (fuel : Nat) (min max i : Int)
    (hg : min ≤ max ∧ i > 0 ∧ i < (l.length : Int) - 1) :
    catmullRomCached.searchLoop l x (fuel + 1) min max i =
      if (sampleAt l i).X ≤ x ∧ (sampleAt l (i + 1)).X > x then some i
      else if (sampleAt l i).X > x then
        catmullRomCached.searchLoop l x fuel min (i - 1) (Int.tdiv ((i - 1) + min) 2)
      else if (sampleAt l (i + 1)).X ≤ x then
        catmullRomCached.searchLoop l x fuel (i + 1) max (Int.tdiv (max + (i + 1)) 2)
      else catmullRomCached.searchLoop l x fuel min max (Int.tdiv (max + min) 2) := by
  rw [catmullRomCached.searchLoop, if_pos hg, index_eq_sampleAt l i (by omega) (by omega),
    index_eq_sampleAt l (i + 1) (by omega) (by omega)]

/-- One unfolding of the search loop when the loop condition fails. -/
theorem searchLoop_exit {α : Type} [LinearOrderedField α] [FloorRing α] (l : List (point2D α)) (x : α) (fuel : Nat) (min max i : Int)
    (hg : ¬ (min ≤ max ∧ i > 0 ∧ i < (l.length : Int) - 1)) :
    catmullRomCached.searchLoop l x (fuel + 1) min max i = some i := by
  rw [catmullRomCached.searchLoop, if_neg hg]

theorem searchLoop_above {α : Type} [LinearOrderedField α] [FloorRing α] (l : List (point2D α)) (x : α) (hlen : 3 ≤ l.length)
    (hx : ∀ j : Int, 0 ≤ j → j < (l.length : Int) → (sampleAt l j).X ≤ x) :
    ∀ (fuel : Nat) (min i : Int), 0 ≤ min → min ≤ (l.length : Int) - 1 →
      i = ((l.length : Int) - 1 + min) / 2 → (l.length : Int) - min ≤ fuel →
      ∃ r, catmullRomCached.searchLoop l x fuel min ((l.length : Int) - 1) i = some r ∧
        (l.length : Int) - 1 ≤ r := by
  intro fuel
  induction fuel with
  | zero =>
    intro min i _ h2 _ h4
    exfalso
    omega
  | succ k ih =>
    intro min i h1 h2 h3 h4
    by_cases hg : min ≤ (l.length : Int) - 1 ∧ i > 0 ∧ i < (l.length : Int) - 1
    · rw [searchLoop_step l x k min _ i hg]
      have hx1 := hx (i + 1) (by omega) (by omega)
      have hx0 := hx i (by omega) (by omega)
      rw [if_neg (by
        intro h
        exact absurd hx1 (not_le.mpr h.2)), if_neg (not_lt.mpr hx0), if_pos hx1]
      have e : Int.tdiv ((l.length : Int) - 1 + (i + 1)) 2 = ((l.length : Int) - 1 + (i + 1)) / 2 :=
        Int.tdiv_eq_ediv (by omega) (by omega)
      rw [e]
      exact ih (i + 1) _ (by omega) (by omega) rfl (by omega)
    · rw [searchLoop_exit l x k min _ i hg]
      exact ⟨i, rfl, by omega⟩


theorem searchLoop_at_sample {α : Type} [LinearOrderedField α] [FloorRing α]
    (l : List (point2D α)) (hl : StrictlyIncreasingX l) (k : Int) (hk0 : 0 ≤ k)
    (hk1 : k < (l.length : Int)) :
    ∀ (fuel : Nat) (min max i : Int), 0 ≤ min → min ≤ k → k ≤ max →
      max ≤ (l.length : Int) - 1 → i = (max + min) / 2 → max - min < fuel →
      ∃ r, catmullRomCached.searchLoop l (sampleAt l k).X fuel min max i = some r ∧
        0 ≤ r ∧ r ≤ (l.length : Int) - 1 ∧ (r = k ∨ (r = 0 ∧ k = 1)) := by
  intro fuel
  induction fuel with
  | zero =>
    intro min max i _ h2 h3 _ _ h6
    exfalso
    omega
  | succ n ih =>
    intro min max i h1 h2 h3 h4 h5 h6
    by_cases hg : min ≤ max ∧ i > 0 ∧ i < (l.length : Int) - 1
    · rw [searchLoop_step l _ n min max i hg]
      rcases lt_trichotomy i k with hik | hik | hik
      · -- the sample lies to the right of position i
        have hle : (sampleAt l (i + 1)).X ≤ (sampleAt l k).X := by
          rcases eq_or_lt_of_le (show i + 1 ≤ k by omega) with e | e
          · rw [e]
          · exact (sampleAt_lt l hl (i + 1) k (by omega) e hk1).le
        have hlt : (sampleAt l i).X < (sampleAt l k).X :=
          sampleAt_lt l hl i k (by omega) hik hk1
        rw [if_neg (by
          intro h
          exact absurd hle (not_le.mpr h.2)), if_neg (not_lt.mpr hlt.le), if_pos hle]
        have e : Int.tdiv (max + (i + 1)) 2 = (max + (i + 1)) / 2 :=
          Int.tdiv_eq_ediv (by omega) (by omega)
        rw [e]
        exact ih (i + 1) max _ (by omega) (by omega) h3 h4 rfl (by omega)
      · -- the sample is at position i
        have hlt : (sampleAt l k).X < (sampleAt l (k + 1)).X :=
          sampleAt_lt l hl k (k + 1) hk0 (by omega) (by omega)
        rw [hik, if_pos ⟨le_refl _, hlt⟩]
        exact ⟨k, rfl, hk0, by omega, Or.inl rfl⟩
      · -- the sample lies to the left of position i
        have hlt : (sampleAt l k).X < (sampleAt l i).X :=
          sampleAt_lt l hl k i hk0 hik (by omega)
        rw [if_neg (by
          intro h
          exact absurd h.1 (not_le.mpr hlt)), if_pos hlt]
        have e : Int.tdiv ((i - 1) + min) 2 = ((i - 1) + min) / 2 :=
          Int.tdiv_eq_ediv (by omega) (by omega)
        rw [e]
        exact ih min (i - 1) _ h1 h2 (by omega) (by omega) rfl (by omega)
    · rw [searchLoop_exit l _ n min max i hg]
      refine ⟨i, rfl, by omega, by omega, ?_⟩
      omega

/-! ## The spline cache: `InterpolateX` -/

theorem sampleAt_of_index {α : Type} [LinearOrderedField α] (l : List (point2D α)) (k : Int)
    (p : point2D α) (h : index l k = some p) :
    0 ≤ k ∧ k < (l.length : Int) ∧ sampleAt l k = p := by
  unfold index at h
  by_cases h0 : 0 ≤ k
  · rw [if_pos h0] at h
    have h1 : k.toNat < l.length := (List.getElem?_eq_some.mp h).1
    refine ⟨h0, by omega, ?_⟩
    simp [sampleAt, index, h0, h]
  · rw [if_neg h0] at h
    exact absurd h (by simp)

theorem sampleAt_last {α : Type} [LinearOrderedField α] (l : List (point2D α))
    (p : point2D α) (h : l.getLast? = some p) :
    index l ((l.length : Int) - 1) = some p := by
  have hne : l ≠ [] := by
    intro e
    rw [e] at h
    exact absurd h (by simp)
  have hpos : 0 < l.length := List.length_pos.mpr hne
  rw [List.getLast?_eq_getElem?] at h
  unfold index
  rw [if_pos (by omega)]
  have e : ((l.length : Int) - 1).toNat = l.length - 1 := by omega
  rw [e]
  exact h

/-- C4: for every cache of at least 3 samples with non-decreasing x and
every `x` at or above the last sample's x, `InterpolateX(x)` returns the last
sample's y (for every amount of fuel not below the cache length). -/
theorem InterpolateX_at_or_above_last {α : Type} [LinearOrderedField α] [FloorRing α]
    (c : catmullRomCached α) (hlen : 3 ≤ c.cache.length) (hmono : NonDecreasingX c.cache)
    (last : point2D α) (hlast : c.cache.getLast? = some last) (x : α) (hx : last.X ≤ x)
    (fuel : Nat) (hfuel : c.cache.length ≤ fuel) :
    c.InterpolateX fuel x = some last.Y := by
  have hi := sampleAt_last c.cache last hlast
  obtain ⟨_, _, hs⟩ := sampleAt_of_index c.cache _ last hi
  have hall : ∀ j : Int, 0 ≤ j → j < (c.cache.length : Int) → (sampleAt c.cache j).X ≤ x := by
    intro j h0 h1
    have := sampleAt_le c.cache hmono j ((c.cache.length : Int) - 1) h0 (by omega) (by omega)
    rw [hs] at this
    exact le_trans this hx
  have e : Int.tdiv ((c.cache.length : Int) - 1 + 0) 2 = ((c.cache.length : Int) - 1 + 0) / 2 :=
    Int.tdiv_eq_ediv (by omega) (by omega)
  obtain ⟨r, hr, hr2⟩ := searchLoop_above c.cache x hlen hall fuel 0
    (Int.tdiv ((c.cache.length : Int) - 1 + 0) 2) (le_refl _) (by omega) e (by omega)
  unfold catmullRomCached.InterpolateX
  rw [if_neg (by omega)]
  simp only [hr]
  rw [if_pos hr2, hi]
  rfl

/-- C5: for every cache of at least 3 samples with strictly increasing x and
every index `k`, `InterpolateX(cache[k].X)` returns `cache[k].Y`, in exact
arithmetic (for every amount of fuel not below the cache length). -/
theorem InterpolateX_at_sample {α : Type} [LinearOrderedField α] [FloorRing α]
    (c : catmullRomCached α) (hlen : 3 ≤ c.cache.length) (hinc : StrictlyIncreasingX c.cache)
    (k : Int) (p : point2D α) (hk : index c.cache k = some p)
    (fuel : Nat) (hfuel : c.cache.length ≤ fuel) :
    c.InterpolateX fuel p.X = some p.Y := by
  obtain ⟨hk0, hk1, hp⟩ := sampleAt_of_index c.cache k p hk
  have e : Int.tdiv ((c.cache.length : Int) - 1 + 0) 2 = ((c.cache.length : Int) - 1 + 0) / 2 :=
    Int.tdiv_eq_ediv (by omega) (by omega)
  obtain ⟨r, hr, hr0, hr1, hr2⟩ := searchLoop_at_sample c.cache hinc k hk0 hk1 fuel 0
    ((c.cache.length : Int) - 1) (Int.tdiv ((c.cache.length : Int) - 1 + 0) 2) (le_refl _) hk0
    (by omega) (le_refl _) e (by omega)
  rw [hp] at hr
  unfold catmullRomCached.InterpolateX
  rw [if_neg (by omega)]
  simp only [hr]
  by_cases hge : r ≥ (c.cache.length : Int) - 1
  · rw [if_pos hge]
    have hrk : (c.cache.length : Int) - 1 = k := by omega
    rw [hrk, hk]
    rfl
  · rw [if_neg hge, if_neg (not_lt.mpr hr0), index_eq_sampleAt c.cache r hr0 (by omega),
      index_eq_sampleAt c.cache (r + 1) (by omega) (by omega)]
    simp only [point2D.LinearInterpolation]
    rcases hr2 with h | ⟨h0, h1⟩
    · rw [h, hp]
      simp
    · have hlt := sampleAt_lt c.cache hinc 0 1 (le_refl _) (by omega) (by omega)
      rw [h0, zero_add, ← h1, hp] at *
      have hne : p.X - (sampleAt c.cache 0).X ≠ 0 := sub_ne_zero.mpr (ne_of_gt hlt)
      rw [mul_div_assoc, div_self hne]
      simp

theorem InterpolateX_at_or_above_last_witness :
    3 ≤ cacheThree.cache.length ∧ NonDecreasingX cacheThree.cache ∧
      cacheThree.cache.getLast? = some ⟨2, 2⟩ ∧ (2 : ℚ) ≤ 5 ∧
      cacheThree.cache.length ≤ 3 ∧ cacheThree.InterpolateX 3 5 = some 2 := by
  have h1 : 3 ≤ cacheThree.cache.length := by decide
  have h2 : NonDecreasingX cacheThree.cache := by
    simp [NonDecreasingX, cacheThree]
  have h3 : cacheThree.cache.getLast? = some ⟨2, 2⟩ := rfl
  have h4 : (2 : ℚ) ≤ 5 := by norm_num
  have h5 : cacheThree.cache.length ≤ 3 := by decide
  exact ⟨h1, h2, h3, h4, h5, InterpolateX_at_or_above_last cacheThree h1 h2 ⟨2, 2⟩ h3 5 h4 3 h5⟩

theorem InterpolateX_at_sample_witness :
    3 ≤ cacheFive.cache.length ∧ StrictlyIncreasingX cacheFive.cache ∧
      index cacheFive.cache 2 = some ⟨2, 1⟩ ∧ cacheFive.cache.length ≤ 5 ∧
      cacheFive.InterpolateX 5 2 = some 1 := by
  have h1 : 3 ≤ cacheFive.cache.length := by decide
  have h2 : StrictlyIncreasingX cacheFive.cache := by
    simp [StrictlyIncreasingX, cacheFive]
    norm_num
  have h3 : index cacheFive.cache 2 = some ⟨2, 1⟩ := rfl
  have h5 : cacheFive.cache.length ≤ 5 := by decide
  exact ⟨h1, h2, h3, h5, InterpolateX_at_sample cacheFive h1 h2 2 ⟨2, 1⟩ h3 5 h5⟩

theorem InterpolateX_of_search {α : Type} [LinearOrderedField α] [FloorRing α]
    (c : catmullRomCached α) (x : α) (fuel : Nat) (r : Int) (hne : c.cache.length ≠ 0)
    (hs : catmullRomCached.searchLoop c.cache x fuel 0 ((c.cache.length : Int) - 1)
      (Int.tdiv ((c.cache.length : Int) - 1 + 0) 2) = some r)
    (h0 : 0 ≤ r) (h1 : r < (c.cache.length : Int) - 1) :
    c.InterpolateX fuel x =
      some ((sampleAt c.cache r).LinearInterpolation (sampleAt c.cache (r + 1)) x) := by
  unfold catmullRomCached.InterpolateX
  rw [if_neg hne]
  simp only [hs]
  rw [if_neg (not_le.mpr h1), if_neg (not_lt.mpr h0), index_eq_sampleAt c.cache r h0 (by omega),
    index_eq_sampleAt c.cache (r + 1) (by omega) (by omega)]

/-- C2, evaluated on a cache of five samples: the query `x = 3/2` lies in
the bracket of samples 1 and 2, whose linear interpolation is `1/2`, but the
search stops at index 0 and `InterpolateX` returns the value `0` of the line
through samples 0 and 1. -/
theorem InterpolateX_five_samples_wrong_bracket :
    StrictlyIncreasingX cacheFive.cache ∧
      index cacheFive.cache 1 = some ⟨1, 0⟩ ∧ index cacheFive.cache 2 = some ⟨2, 1⟩ ∧
      (1 : ℚ) ≤ 3 / 2 ∧ (3 / 2 : ℚ) < 2 ∧
      (⟨1, 0⟩ : point2D ℚ).LinearInterpolation ⟨2, 1⟩ (3 / 2) = 1 / 2 ∧
      ∀ n : Nat, cacheFive.InterpolateX (n + 2) (3 / 2) = some 0 := by
  refine ⟨?_, rfl, rfl, by norm_num, by norm_num, ?_, ?_⟩
  · simp [StrictlyIncreasingX, cacheFive]
    norm_num
  · norm_num [point2D.LinearInterpolation]
  · intro n
    have a2 : sampleAt cacheFive.cache 2 = ⟨2, 1⟩ := rfl
    have a3 : sampleAt cacheFive.cache (2 + 1) = ⟨3, 0⟩ := rfl
    have a0 : sampleAt cacheFive.cache 0 = ⟨0, 0⟩ := rfl
    have a1 : sampleAt cacheFive.cache (0 + 1) = ⟨1, 0⟩ := rfl
    have hs : catmullRomCached.searchLoop cacheFive.cache (3 / 2 : ℚ) (n + 1 + 1) 0
        ((cacheFive.cache.length : Int) - 1)
        (Int.tdiv ((cacheFive.cache.length : Int) - 1 + 0) 2) = some 0 := by
      show catmullRomCached.searchLoop cacheFive.cache (3 / 2 : ℚ) (n + 1 + 1) 0 4 2 = some 0
      rw [searchLoop_step _ _ _ _ _ _ (by decide), a2, a3, if_neg (by norm_num),
        if_pos (by norm_num)]
      show catmullRomCached.searchLoop cacheFive.cache (3 / 2 : ℚ) (n + 1) 0 1 0 = some 0
      exact searchLoop_exit _ _ _ _ _ _ (by decide)
    rw [show n + 2 = n + 1 + 1 from rfl,
      InterpolateX_of_search cacheFive _ _ 0 (by decide) hs (by decide) (by decide), a0, a1]
    norm_num [point2D.LinearInterpolation]

/-- C3, evaluated on a cache of three samples: for `x = -1`, strictly below
the first sample's x, `InterpolateX` returns `-1`, the extrapolation of the
line through samples 0 and 1, and not the first sample's y, which is `0`. -/
theorem InterpolateX_below_first_extrapolates :
    NonDecreasingX cacheThree.cache ∧ cacheThree.cache.head? = some ⟨0, 0⟩ ∧
      (-1 : ℚ) < 0 ∧ ∀ n : Nat, cacheThree.InterpolateX (n + 2) (-1) = some (-1) := by
  refine ⟨?_, rfl, by norm_num, ?_⟩
  · simp [NonDecreasingX, cacheThree]
  · intro n
    have a1 : sampleAt cacheThree.cache 1 = ⟨1, 1⟩ := rfl
    have a2 : sampleAt cacheThree.cache (1 + 1) = ⟨2, 2⟩ := rfl
    have a0 : sampleAt cacheThree.cache 0 = ⟨0, 0⟩ := rfl
    have a1b : sampleAt cacheThree.cache (0 + 1) = ⟨1, 1⟩ := rfl
    have hs : catmullRomCached.searchLoop cacheThree.cache (-1 : ℚ) (n + 1 + 1) 0
        ((cacheThree.cache.length : Int) - 1)
        (Int.tdiv ((cacheThree.cache.length : Int) - 1 + 0) 2) = some 0 := by
      show catmullRomCached.searchLoop cacheThree.cache (-1 : ℚ) (n + 1 + 1) 0 2 1 = some 0
      rw [searchLoop_step _ _ _ _ _ _ (by decide), a1, a2, if_neg (by norm_num),
        if_pos (by norm_num)]
      show catmullRomCached.searchLoop cacheThree.cache (-1 : ℚ) (n + 1) 0 0 0 = some 0
      exact searchLoop_exit _ _ _ _ _ _ (by decide)
    rw [show n + 2 = n + 1 + 1 from rfl,
      InterpolateX_of_search cacheThree _ _ 0 (by decide) hs (by decide) (by decide), a0, a1b]
    norm_num [point2D.LinearInterpolation]

/-! ## The spline cache: construction -/

theorem initLoop_run {α : Type} [LinearOrderedField α] [FloorRing α] (curve : catmullRom α)
    (delta : α) (hd : 0 < delta) (m : Nat)
    (hm : curve.UpperT = curve.LowerT + ((m : α) - 1) * delta) :
    ∀ (r j : Nat) (acc : List (point2D α)) (fuel : Nat), j + r = m → r < fuel →
      catmullRomCached.initLoop curve delta fuel (curve.LowerT + (j : α) * delta) acc =
        some (acc ++ (List.range' j r).map fun (k : Nat) => curve.At (curve.LowerT + (k : α) * delta)) := by
  intro r
  induction r with
  | zero =>
    intro j acc fuel hj hf
    obtain ⟨f, rfl⟩ : ∃ f, fuel = f + 1 := ⟨fuel - 1, by omega⟩
    have hjm : j = m := by omega
    have hgt : ¬ (curve.LowerT + (j : α) * delta ≤ curve.UpperT) := by
      rw [hm, hjm, not_le]
      have : ((m : α) - 1) * delta < (m : α) * delta :=
        mul_lt_mul_of_pos_right (by linarith) hd
      linarith
    rw [catmullRomCached.initLoop, if_neg hgt]
    simp
  | succ r ih =>
    intro j acc fuel hj hf
    obtain ⟨f, rfl⟩ : ∃ f, fuel = f + 1 := ⟨fuel - 1, by omega⟩
    have hle : curve.LowerT + (j : α) * delta ≤ curve.UpperT := by
      rw [hm]
      have h1 : (j : α) ≤ (m : α) - 1 := by
        have : ((j + 1 : Nat) : α) ≤ (m : α) := by
          exact_mod_cast (show j + 1 ≤ m by omega)
        push_cast at this
        linarith
      have : (j : α) * delta ≤ ((m : α) - 1) * delta :=
        mul_le_mul_of_nonneg_right h1 hd.le
      linarith
    rw [catmullRomCached.initLoop, if_pos hle]
    have e : curve.LowerT + (j : α) * delta + delta = curve.LowerT + ((j + 1 : Nat) : α) * delta := by
      push_cast
      ring
    rw [e, ih (j + 1) _ f (by omega) (by omega)]
    simp [List.range'_succ]

/-! ## Octave noise -/

theorem OctaveNoise.foldl_result {α : Type} [LinearOrderedField α] [FloorRing α]
    (o : OctaveNoise α) (x y : α) :
    ∀ (l : List (Noiser α)) (st : OctaveLoopState α),
      (l.foldl (o.loopBody x y) st).result =
        st.result + ∑ i : Fin l.length,
          (l.get i).Noise (x * (st.frequency * 2 ^ (i : Nat))) (y * (st.frequency * 2 ^ (i : Nat))) *
            (st.amplitude * o.persistence ^ (i : Nat)) := by
  intro l
  induction l with
  | nil =>
    intro st
    simp
  | cons c cs ih =>
    intro st
    rw [List.foldl_cons, ih]
    simp only [List.length_cons, Fin.sum_univ_succ, OctaveNoise.loopBody, List.get_cons_zero,
      List.get_cons_succ, Fin.val_zero, Fin.val_succ, pow_zero, mul_one, pow_succ]
    rw [add_assoc]
    congr 2
    apply Finset.sum_congr rfl
    intro i _
    have e1 : st.frequency * 2 * 2 ^ (i : Nat) = st.frequency * (2 ^ (i : Nat) * 2) := by ring
    have e2 : st.amplitude * o.persistence * o.persistence ^ (i : Nat) =
        st.amplitude * (o.persistence ^ (i : Nat) * o.persistence) := by ring
    rw [e1, e2]
    rfl

/-- C7: `OctaveNoise.Noise(x, y)` is the sum over the children, in the order
of the slice (the order in which `AddOctave` appended them), `i` starting at
0, of `child_i.Noise(x*2^i, y*2^i) * persistence^i`, with no renormalisation;
with no children (as after `NewOctaveNoise`) it is `0`. -/
theorem OctaveNoise_Noise_eq_sum {α : Type} [LinearOrderedField α] [FloorRing α]
    (o : OctaveNoise α) (n : Noiser α) (p x y : α) :
    o.Noise x y =
        ∑ i : Fin o.octaves.length,
          (o.octaves.get i).Noise (x * 2 ^ (i : Nat)) (y * 2 ^ (i : Nat)) *
            o.persistence ^ (i : Nat) ∧
      (o.AddOctave n).octaves = o.octaves ++ [n] ∧
      (o.AddOctave n).persistence = o.persistence ∧
      (NewOctaveNoise p).Noise x y = 0 := by
  refine ⟨?_, rfl, rfl, ?_⟩
  · unfold OctaveNoise.Noise
    rw [OctaveNoise.foldl_result]
    simp
  · simp [OctaveNoise.Noise, NewOctaveNoise]

/-- C8: for every persistence `p`, every noise source `c` and every `(x, y)`,
the octave noise built by `NewOctaveNoise(p)` followed by exactly one
`AddOctave(c)` satisfies `Noise(x, y) = c.Noise(x, y)`. -/
theorem OctaveNoise_single_child {α : Type} [LinearOrderedField α] [FloorRing α]
    (p : α) (c : Noiser α) (x y : α) :
    ((NewOctaveNoise p).AddOctave c).Noise x y = c.Noise x y := by
  simp [OctaveNoise.Noise, NewOctaveNoise, OctaveNoise.AddOctave, OctaveNoise.loopBody]

/-! ## Range reduction of cell coordinates -/

theorem intMod_congr (a b : Int) : ∃ q : Int, a = intMod a b + b * q :=
  ⟨Int.tdiv a b, (Int.tmod_add_tdiv a b).symm⟩

/-- C20: for every integer cell coordinate `c`, the reduction
`v = intMod(c, hashSize2D); for v < 0 { v += hashSize2D }` terminates (the
loop body runs at most once) and yields the Euclidean remainder of `c`
modulo `hashSize2D`: `0 <= v < hashSize2D` and `v ≡ c (mod hashSize2D)`. -/
theorem reduction_is_euclidean_remainder (c : Int) :
    (0 ≤ reducedCell c ∧ reducedCell c < hashSize2D) ∧
      hashSize2D ∣ reducedCell c - c ∧
      reducedCell c = c % hashSize2D ∧
      reducedCell c =
        if intMod c hashSize2D < 0 then intMod c hashSize2D + hashSize2D
        else intMod c hashSize2D := by
  have hH : hashSize2D = 8192 := by decide
  obtain ⟨q, hq⟩ := intMod_congr c hashSize2D
  obtain ⟨hb1, hb2⟩ := intMod_bounds c hashSize2D (by decide)
  have hloop : reducedCell c =
      if intMod c hashSize2D < 0 then intMod c hashSize2D + hashSize2D
      else intMod c hashSize2D := by
    unfold reducedCell
    split
    · next h => exact addWhileNegative_of_neg _ h (by omega)
    · next h => exact addWhileNegative_of_nonneg _ (by omega)
  have hw := wrap_bounds c
  refine ⟨hw, ?_, ?_, hloop⟩
  · rw [hloop]
    split
    · exact ⟨1 - q, by rw [hH] at *; omega⟩
    · exact ⟨-q, by rw [hH] at *; omega⟩
  · rw [hloop]
    rw [hH] at *
    split <;> omega

/-! ## Index safety of the lookups -/

theorem reducedCell_bounds (c : Int) : 0 ≤ reducedCell c ∧ reducedCell c < hashSize2D :=
  wrap_bounds c

/-- C18: for every permutation table satisfying the construction invariant
and every `(x, y)`, every index `Perlin.Noise` uses into the hash table lies
in `[0, 2*hashSize2D)` and every index it uses into `gradient2D` lies in
`[0, 12)`: all lookups succeed and `Noise` returns a value, for every cell,
the wrap cell `hashSize2D - 1` and negative coordinates included. -/
theorem Perlin_Noise_indices_in_bounds {σ α : Type} [LinearOrderedField α] [FloorRing α]
    (m : MathLib α) (s : Perlin σ) (hs : TableInvariant s.hash) (x y : α) :
    ∃ hy0 hy1 h00 h10 h01 h11 : Int,
      (0 ≤ reducedCell (intFloor y) ∧ reducedCell (intFloor y) + 1 < 2 * hashSize2D) ∧
      index s.hash (reducedCell (intFloor y)) = some hy0 ∧
      index s.hash (reducedCell (intFloor y) + 1) = some hy1 ∧
      (0 ≤ reducedCell (intFloor x) + hy0 ∧
        reducedCell (intFloor x) + 1 + hy0 < 2 * hashSize2D) ∧
      (0 ≤ reducedCell (intFloor x) + hy1 ∧
        reducedCell (intFloor x) + 1 + hy1 < 2 * hashSize2D) ∧
      index s.hash (reducedCell (intFloor x) + hy0) = some h00 ∧
      index s.hash (reducedCell (intFloor x) + 1 + hy0) = some h10 ∧
      index s.hash (reducedCell (intFloor x) + hy1) = some h01 ∧
      index s.hash (reducedCell (intFloor x) + 1 + hy1) = some h11 ∧
      (∀ h ∈ [h00, h10, h01, h11],
        0 ≤ intMod h (gradient2D m).length ∧ intMod h (gradient2D m).length < 12 ∧
          (index (gradient2D m) (intMod h (gradient2D m).length)).isSome) ∧
      (Perlin.Noise m s x y).isSome := by
  have hH : hashSize2D = 8192 := by decide
  obtain ⟨hx0, hx1⟩ := reducedCell_bounds (intFloor x)
  obtain ⟨hy0, hy1⟩ := reducedCell_bounds (intFloor y)
  obtain ⟨vy0, ey0, ry0, ry0b⟩ := hs.index_lt _ hy0 (by omega)
  obtain ⟨vy1, ey1, ry1, ry1b⟩ := hs.index_lt (reducedCell (intFloor y) + 1) (by omega) (by omega)
  obtain ⟨v00, e00, r00, _⟩ := hs.index_lt (reducedCell (intFloor x) + vy0) (by omega) (by omega)
  obtain ⟨v10, e10, r10, _⟩ :=
    hs.index_lt (reducedCell (intFloor x) + 1 + vy0) (by omega) (by omega)
  obtain ⟨v01, e01, r01, _⟩ := hs.index_lt (reducedCell (intFloor x) + vy1) (by omega) (by omega)
  obtain ⟨v11, e11, r11, _⟩ :=
    hs.index_lt (reducedCell (intFloor x) + 1 + vy1) (by omega) (by omega)
  obtain ⟨g00, eg00⟩ := gradient2D_index m v00 r00
  obtain ⟨g10, eg10⟩ := gradient2D_index m v10 r10
  obtain ⟨g01, eg01⟩ := gradient2D_index m v01 r01
  obtain ⟨g11, eg11⟩ := gradient2D_index m v11 r11
  have hg : ∀ h : Int, 0 ≤ h →
      0 ≤ intMod h (gradient2D m).length ∧ intMod h (gradient2D m).length < 12 ∧
        (index (gradient2D m) (intMod h (gradient2D m).length)).isSome := by
    intro h h0
    have hb := intMod_nonneg_bounds h (gradient2D m).length h0
      (by rw [gradient2D_length]; decide)
    obtain ⟨g, eg⟩ := gradient2D_index m h h0
    refine ⟨hb.1, ?_, by rw [eg]; rfl⟩
    have := hb.2
    rw [gradient2D_length] at this
    exact this
  refine ⟨vy0, vy1, v00, v10, v01, v11, ⟨hy0, by omega⟩, ey0, ey1, ⟨by omega, by omega⟩,
    ⟨by omega, by omega⟩, e00, e10, e01, e11, ?_, ?_⟩
  · intro h hmem
    simp only [List.mem_cons, List.mem_singleton, List.not_mem_nil, or_false] at hmem
    rcases hmem with rfl | rfl | rfl | rfl
    · exact hg _ r00
    · exact hg _ r10
    · exact hg _ r01
    · exact hg _ r11
  · unfold reducedCell at ey0 ey1 e00 e10 e01 e11
    simp only [Perlin.Noise, ey0, ey1, e00, e10, e01, e11, eg00, eg10, eg01, eg11,
      Option.bind_eq_bind, Option.some_bind, Option.pure_def, Option.isSome_some]

theorem Perlin_Noise_indices_in_bounds_witness :
    TableInvariant (NewPerlin lcgRand 42).hash ∧
      (Perlin.Noise ratMath (NewPerlin lcgRand 42) (-3 / 2 : ℚ) (8191 / 2)).isSome := by
  have h : TableInvariant (NewPerlin lcgRand 42).hash :=
    table_invariant_of_draws _ lcgRand lcgRand_inRange _ rfl
  obtain ⟨_, _, _, _, _, _, _, _, _, _, _, _, _, _, _, _, hsome⟩ :=
    Perlin_Noise_indices_in_bounds ratMath (NewPerlin lcgRand 42) h (-3 / 2 : ℚ) (8191 / 2)
  exact ⟨h, hsome⟩

set_option maxHeartbeats 2000000 in
theorem Simplex.simplexNoise_isSome {σ α : Type} [LinearOrderedField α] [FloorRing α]
    (m : MathLib α) (s : Simplex σ) (hs : TableInvariant s.hash) (x y : α) :
    (Simplex.Noise m s x y).isSome := by
  have hH : hashSize2D = 8192 := by decide
  obtain ⟨hx0, hx1⟩ := reducedCell_bounds (simplexCell m x y x)
  obtain ⟨hy0, hy1⟩ := reducedCell_bounds (simplexCell m x y y)
  generalize hsx : reducedCell (simplexCell m x y x) = sx at hx0 hx1 ⊢
  generalize hsy : reducedCell (simplexCell m x y y) = sy at hy0 hy1 ⊢
  obtain ⟨vy0, ey0, ry0, ry0b⟩ := hs.index_lt sy hy0 (by omega)
  obtain ⟨vy1, ey1, ry1, ry1b⟩ := hs.index_lt (sy + 1) (by omega) (by omega)
  obtain ⟨v0, e0, r0, _⟩ := hs.index_lt (sx + vy0) (by omega) (by omega)
  obtain ⟨v2, e2, r2, _⟩ := hs.index_lt (sx + 1 + vy1) (by omega) (by omega)
  obtain ⟨w10, f10, q10, _⟩ := hs.index_lt (sx + 1 + vy0) (by omega) (by omega)
  obtain ⟨w01, f01, q01, _⟩ := hs.index_lt (sx + vy1) (by omega) (by omega)
  obtain ⟨g0, eg0⟩ := gradient2D_index m v0 r0
  obtain ⟨g2, eg2⟩ := gradient2D_index m v2 r2
  obtain ⟨g10, eg10⟩ := gradient2D_index m w10 q10
  obtain ⟨g01, eg01⟩ := gradient2D_index m w01 q01
  unfold reducedCell simplexCell at hsx hsy
  unfold Simplex.Noise
  simp only [Option.bind_eq_bind, Option.pure_def]
  generalize x - (↑(intFloor (x + (x + y) * coordTransformToUnskew m 2)) +
      ↑(intFloor (x + (x + y) * coordTransformToUnskew m 2) +
        intFloor (y + (x + y) * coordTransformToUnskew m 2)) * coordTransformToSkew m 2) =
    firstX
  generalize y - (↑(intFloor (y + (x + y) * coordTransformToUnskew m 2)) +
      ↑(intFloor (x + (x + y) * coordTransformToUnskew m 2) +
        intFloor (y + (x + y) * coordTransformToUnskew m 2)) * coordTransformToSkew m 2) =
    firstY
  rw [hsx, hsy, ey0]
  simp only [Option.some_bind]
  rw [e0]
  simp only [Option.some_bind]
  by_cases hc : firstX > firstY
  · simp only [if_pos hc, add_zero, ey0, f10, ey1, e2, Option.some_bind]
    split_ifs <;> simp only [eg0, eg10, eg2, Option.map_some', Option.some_bind,
      Option.isSome_some]
  · simp only [if_neg hc, add_zero, ey1, f01, e2, Option.some_bind]
    split_ifs <;> simp only [eg0, eg01, eg2, Option.map_some', Option.some_bind,
      Option.isSome_some]

/-- C19: for every permutation table satisfying the construction invariant
and every `(x, y)`, every index `Simplex.Noise` uses into the hash table,
`simplexX + unitX + hash[simplexY + unitY]` and
`simplexX + 1 + hash[simplexY + 1]` included, lies in `[0, 2*hashSize2D)`
and every gradient index lies in `[0, 12)`: all lookups succeed, whichever
of the two simplices (`unitX`, `unitY` in `{0, 1}`) is selected, and `Noise`
returns a value. -/
theorem Simplex_Noise_indices_in_bounds {σ α : Type} [LinearOrderedField α] [FloorRing α]
    (m : MathLib α) (s : Simplex σ) (hs : TableInvariant s.hash) (x y : α)
    (unitX unitY : Int) (hux : unitX = 0 ∨ unitX = 1) (huy : unitY = 0 ∨ unitY = 1) :
    ∃ hy0 hyu hy1 h0 h1 h2 : Int,
      (0 ≤ reducedCell (simplexCell m x y y) ∧
        reducedCell (simplexCell m x y y) + unitY < 2 * hashSize2D ∧
        reducedCell (simplexCell m x y y) + 1 < 2 * hashSize2D) ∧
      index s.hash (reducedCell (simplexCell m x y y)) = some hy0 ∧
      index s.hash (reducedCell (simplexCell m x y y) + unitY) = some hyu ∧
      index s.hash (reducedCell (simplexCell m x y y) + 1) = some hy1 ∧
      (0 ≤ reducedCell (simplexCell m x y x) + hy0 ∧
        reducedCell (simplexCell m x y x) + hy0 < 2 * hashSize2D) ∧
      (0 ≤ reducedCell (simplexCell m x y x) + unitX + hyu ∧
        reducedCell (simplexCell m x y x) + unitX + hyu < 2 * hashSize2D) ∧
      (0 ≤ reducedCell (simplexCell m x y x) + 1 + hy1 ∧
        reducedCell (simplexCell m x y x) + 1 + hy1 < 2 * hashSize2D) ∧
      index s.hash (reducedCell (simplexCell m x y x) + hy0) = some h0 ∧
      index s.hash (reducedCell (simplexCell m x y x) + unitX + hyu) = some h1 ∧
      index s.hash (reducedCell (simplexCell m x y x) + 1 + hy1) = some h2 ∧
      (∀ h ∈ [h0, h1, h2],
        0 ≤ intMod h (gradient2D m).length ∧ intMod h (gradient2D m).length < 12 ∧
          (index (gradient2D m) (intMod h (gradient2D m).length)).isSome) ∧
      (Simplex.Noise m s x y).isSome := by
  have hH : hashSize2D = 8192 := by decide
  obtain ⟨hx0, hx1⟩ := reducedCell_bounds (simplexCell m x y x)
  obtain ⟨hy0, hy1⟩ := reducedCell_bounds (simplexCell m x y y)
  generalize hsx : reducedCell (simplexCell m x y x) = sx at hx0 hx1 ⊢
  generalize hsy : reducedCell (simplexCell m x y y) = sy at hy0 hy1 ⊢
  obtain ⟨vy0, ey0, ry0, ry0b⟩ := hs.index_lt sy hy0 (by omega)
  obtain ⟨vyu, eyu, ryu, ryub⟩ := hs.index_lt (sy + unitY) (by omega) (by omega)
  obtain ⟨vy1, ey1, ry1, ry1b⟩ := hs.index_lt (sy + 1) (by omega) (by omega)
  obtain ⟨v0, e0, r0, _⟩ := hs.index_lt (sx + vy0) (by omega) (by omega)
  obtain ⟨v1, e1, r1, _⟩ := hs.index_lt (sx + unitX + vyu) (by omega) (by omega)
  obtain ⟨v2, e2, r2, _⟩ := hs.index_lt (sx + 1 + vy1) (by omega) (by omega)
  have hg : ∀ h : Int, 0 ≤ h →
      0 ≤ intMod h (gradient2D m).length ∧ intMod h (gradient2D m).length < 12 ∧
        (index (gradient2D m) (intMod h (gradient2D m).length)).isSome := by
    intro h h0
    have hb := intMod_nonneg_bounds h (gradient2D m).length h0
      (by rw [gradient2D_length]; decide)
    obtain ⟨g, eg⟩ := gradient2D_index m h h0
    refine ⟨hb.1, ?_, by rw [eg]; rfl⟩
    have := hb.2
    rw [gradient2D_length] at this
    exact this
  refine ⟨vy0, vyu, vy1, v0, v1, v2, ⟨hy0, by omega, by omega⟩, ey0, eyu, ey1,
    ⟨by omega, by omega⟩, ⟨by omega, by omega⟩, ⟨by omega, by omega⟩, e0, e1, e2, ?_, ?_⟩
  · intro h hmem
    simp only [List.mem_cons, List.mem_singleton, List.not_mem_nil, or_false] at hmem
    rcases hmem with rfl | rfl | rfl
    · exact hg _ r0
    · exact hg _ r1
    · exact hg _ r2
  · exact Simplex.simplexNoise_isSome m s hs x y

theorem Simplex_Noise_indices_in_bounds_witness :
    TableInvariant (NewSimplex lcgRand 42).hash ∧ ((1 : Int) = 0 ∨ (1 : Int) = 1) ∧
      ((0 : Int) = 0 ∨ (0 : Int) = 1) ∧
      (Simplex.Noise ratMath (NewSimplex lcgRand 42) (-3 / 2 : ℚ) (8191 / 2)).isSome := by
  have h : TableInvariant (NewSimplex lcgRand 42).hash :=
    table_invariant_of_draws _ lcgRand lcgRand_inRange _ rfl
  obtain ⟨_, _, _, _, _, _, _, _, _, _, _, _, _, _, _, _, _, hsome⟩ :=
    Simplex_Noise_indices_in_bounds ratMath (NewSimplex lcgRand 42) h (-3 / 2 : ℚ) (8191 / 2)
      1 0 (Or.inr rfl) (Or.inl rfl)
  exact ⟨h, Or.inr rfl, Or.inl rfl, hsome⟩

/-! ## The Catmull-Rom spline -/

theorem ratMath_powZeroIsOne : ratMath.PowZeroIsOne := by
  intro x
  simp [ratMath]

theorem ratMath_sqrtNonneg : ratMath.SqrtNonneg := by
  intro z hz
  simp only [ratMath]
  linarith

theorem ratMath_powNonneg : ratMath.PowNonneg := by
  intro b a hb ha ha1
  simp only [ratMath]
  nlinarith [mul_nonneg ha hb]

theorem newCatmullRom_knots {α : Type} [LinearOrderedField α] [FloorRing α] (m : MathLib α)
    (alpha : α) (p0 p1 p2 p3 : point2D α) :
    (newCatmullRom m alpha p0 p1 p2 p3).t1 = m.Pow (chordLength m p0 p1) alpha ∧
      (newCatmullRom m alpha p0 p1 p2 p3).t2 =
        m.Pow (chordLength m p1 p2) alpha + m.Pow (chordLength m p0 p1) alpha ∧
      (newCatmullRom m alpha p0 p1 p2 p3).t3 =
        m.Pow (chordLength m p2 p3) alpha +
          (m.Pow (chordLength m p1 p2) alpha + m.Pow (chordLength m p0 p1) alpha) ∧
      (newCatmullRom m alpha p0 p1 p2 p3).p0 = p0 ∧
      (newCatmullRom m alpha p0 p1 p2 p3).p1 = p1 ∧
      (newCatmullRom m alpha p0 p1 p2 p3).p2 = p2 ∧
      (newCatmullRom m alpha p0 p1 p2 p3).p3 = p3 :=
  ⟨rfl, rfl, rfl, rfl, rfl, rfl, rfl⟩

theorem At_of_uniform_collinear {α : Type} [LinearOrderedField α] [FloorRing α]
    (c : catmullRom α) (p0 d : point2D α) (t : α) (h1 : c.t1 = 1) (h2 : c.t2 = 2)
    (h3 : c.t3 = 3) (e0 : c.p0 = p0) (e1 : c.p1 = p0.Add d) (e2 : c.p2 = p0.Add (d.Scale 2))
    (e3 : c.p3 = p0.Add (d.Scale 3)) :
    c.At t =
      ((p0.Add d).Scale ((c.UpperT - t) / (c.UpperT - c.LowerT))).Add
        ((p0.Add (d.Scale 2)).Scale ((t - c.LowerT) / (c.UpperT - c.LowerT))) := by
  simp only [catmullRom.At, catmullRom.lowerUpper, catmullRom.LowerT, catmullRom.UpperT, h1, h2,
    h3, e0, e1, e2, e3, point2D.Scale, point2D.Add, point2D.mk.injEq]
  constructor <;> ring

/-- C11: for a spline built by `newUniform` (alpha = 0) from four collinear,
equally spaced control points `p0, p0+d, p0+2d, p0+3d`, and every `t` in
`[LowerT, UpperT]`, `At(t)` is the linear interpolation between `p1` and
`p2`: `p1*(t2 - t)/(t2 - t1) + p2*(t - t1)/(t2 - t1)` (the identity does not
depend on the bounds on `t`). -/
theorem uniform_collinear_At_is_linear {α : Type} [LinearOrderedField α] [FloorRing α]
    (m : MathLib α) (hm : m.PowZeroIsOne) (p0 d : point2D α) (t : α)
    (_hlo : (newUniform m p0 (p0.Add d) (p0.Add (d.Scale 2)) (p0.Add (d.Scale 3))).LowerT ≤ t)
    (_hhi : t ≤ (newUniform m p0 (p0.Add d) (p0.Add (d.Scale 2)) (p0.Add (d.Scale 3))).UpperT) :
    (newUniform m p0 (p0.Add d) (p0.Add (d.Scale 2)) (p0.Add (d.Scale 3))).At t =
      ((p0.Add d).Scale
          (((newUniform m p0 (p0.Add d) (p0.Add (d.Scale 2)) (p0.Add (d.Scale 3))).UpperT - t) /
            ((newUniform m p0 (p0.Add d) (p0.Add (d.Scale 2)) (p0.Add (d.Scale 3))).UpperT -
              (newUniform m p0 (p0.Add d) (p0.Add (d.Scale 2)) (p0.Add (d.Scale 3))).LowerT))).Add
        ((p0.Add (d.Scale 2)).Scale
          ((t - (newUniform m p0 (p0.Add d) (p0.Add (d.Scale 2)) (p0.Add (d.Scale 3))).LowerT) /
            ((newUniform m p0 (p0.Add d) (p0.Add (d.Scale 2)) (p0.Add (d.Scale 3))).UpperT -
              (newUniform m p0 (p0.Add d) (p0.Add (d.Scale 2)) (p0.Add (d.Scale 3))).LowerT))) := by
  obtain ⟨h1, h2, h3, e0, e1, e2, e3⟩ :=
    newCatmullRom_knots m 0 p0 (p0.Add d) (p0.Add (d.Scale 2)) (p0.Add (d.Scale 3))
  rw [hm] at h1
  rw [hm, hm] at h2
  rw [hm, hm, hm] at h3
  exact At_of_uniform_collinear _ p0 d t h1 (h2.trans (by norm_num)) (h3.trans (by norm_num))
    e0 e1 e2 e3

theorem uniform_collinear_At_is_linear_witness :
    ratMath.PowZeroIsOne ∧
      (newUniform ratMath (⟨0, 1⟩ : point2D ℚ) ((⟨0, 1⟩ : point2D ℚ).Add ⟨1, 2⟩)
          ((⟨0, 1⟩ : point2D ℚ).Add ((⟨1, 2⟩ : point2D ℚ).Scale 2))
          ((⟨0, 1⟩ : point2D ℚ).Add ((⟨1, 2⟩ : point2D ℚ).Scale 3))).LowerT ≤ 3 / 2 ∧
      (3 / 2 : ℚ) ≤
        (newUniform ratMath (⟨0, 1⟩ : point2D ℚ) ((⟨0, 1⟩ : point2D ℚ).Add ⟨1, 2⟩)
          ((⟨0, 1⟩ : point2D ℚ).Add ((⟨1, 2⟩ : point2D ℚ).Scale 2))
          ((⟨0, 1⟩ : point2D ℚ).Add ((⟨1, 2⟩ : point2D ℚ).Scale 3))).UpperT ∧
      ((newUniform ratMath (⟨0, 1⟩ : point2D ℚ) ((⟨0, 1⟩ : point2D ℚ).Add ⟨1, 2⟩)
          ((⟨0, 1⟩ : point2D ℚ).Add ((⟨1, 2⟩ : point2D ℚ).Scale 2))
          ((⟨0, 1⟩ : point2D ℚ).Add ((⟨1, 2⟩ : point2D ℚ).Scale 3))).At (3 / 2)).Y = 4 := by
  have hlo : (newUniform ratMath (⟨0, 1⟩ : point2D ℚ) ((⟨0, 1⟩ : point2D ℚ).Add ⟨1, 2⟩)
      ((⟨0, 1⟩ : point2D ℚ).Add ((⟨1, 2⟩ : point2D ℚ).Scale 2))
      ((⟨0, 1⟩ : point2D ℚ).Add ((⟨1, 2⟩ : point2D ℚ).Scale 3))).LowerT ≤ 3 / 2 := by
    norm_num [newUniform, newCatmullRom, catmullRom.nextT, catmullRom.LowerT, ratMath]
  have hhi : (3 / 2 : ℚ) ≤
      (newUniform ratMath (⟨0, 1⟩ : point2D ℚ) ((⟨0, 1⟩ : point2D ℚ).Add ⟨1, 2⟩)
        ((⟨0, 1⟩ : point2D ℚ).Add ((⟨1, 2⟩ : point2D ℚ).Scale 2))
        ((⟨0, 1⟩ : point2D ℚ).Add ((⟨1, 2⟩ : point2D ℚ).Scale 3))).UpperT := by
    norm_num [newUniform, newCatmullRom, catmullRom.nextT, catmullRom.UpperT, ratMath]
  refine ⟨ratMath_powZeroIsOne, hlo, hhi, ?_⟩
  rw [uniform_collinear_At_is_linear ratMath ratMath_powZeroIsOne ⟨0, 1⟩ ⟨1, 2⟩ (3 / 2) hlo hhi]
  norm_num [newUniform, newCatmullRom, catmullRom.nextT, catmullRom.UpperT, catmullRom.LowerT,
    ratMath, point2D.Add, point2D.Scale]

/-- C12: for every alpha in `[0, 1]` and all control points, `newCatmullRom`
sets `t1 = |p1-p0|^alpha`, `t2 = t1 + |p2-p1|^alpha` and
`t3 = t2 + |p3-p2|^alpha` (Euclidean chord lengths), and
`0 <= t1 <= t2 <= t3`, for `math.Sqrt` and `math.Pow` that are non-negative
on non-negative arguments. -/
theorem newCatmullRom_knots_ordered {α : Type} [LinearOrderedField α] [FloorRing α]
    (m : MathLib α) (hsqrt : m.SqrtNonneg) (hpow : m.PowNonneg) (alpha : α)
    (ha0 : 0 ≤ alpha) (ha1 : alpha ≤ 1) (p0 p1 p2 p3 : point2D α) :
    (newCatmullRom m alpha p0 p1 p2 p3).t1 = m.Pow (chordLength m p0 p1) alpha ∧
      (newCatmullRom m alpha p0 p1 p2 p3).t2 =
        (newCatmullRom m alpha p0 p1 p2 p3).t1 + m.Pow (chordLength m p1 p2) alpha ∧
      (newCatmullRom m alpha p0 p1 p2 p3).t3 =
        (newCatmullRom m alpha p0 p1 p2 p3).t2 + m.Pow (chordLength m p2 p3) alpha ∧
      0 ≤ (newCatmullRom m alpha p0 p1 p2 p3).t1 ∧
      (newCatmullRom m alpha p0 p1 p2 p3).t1 ≤ (newCatmullRom m alpha p0 p1 p2 p3).t2 ∧
      (newCatmullRom m alpha p0 p1 p2 p3).t2 ≤ (newCatmullRom m alpha p0 p1 p2 p3).t3 := by
  obtain ⟨h1, h2, h3, _⟩ := newCatmullRom_knots m alpha p0 p1 p2 p3
  have hchord : ∀ p q : point2D α, 0 ≤ m.Pow (chordLength m p q) alpha := by
    intro p q
    apply hpow _ _ _ ha0 ha1
    apply hsqrt
    exact add_nonneg (mul_self_nonneg _) (mul_self_nonneg _)
  have c1 := hchord p0 p1
  have c2 := hchord p1 p2
  have c3 := hchord p2 p3
  rw [h1, h2, h3]
  refine ⟨rfl, add_comm _ _, add_comm _ _, c1, ?_, ?_⟩ <;> linarith

theorem newCatmullRom_knots_ordered_witness :
    ratMath.SqrtNonneg ∧ ratMath.PowNonneg ∧ (0 : ℚ) ≤ 1 / 2 ∧ (1 / 2 : ℚ) ≤ 1 ∧
      (newCatmullRom ratMath (1 / 2) (⟨0, 0⟩ : point2D ℚ) ⟨1, 1⟩ ⟨2, 0⟩ ⟨3, 1⟩).t1 ≤
        (newCatmullRom ratMath (1 / 2) (⟨0, 0⟩ : point2D ℚ) ⟨1, 1⟩ ⟨2, 0⟩ ⟨3, 1⟩).t2 :=
  ⟨ratMath_sqrtNonneg, ratMath_powNonneg, by norm_num, by norm_num,
    (newCatmullRom_knots_ordered ratMath ratMath_sqrtNonneg ratMath_powNonneg (1 / 2)
      (by norm_num) (by norm_num) ⟨0, 0⟩ ⟨1, 1⟩ ⟨2, 0⟩ ⟨3, 1⟩).2.2.2.2.1⟩

/-! ## Degenerate splines -/

theorem initLoop_zero_delta {α : Type} [LinearOrderedField α] [FloorRing α]
    (curve : catmullRom α) (t : α) (ht : t ≤ curve.UpperT) :
    ∀ (fuel : Nat) (acc : List (point2D α)),
      catmullRomCached.initLoop curve 0 fuel t acc = none := by
  intro fuel
  induction fuel with
  | zero =>
    intro acc
    rfl
  | succ n ih =>
    intro acc
    rw [catmullRomCached.initLoop, if_pos ht, add_zero]
    exact ih _

theorem init_of_coincident_knots {α : Type} [LinearOrderedField α] [FloorRing α]
    (curve : catmullRom α) (h : curve.LowerT = curve.UpperT) (fuel : Nat)
    (c : catmullRomCached α) (nPoints : Int) : c.init fuel curve nPoints = none := by
  unfold catmullRomCached.init
  have hd : (curve.UpperT - curve.LowerT) /
      (((if nPoints ≤ 2 then (3 : Int) else nPoints) - 1 : Int) : α) = 0 := by
    rw [h, sub_self, zero_div]
  simp only [hd]
  rw [initLoop_zero_delta curve curve.LowerT (le_of_eq h)]
  rfl

theorem splineCoincident_knots :
    splineCoincident.t1 = 2 ∧ splineCoincident.t2 = 2 ∧ splineCoincident.t3 = 4 := by
  refine ⟨?_, ?_, ?_⟩ <;>
    norm_num [splineCoincident, newCentripetal, newCatmullRom, catmullRom.nextT, ratMathZero]

/-- C16, refuted on a spline whose control points `p1` and `p2` coincide:
the knots `t1` and `t2` coincide, the coefficients that `At` computes for the
interval `[t1, t2]` have the denominator `t2 - t1 = 0`, and no error is
surfaced: `At` has no error result, and cache construction neither fails nor
returns, whatever the fuel and the requested count (the loop never ends). -/
theorem coincident_knots_surface_no_error :
    splineCoincident.p1 = splineCoincident.p2 ∧
      splineCoincident.t1 = splineCoincident.t2 ∧
      splineCoincident.t2 - splineCoincident.t1 = 0 ∧
      (∀ fuel nPoints,
        catmullRomCached.init fuel { cache := [] } splineCoincident nPoints = none) ∧
      ∀ fuel nPoints, 0 ≤ nPoints →
        newCentripetalCached ratMathZero fuel nPoints ⟨0, 0⟩ ⟨1, 1⟩ ⟨1, 1⟩ ⟨2, 0⟩ = none := by
  obtain ⟨h1, h2, _⟩ := splineCoincident_knots
  have heq : splineCoincident.LowerT = splineCoincident.UpperT := by
    simp only [catmullRom.LowerT, catmullRom.UpperT, h1, h2]
  refine ⟨rfl, by rw [h1, h2], by rw [h1, h2, sub_self], ?_, ?_⟩
  · intro fuel nPoints
    exact init_of_coincident_knots splineCoincident heq fuel _ nPoints
  · intro fuel nPoints hn
    unfold newCentripetalCached newCachedCatmullRom
    rw [if_neg (not_lt.mpr hn)]
    exact init_of_coincident_knots splineCoincident heq fuel _ nPoints

/-- C16 as amended: when consecutive knots of a spline coincide, no error is
surfaced. `At` has no error result and `lowerUpper` computes the coefficients
of an interval of length zero with the denominator `0`; when the coinciding
knots are `t1` and `t2`, cache construction neither fails nor returns for
any fuel: `delta` is `0`, the loop condition `t <= UpperT` stays true and the
loop never ends. -/
theorem coincident_knots_divide_by_zero_and_diverge {α : Type} [LinearOrderedField α]
    [FloorRing α] (curve : catmullRom α) (h : curve.t1 = curve.t2) (t : α) (fuel : Nat)
    (c : catmullRomCached α) (nPoints : Int) :
    (∀ tLower tUpper : α, tLower = tUpper →
        curve.lowerUpper tLower tUpper t = ((tUpper - t) / 0, (t - tLower) / 0)) ∧
      curve.lowerUpper curve.t1 curve.t2 t = ((curve.t2 - t) / 0, (t - curve.t1) / 0) ∧
      c.init fuel curve nPoints = none := by
  have hl : ∀ tLower tUpper : α, tLower = tUpper →
      curve.lowerUpper tLower tUpper t = ((tUpper - t) / 0, (t - tLower) / 0) := by
    intro tLower tUpper e
    unfold catmullRom.lowerUpper
    rw [e, sub_self]
  exact ⟨hl, hl _ _ h, init_of_coincident_knots curve h fuel c nPoints⟩

theorem coincident_knots_divide_by_zero_and_diverge_witness :
    splineCoincident.t1 = splineCoincident.t2 ∧
      catmullRomCached.init 100 { cache := [] } splineCoincident 5 = none := by
  have h : splineCoincident.t1 = splineCoincident.t2 := by
    rw [splineCoincident_knots.1, splineCoincident_knots.2.1]
  exact ⟨h, (coincident_knots_divide_by_zero_and_diverge splineCoincident h 2 100
    { cache := [] } 5).2.2⟩

/-! ## The spline-interpolated Perlin noise: cache sizes -/

theorem newCentripetalCached_of_neg {α : Type} [LinearOrderedField α] [FloorRing α]
    (m : MathLib α) (fuel : Nat) (nPoints : Int) (h : nPoints < 0) (p0 p1 p2 p3 : point2D α) :
    newCentripetalCached m fuel nPoints p0 p1 p2 p3 = none := by
  unfold newCentripetalCached newCachedCatmullRom
  rw [if_pos h]

theorem init_of_small {α : Type} [LinearOrderedField α] [FloorRing α] (fuel : Nat)
    (c : catmullRomCached α) (curve : catmullRom α) (nPoints : Int) (h2 : nPoints ≤ 2) :
    c.init fuel curve nPoints = c.init fuel curve 3 := by
  have e1 : (if nPoints ≤ 2 then (3 : Int) else nPoints) = 3 := if_pos h2
  have e2 : (if (3 : Int) ≤ 2 then (3 : Int) else 3) = 3 := by decide
  unfold catmullRomCached.init
  simp only [e1, e2]

theorem newCentripetalCached_of_small {α : Type} [LinearOrderedField α] [FloorRing α]
    (m : MathLib α) (fuel : Nat) (nPoints : Int) (h0 : 0 ≤ nPoints) (h2 : nPoints ≤ 2)
    (p0 p1 p2 p3 : point2D α) :
    newCentripetalCached m fuel nPoints p0 p1 p2 p3 =
      newCentripetalCached m fuel 3 p0 p1 p2 p3 := by
  have e3 : ¬ ((3 : Int) < 0) := by decide
  unfold newCentripetalCached newCachedCatmullRom
  rw [if_neg (not_lt.mpr h0), if_neg e3]
  exact init_of_small fuel _ _ nPoints h2

theorem PerlinCatmullRom.splineValue_of_neg {σ α : Type} [LinearOrderedField α] [FloorRing α]
    (m : MathLib α) (fuel : Nat) (s : PerlinCatmullRom σ) (h : s.splineCacheSize < 0)
    (p0 p1 p2 p3 : point2D α) (q : α) : s.splineValue m fuel p0 p1 p2 p3 q = none := by
  unfold PerlinCatmullRom.splineValue
  rw [newCentripetalCached_of_neg m fuel _ h]
  rfl

theorem PerlinCatmullRom.rowNoise_of_neg {σ α : Type} [LinearOrderedField α] [FloorRing α]
    (m : MathLib α) (fuel : Nat) (s : PerlinCatmullRom σ) (h : s.splineCacheSize < 0)
    (x0 : Int) (relX : α) (yj : Int) (ry : α) : s.rowNoise m fuel x0 relX yj ry = none := by
  unfold PerlinCatmullRom.rowNoise
  simp only [PerlinCatmullRom.splineValue_of_neg m fuel s h, Option.bind_eq_bind,
    Option.none_bind, Option.bind_none, Option.bind_eq_none]

theorem PerlinCatmullRom.Noise_of_neg {σ α : Type} [LinearOrderedField α] [FloorRing α]
    (m : MathLib α) (fuel : Nat) (s : PerlinCatmullRom σ) (h : s.splineCacheSize < 0)
    (x y : α) : PerlinCatmullRom.Noise m fuel s x y = none := by
  unfold PerlinCatmullRom.Noise
  simp only [PerlinCatmullRom.rowNoise_of_neg m fuel s h, Option.bind_eq_bind, Option.none_bind]

theorem PerlinCatmullRom.Noise_congr {σ α : Type} [LinearOrderedField α] [FloorRing α]
    (m : MathLib α) (fuel : Nat) (s t : PerlinCatmullRom σ) (hh : s.hash = t.hash)
    (hc : ∀ p0 p1 p2 p3 : point2D α,
      newCentripetalCached m fuel s.splineCacheSize p0 p1 p2 p3 =
        newCentripetalCached m fuel t.splineCacheSize p0 p1 p2 p3)
    (x y : α) : PerlinCatmullRom.Noise m fuel s x y = PerlinCatmullRom.Noise m fuel t x y := by
  simp only [PerlinCatmullRom.Noise, PerlinCatmullRom.rowNoise, PerlinCatmullRom.splineValue,
    PerlinCatmullRom.latticeNoise, PerlinCatmullRom.hashIdx, hh, hc]

/-! ## Totality of the cache operations -/

theorem searchLoop_total {α : Type} [LinearOrderedField α] [FloorRing α]
    (l : List (point2D α)) (x : α) :
    ∀ (fuel : Nat) (min max : Int), 0 < fuel → max - min + 1 < (fuel : Int) →
      ∃ r, catmullRomCached.searchLoop l x fuel min max (Int.tdiv (max + min) 2) = some r := by
  intro fuel
  induction fuel with
  | zero =>
    intro min max h _
    exact absurd h (by decide)
  | succ n ih =>
    intro min max _ hf
    by_cases hg : min ≤ max ∧ Int.tdiv (max + min) 2 > 0 ∧
        Int.tdiv (max + min) 2 < (l.length : Int) - 1
    · have hsum : 0 ≤ max + min := by
        by_contra hneg
        have hb := tmod_neg_bounds (max + min) 2 (by omega) (by decide)
        have hd := Int.tmod_add_tdiv (max + min) 2
        omega
      have e : Int.tdiv (max + min) 2 = (max + min) / 2 :=
        Int.tdiv_eq_ediv hsum (by decide)
      rw [e] at hg ⊢
      rw [searchLoop_step l x n min max _ hg]
      by_cases c1 : (sampleAt l ((max + min) / 2)).X ≤ x ∧ (sampleAt l ((max + min) / 2 + 1)).X > x
      · rw [if_pos c1]
        exact ⟨_, rfl⟩
      · rw [if_neg c1]
        by_cases c2 : (sampleAt l ((max + min) / 2)).X > x
        · rw [if_pos c2]
          exact ih min ((max + min) / 2 - 1) (by omega) (by omega)
        · rw [if_neg c2]
          have c3 : (sampleAt l ((max + min) / 2 + 1)).X ≤ x := by
            by_contra hc
            exact c1 ⟨not_lt.mp c2, not_le.mp hc⟩
          rw [if_pos c3]
          exact ih ((max + min) / 2 + 1) max (by omega) (by omega)
    · rw [searchLoop_exit l x n min max _ hg]
      exact ⟨_, rfl⟩

theorem InterpolateX_isSome {α : Type} [LinearOrderedField α] [FloorRing α]
    (c : catmullRomCached α) (x : α) (fuel : Nat) (hfuel : c.cache.length < fuel) :
    ∃ v, c.InterpolateX fuel x = some v := by
  unfold catmullRomCached.InterpolateX
  by_cases h0 : c.cache.length = 0
  · rw [if_pos h0]
    exact ⟨0, rfl⟩
  · rw [if_neg h0]
    obtain ⟨r, hr⟩ := searchLoop_total c.cache x fuel 0 ((c.cache.length : Int) - 1)
      (by omega) (by omega)
    simp only [hr]
    by_cases h1 : r ≥ (c.cache.length : Int) - 1
    · rw [if_pos h1, index_eq_sampleAt c.cache _ (by omega) (by omega)]
      exact ⟨_, rfl⟩
    · rw [if_neg h1]
      by_cases h2 : r < 0
      · rw [if_pos h2, index_eq_sampleAt c.cache 0 (le_refl _) (by omega)]
        exact ⟨_, rfl⟩
      · rw [if_neg h2, index_eq_sampleAt c.cache r (by omega) (by omega),
          index_eq_sampleAt c.cache (r + 1) (by omega) (by omega)]
        exact ⟨_, rfl⟩

theorem init_eq_samples {α : Type} [LinearOrderedField α] [FloorRing α]
    (curve : catmullRom α) (hlt : curve.LowerT < curve.UpperT) (nPoints : Int)
    (c : catmullRomCached α) (fuel : Nat) (hfuel : sampleCount nPoints < fuel) :
    c.init fuel curve nPoints =
      some { cache := c.cache ++ (List.range (sampleCount nPoints)).map fun (k : Nat) =>
        curve.At (sampleParam curve (sampleCount nPoints) k) } := by
  simp only [sampleCount, sampleParam] at hfuel ⊢
  have hm3 : 3 ≤ (max nPoints 3).toNat := by
    have : (3 : Int) ≤ max nPoints 3 := le_max_right _ _
    omega
  have hmpos : (0 : α) < ((max nPoints 3).toNat : α) - 1 := by
    have : ((3 : Nat) : α) ≤ ((max nPoints 3).toNat : α) := by exact_mod_cast hm3
    push_cast at this
    linarith
  have hd : 0 < (curve.UpperT - curve.LowerT) / (((max nPoints 3).toNat : α) - 1) :=
    div_pos (by linarith) hmpos
  have hnp : (if nPoints ≤ 2 then (3 : Int) else nPoints) = max nPoints 3 := by
    split <;> omega
  have hcast : (((max nPoints 3 - 1 : Int)) : α) = ((max nPoints 3).toNat : α) - 1 := by
    have h1 : max nPoints 3 = (((max nPoints 3).toNat : Nat) : Int) := by omega
    rw [Int.cast_sub, Int.cast_one]
    congr 1
    conv_lhs => rw [h1]
    exact Int.cast_natCast _
  have hup : curve.UpperT = curve.LowerT + (((max nPoints 3).toNat : α) - 1) *
      ((curve.UpperT - curve.LowerT) / (((max nPoints 3).toNat : α) - 1)) := by
    field_simp
  have hrun := initLoop_run curve _ hd (max nPoints 3).toNat hup (max nPoints 3).toNat 0
    c.cache fuel (by omega) hfuel
  simp only [Nat.cast_zero, zero_mul, add_zero] at hrun
  unfold catmullRomCached.init
  simp only [hnp, hcast, hrun, Option.map_some']
  simp only [List.range_eq_range', mul_div_assoc]

/-! ## The spline-interpolated Perlin noise returns a value -/

theorem ratMath_chordPositive : ratMath.ChordPositive := by
  intro z hz
  simp only [ratMath]
  linarith

theorem PerlinCatmullRom.hashIdx_total {σ : Type} (s : PerlinCatmullRom σ)
    (hs : TableInvariant s.hash) (idx : Int) (h0 : 0 ≤ idx) :
    ∃ v, s.hashIdx idx = some v ∧ 0 ≤ v ∧ v < hashSize2D := by
  have hH : hashSize2D = 8192 := by decide
  have hlen := hs.1
  have hb := intMod_nonneg_bounds idx (s.hash.length : Int) h0 (by omega)
  unfold PerlinCatmullRom.hashIdx
  exact hs.index_lt _ hb.1 (by omega)

theorem PerlinCatmullRom.latticeNoise_isSome {σ α : Type} [LinearOrderedField α] [FloorRing α]
    (m : MathLib α) (s : PerlinCatmullRom σ) (hs : TableInvariant s.hash) (xi yj : Int)
    (hx : 0 ≤ xi) (hy : 0 ≤ yj) (pt : point2D α) : ∃ v, s.latticeNoise m xi yj pt = some v := by
  obtain ⟨vy, ey, ry, _⟩ := s.hashIdx_total hs yj hy
  obtain ⟨vh, eh, rh, _⟩ := s.hashIdx_total hs (xi + vy) (by omega)
  obtain ⟨g, eg⟩ := gradient2D_index m vh rh
  unfold PerlinCatmullRom.latticeNoise
  simp only [ey, eh, eg, Option.bind_eq_bind, Option.some_bind, Option.pure_def]
  exact ⟨_, rfl⟩

theorem newCatmullRom_lower_lt_upper {α : Type} [LinearOrderedField α] [FloorRing α]
    (m : MathLib α) (hm : m.ChordPositive) (p0 p1 p2 p3 : point2D α)
    (hdx : p2.X - p1.X = 1) :
    (newCatmullRom m (1 / 2) p0 p1 p2 p3).LowerT < (newCatmullRom m (1 / 2) p0 p1 p2 p3).UpperT := by
  obtain ⟨h1, h2, _⟩ := newCatmullRom_knots m (1 / 2) p0 p1 p2 p3
  simp only [catmullRom.LowerT, catmullRom.UpperT, h1, h2]
  have hz : (1 : α) ≤ (p2.X - p1.X) * (p2.X - p1.X) + (p2.Y - p1.Y) * (p2.Y - p1.Y) := by
    rw [hdx]
    nlinarith [mul_self_nonneg (p2.Y - p1.Y)]
  have := hm _ hz
  unfold chordLength
  linarith

theorem PerlinCatmullRom.splineValue_isSome {σ α : Type} [LinearOrderedField α] [FloorRing α]
    (m : MathLib α) (hm : m.ChordPositive) (fuel : Nat) (s : PerlinCatmullRom σ)
    (hn : 0 ≤ s.splineCacheSize) (hfuel : sampleCount s.splineCacheSize < fuel)
    (p0 p1 p2 p3 : point2D α) (hdx : p2.X - p1.X = 1) (q : α) :
    ∃ v, s.splineValue m fuel p0 p1 p2 p3 q = some v := by
  unfold PerlinCatmullRom.splineValue newCentripetalCached newCachedCatmullRom
  rw [if_neg (not_lt.mpr hn),
    init_eq_samples _ (newCatmullRom_lower_lt_upper m hm p0 p1 p2 p3 hdx) _ _ fuel hfuel]
  simp only [Option.bind_eq_bind, Option.some_bind]
  apply InterpolateX_isSome
  simp only [List.nil_append, List.length_map, List.length_range]
  exact hfuel

theorem PerlinCatmullRom.rowNoise_isSome {σ α : Type} [LinearOrderedField α] [FloorRing α]
    (m : MathLib α) (hm : m.ChordPositive) (fuel : Nat) (s : PerlinCatmullRom σ)
    (hs : TableInvariant s.hash) (hn : 0 ≤ s.splineCacheSize)
    (hfuel : sampleCount s.splineCacheSize < fuel) (x0 : Int) (hx : 0 ≤ x0) (relX : α)
    (yj : Int) (hy : 0 ≤ yj) (ry : α) : ∃ v, s.rowNoise m fuel x0 relX yj ry = some v := by
  obtain ⟨n0, e0⟩ := s.latticeNoise_isSome m hs x0 yj hx hy ⟨relX + 1, ry⟩
  obtain ⟨n1, e1⟩ := s.latticeNoise_isSome m hs (x0 + 1) yj (by omega) hy ⟨relX, ry⟩
  obtain ⟨n2, e2⟩ := s.latticeNoise_isSome m hs (x0 + 2) yj (by omega) hy ⟨relX - 1, ry⟩
  obtain ⟨n3, e3⟩ := s.latticeNoise_isSome m hs (x0 + 3) yj (by omega) hy ⟨relX - 2, ry⟩
  obtain ⟨v, ev⟩ := s.splineValue_isSome m hm fuel hn hfuel ⟨(x0 : α), n0⟩ ⟨(x0 : α) + 1, n1⟩
    ⟨(x0 : α) + 2, n2⟩ ⟨(x0 : α) + 3, n3⟩ (by simp; ring) ((x0 : α) + 1 + relX)
  unfold PerlinCatmullRom.rowNoise
  simp only [e0, e1, e2, e3, ev, Option.bind_eq_bind, Option.some_bind, Option.pure_def]
  exact ⟨_, rfl⟩

theorem PerlinCatmullRom.splineNoise_isSome {σ α : Type} [LinearOrderedField α] [FloorRing α]
    (m : MathLib α) (hm : m.ChordPositive) (fuel : Nat) (s : PerlinCatmullRom σ)
    (hs : TableInvariant s.hash) (hn : 0 ≤ s.splineCacheSize)
    (hfuel : sampleCount s.splineCacheSize < fuel) (x y : α) :
    ∃ v, PerlinCatmullRom.Noise m fuel s x y = some v := by
  obtain ⟨hx0, _⟩ := wrap_bounds (intFloor x - 1)
  obtain ⟨hy0, _⟩ := wrap_bounds (intFloor y - 1)
  obtain ⟨r0, e0⟩ := s.rowNoise_isSome m hm fuel hs hn hfuel _ hx0 (x - (intFloor x : α))
    _ hy0 (y - (intFloor y : α) + 1)
  obtain ⟨r1, e1⟩ := s.rowNoise_isSome m hm fuel hs hn hfuel _ hx0 (x - (intFloor x : α))
    (addWhileNegative (intMod (intFloor y - 1) hashSize2D) + 1) (by omega)
    (y - (intFloor y : α))
  obtain ⟨r2, e2⟩ := s.rowNoise_isSome m hm fuel hs hn hfuel _ hx0 (x - (intFloor x : α))
    (addWhileNegative (intMod (intFloor y - 1) hashSize2D) + 2) (by omega)
    (y - (intFloor y : α) - 1)
  obtain ⟨r3, e3⟩ := s.rowNoise_isSome m hm fuel hs hn hfuel _ hx0 (x - (intFloor x : α))
    (addWhileNegative (intMod (intFloor y - 1) hashSize2D) + 3) (by omega)
    (y - (intFloor y : α) - 2)
  obtain ⟨v, ev⟩ := s.splineValue_isSome m hm fuel hn hfuel
    ⟨((addWhileNegative (intMod (intFloor y - 1) hashSize2D) : Int) : α), r0⟩
    ⟨((addWhileNegative (intMod (intFloor y - 1) hashSize2D) : Int) : α) + 1, r1⟩
    ⟨((addWhileNegative (intMod (intFloor y - 1) hashSize2D) : Int) : α) + 2, r2⟩
    ⟨((addWhileNegative (intMod (intFloor y - 1) hashSize2D) : Int) : α) + 3, r3⟩
    (by simp; ring)
    (((addWhileNegative (intMod (intFloor y - 1) hashSize2D) : Int) : α) + 1 +
      (y - (intFloor y : α)))
  unfold PerlinCatmullRom.Noise
  simp only [e0, e1, e2, e3, ev, Option.bind_eq_bind, Option.some_bind, Option.pure_def]
  exact ⟨v, rfl⟩

/-- C13, evaluated at the requested cache size `-1`: `Noise` panics at every
`(x, y)` (the slice of the cache is allocated with the negative capacity
before `init` raises the count to 3), while the generator built with cache
size 3 from the same seed returns a value at every `(x, y)`; the requested
sizes 0, 1 and 2 do behave as size 3. -/
theorem negative_cache_size_is_not_raised :
    (∀ (fuel : Nat) (x y : ℚ),
        PerlinCatmullRom.Noise ratMath fuel (NewPerlinCatmullRom lcgRand (-1) 42) x y = none) ∧
      (∀ x y : ℚ, ∃ v,
        PerlinCatmullRom.Noise ratMath 4 (NewPerlinCatmullRom lcgRand 3 42) x y = some v) ∧
      ∀ n : Int, 0 ≤ n → n ≤ 2 → ∀ (fuel : Nat) (x y : ℚ),
        PerlinCatmullRom.Noise ratMath fuel (NewPerlinCatmullRom lcgRand n 42) x y =
          PerlinCatmullRom.Noise ratMath fuel (NewPerlinCatmullRom lcgRand 3 42) x y := by
  refine ⟨?_, ?_, ?_⟩
  · intro fuel x y
    exact PerlinCatmullRom.Noise_of_neg ratMath fuel _ (by decide) x y
  · intro x y
    exact PerlinCatmullRom.splineNoise_isSome ratMath ratMath_chordPositive 4
      (NewPerlinCatmullRom lcgRand 3 42)
      (table_invariant_of_draws _ lcgRand lcgRand_inRange _ rfl) (by decide) (by decide) x y
  · intro n h0 h2 fuel x y
    exact PerlinCatmullRom.Noise_congr ratMath fuel (NewPerlinCatmullRom lcgRand n 42)
      (NewPerlinCatmullRom lcgRand 3 42) rfl
      (fun p0 p1 p2 p3 => newCentripetalCached_of_small ratMath fuel n h0 h2 p0 p1 p2 p3) x y

/-- C17, evaluated at the cache size `-1`: at every pair of integers
`(i, j)`, `PerlinCatmullRom.Noise(i, j)` panics and does not return `0`,
while with cache size 3 and the same seed it returns a value. -/
theorem lattice_noise_panics_for_negative_cache_size :
    (∀ (fuel : Nat) (i j : Int),
        PerlinCatmullRom.Noise ratMath fuel (NewPerlinCatmullRom lcgRand (-1) 42)
          ((i : Int) : ℚ) ((j : Int) : ℚ) = none) ∧
      (∀ (fuel : Nat) (i j : Int),
        PerlinCatmullRom.Noise ratMath fuel (NewPerlinCatmullRom lcgRand (-1) 42)
          ((i : Int) : ℚ) ((j : Int) : ℚ) ≠ some 0) ∧
      ∀ i j : Int, ∃ v,
        PerlinCatmullRom.Noise ratMath 4 (NewPerlinCatmullRom lcgRand 3 42)
          ((i : Int) : ℚ) ((j : Int) : ℚ) = some v := by
  have h : ∀ (fuel : Nat) (i j : Int),
      PerlinCatmullRom.Noise ratMath fuel (NewPerlinCatmullRom lcgRand (-1) 42)
        ((i : Int) : ℚ) ((j : Int) : ℚ) = none := by
    intro fuel i j
    exact PerlinCatmullRom.Noise_of_neg ratMath fuel _ (by decide) _ _
  refine ⟨h, ?_, ?_⟩
  · intro fuel i j
    rw [h]
    exact Option.noConfusion
  · intro i j
    exact PerlinCatmullRom.splineNoise_isSome ratMath ratMath_chordPositive 4
      (NewPerlinCatmullRom lcgRand 3 42)
      (table_invariant_of_draws _ lcgRand lcgRand_inRange _ rfl) (by decide) (by decide) _ _

/-! ## The PNG export -/

/-- C14: `WriteGreyImagePng` returns the error "invalid dimensions", without
calling `noiser.Noise` and without writing to `w`, whenever
`numberSamplesX <= 0` or `numberSamplesY <= 0`; when both counts are positive
the error it returns is the one `png.Encode` returns on the image it built,
so it fails only if the encoding fails. -/
theorem WriteGreyImagePng_invalid_dimensions {α : Type} [LinearOrderedField α] [FloorRing α]
    (lib : ImageLib α) (order : List Nat) (noiser : Noiser α)
    (minX minY numberSamplesX numberSamplesY : Int) (noiseSampleDelta : α) :
    (numberSamplesX ≤ 0 ∨ numberSamplesY ≤ 0 →
        (WriteGreyImagePng lib order noiser minX minY numberSamplesX numberSamplesY
            noiseSampleDelta).err = some "invalid dimensions" ∧
          (WriteGreyImagePng lib order noiser minX minY numberSamplesX numberSamplesY
            noiseSampleDelta).calls = [] ∧
          (WriteGreyImagePng lib order noiser minX minY numberSamplesX numberSamplesY
            noiseSampleDelta).written = []) ∧
      (0 < numberSamplesX → 0 < numberSamplesY →
        (WriteGreyImagePng lib order noiser minX minY numberSamplesX numberSamplesY
            noiseSampleDelta).err =
          (lib.Encode (WriteGreyImagePng.image lib
            (spawnLoop noiser minX numberSamplesX noiseSampleDelta numberSamplesY.toNat 0
              (minY : α))
            (WriteGreyImagePng.minMax order noiser minX minY numberSamplesX numberSamplesY
              noiseSampleDelta).1
            (WriteGreyImagePng.minMax order noiser minX minY numberSamplesX numberSamplesY
              noiseSampleDelta).2)).2) := by
  constructor
  · intro h
    unfold WriteGreyImagePng
    rw [if_pos h]
    exact ⟨rfl, rfl, rfl⟩
  · intro hx hy
    unfold WriteGreyImagePng
    rw [if_neg (by omega)]

theorem WriteGreyImagePng_invalid_dimensions_witness :
    ((0 : Int) ≤ 0 ∨ (3 : Int) ≤ 0) ∧
      (WriteGreyImagePng imageLibSample [0, 1, 2] noiserRows 0 0 0 3 1).err =
        some "invalid dimensions" ∧
      (WriteGreyImagePng imageLibSample [0, 1, 2] noiserRows 0 0 0 3 1).calls = [] :=
  ⟨Or.inl (le_refl 0),
    ((WriteGreyImagePng_invalid_dimensions imageLibSample [0, 1, 2] noiserRows 0 0 0 3 1).1
      (Or.inl (le_refl 0))).1,
    ((WriteGreyImagePng_invalid_dimensions imageLibSample [0, 1, 2] noiserRows 0 0 0 3 1).1
      (Or.inl (le_refl 0))).2.1⟩

/-- C15, evaluated on one column and two rows with the samples 5 (row 0) and
7 (row 1): the minimum and maximum of the samples are 5 and 7, but the
values used for the normalisation are `(0, 5)` when row 0 completes first
and `(0, 7)` when row 1 completes first. The worker of a row other than row
0 starts from `minValue = maxValue = 0.0`, and the receive loop updates at
most one of the two values per message. -/
theorem WriteGreyImagePng_minMax_wrong :
    (spawnLoop noiserRows 0 1 1 2 0 0).map (fun r => r.grays) = [[5], [7]] ∧
      WriteGreyImagePng.minMax [0, 1] noiserRows 0 0 1 2 1 = (0, 5) ∧
      WriteGreyImagePng.minMax [1, 0] noiserRows 0 0 1 2 1 = (0, 7) := by
  refine ⟨?_, ?_, ?_⟩
  · norm_num [spawnLoop, rowWorker, rowLoop, noiserRows]
  · norm_num [WriteGreyImagePng.minMax, mergeLoop, arrivals, spawnLoop, rowWorker, rowLoop,
      noiserRows]
  · norm_num [WriteGreyImagePng.minMax, mergeLoop, arrivals, spawnLoop, rowWorker, rowLoop,
      noiserRows]

/-! ## The spline on control points one unit apart -/

theorem At_lower {α : Type} [LinearOrderedField α] [FloorRing α] (c : catmullRom α)
    (h1 : c.t1 ≠ 0) (h2 : c.t2 ≠ 0) (h12 : c.t2 - c.t1 ≠ 0) : c.At c.t1 = c.p1 := by
  have e1 : (c.t1 - 0) / (c.t1 - 0) = 1 := by rw [sub_zero]; exact div_self h1
  have e2 : (c.t2 - c.t1) / (c.t2 - c.t1) = 1 := div_self h12
  have e3 : (c.t2 - c.t1) / (c.t2 - 0) + (c.t1 - 0) / (c.t2 - 0) = 1 := by
    rw [sub_zero, sub_zero, ← add_div, sub_add_cancel, div_self h2]
  have hx : c.p1.X * ((c.t2 - c.t1) / (c.t2 - 0)) + c.p1.X * ((c.t1 - 0) / (c.t2 - 0)) =
      c.p1.X := by
    rw [← mul_add, e3, mul_one]
  have hy : c.p1.Y * ((c.t2 - c.t1) / (c.t2 - 0)) + c.p1.Y * ((c.t1 - 0) / (c.t2 - 0)) =
      c.p1.Y := by
    rw [← mul_add, e3, mul_one]
  cases hp : c.p1 with
  | mk px py =>
    rw [hp] at hx hy
    simp only [catmullRom.At, catmullRom.lowerUpper, point2D.Scale, point2D.Add, sub_self,
      zero_div, mul_zero, zero_add, add_zero, e1, e2, mul_one, hp, point2D.mk.injEq]
    exact ⟨hx, hy⟩

theorem At_X_formula {α : Type} [LinearOrderedField α] [FloorRing α] (c : catmullRom α)
    (a d1 d2 d3 s : α) (hd1 : 0 < d1) (hd2 : 0 < d2) (hd3 : 0 < d3)
    (h1 : c.t1 = d1) (h2 : c.t2 = d1 + d2) (h3 : c.t3 = d1 + d2 + d3)
    (x0 : c.p0.X = a) (x1 : c.p1.X = a + 1) (x2 : c.p2.X = a + 2) (x3 : c.p3.X = a + 3) :
    (c.At (d1 + s)).X - (a + 1) =
      ((s / d1 * (d2 - s) + s / d2 * (d1 + s)) / (d1 + d2) * (d2 - s) +
        s * ((d2 + d3 - s) / d2 + 1 - (d2 - s) / d3) / (d2 + d3) * s) / d2 := by
  have hd12 : 0 < d1 + d2 := by linarith
  have hd23 : 0 < d2 + d3 := by linarith
  have n1 : d1 - 0 = d1 := sub_zero _
  have n2 : d1 + s - 0 = d1 + s := sub_zero _
  have n3 : d1 - (d1 + s) = -s := by ring
  have n4 : d1 + d2 - (d1 + s) = d2 - s := by ring
  have n5 : d1 + d2 - d1 = d2 := by ring
  have n6 : d1 + s - d1 = s := by ring
  have n7 : d1 + d2 + d3 - (d1 + s) = d2 + d3 - s := by ring
  have n8 : d1 + d2 + d3 - (d1 + d2) = d3 := by ring
  have n9 : d1 + s - (d1 + d2) = s - d2 := by ring
  have n10 : d1 + d2 - 0 = d1 + d2 := sub_zero _
  have n11 : d1 + d2 + d3 - d1 = d2 + d3 := by ring
  simp only [catmullRom.At, catmullRom.lowerUpper, point2D.Scale, point2D.Add, h1, h2, h3,
    x0, x1, x2, x3, n1, n2, n3, n4, n5, n6, n7, n8, n9, n10, n11]
  have A1 : a * (-s / d1) + (a + 1) * ((d1 + s) / d1) = a + 1 + s / d1 := by
    field_simp
    ring
  have A2 : (a + 1) * ((d2 - s) / d2) + (a + 2) * (s / d2) = a + 1 + s / d2 := by
    field_simp
    ring
  have A3 : (a + 2) * ((d2 + d3 - s) / d3) + (a + 3) * ((s - d2) / d3) =
      a + 2 + (s - d2) / d3 := by
    field_simp
    ring
  rw [A1, A2, A3]
  field_simp
  ring

theorem bracket_nonneg {α : Type} [LinearOrderedField α] (d2 d3 s : α) (hd2 : 0 < d2)
    (hd3 : 0 < d3) (hB : d2 * d2 ≤ 2 * d2 * d3 + d3 * d3) (hs0 : 0 < s) (hs1 : s ≤ d2) :
    0 ≤ (d2 + d3 - s) / d2 + 1 - (d2 - s) / d3 := by
  have e : (d2 + d3 - s) / d2 + 1 - (d2 - s) / d3 =
      (2 * d2 * d3 + d3 * d3 - d2 * d2 + s * (d2 - d3)) / (d2 * d3) := by
    field_simp
    ring
  rw [e]
  apply div_nonneg _ (mul_pos hd2 hd3).le
  rcases le_or_lt d3 d2 with h | h
  · have := mul_nonneg hs0.le (sub_nonneg.mpr h)
    linarith
  · have h5 := mul_nonneg (sub_nonneg.mpr hs1) (sub_nonneg.mpr h.le)
    have h6 := mul_pos hd2 hd3
    have h7 : 2 * d2 * d3 + d3 * d3 - d2 * d2 + s * (d2 - d3) =
        (d2 - s) * (d3 - d2) + d2 * d3 + d3 * d3 := by ring
    rw [h7]
    have h8 := mul_pos hd3 hd3
    linarith

theorem At_X_above_p1 {α : Type} [LinearOrderedField α] [FloorRing α] (c : catmullRom α)
    (a d1 d2 d3 s : α) (hd1 : 0 < d1) (hd2 : 0 < d2) (hd3 : 0 < d3)
    (hB : d2 * d2 ≤ 2 * d2 * d3 + d3 * d3) (hs0 : 0 < s) (hs1 : s ≤ d2)
    (h1 : c.t1 = d1) (h2 : c.t2 = d1 + d2) (h3 : c.t3 = d1 + d2 + d3)
    (x0 : c.p0.X = a) (x1 : c.p1.X = a + 1) (x2 : c.p2.X = a + 2) (x3 : c.p3.X = a + 3) :
    a + 1 < (c.At (d1 + s)).X := by
  have hd12 : 0 < d1 + d2 := by linarith
  have hd23 : 0 < d2 + d3 := by linarith
  have key := At_X_formula c a d1 d2 d3 s hd1 hd2 hd3 h1 h2 h3 x0 x1 x2 x3
  have hbr := bracket_nonneg d2 d3 s hd2 hd3 hB hs0 hs1
  have hb1 : 0 ≤ (s / d1 * (d2 - s) + s / d2 * (d1 + s)) / (d1 + d2) * (d2 - s) := by
    apply mul_nonneg _ (by linarith)
    apply div_nonneg _ hd12.le
    apply add_nonneg
    · exact mul_nonneg (div_nonneg hs0.le hd1.le) (by linarith)
    · exact mul_nonneg (div_nonneg hs0.le hd2.le) (by linarith)
  have hb2 : 0 ≤ s * ((d2 + d3 - s) / d2 + 1 - (d2 - s) / d3) / (d2 + d3) * s :=
    mul_nonneg (div_nonneg (mul_nonneg hs0.le hbr) hd23.le) hs0.le
  have hpos : 0 < (s / d1 * (d2 - s) + s / d2 * (d1 + s)) / (d1 + d2) * (d2 - s) +
      s * ((d2 + d3 - s) / d2 + 1 - (d2 - s) / d3) / (d2 + d3) * s := by
    rcases eq_or_lt_of_le hs1 with h | h
    · have hbr2 : 0 < (d2 + d3 - s) / d2 + 1 - (d2 - s) / d3 := by
        rw [h, sub_self, zero_div, sub_zero]
        have : 0 < (d2 + d3 - d2) / d2 := div_pos (by linarith) hd2
        linarith
      have : 0 < s * ((d2 + d3 - s) / d2 + 1 - (d2 - s) / d3) / (d2 + d3) * s :=
        mul_pos (div_pos (mul_pos hs0 hbr2) hd23) hs0
      linarith
    · have : 0 < (s / d1 * (d2 - s) + s / d2 * (d1 + s)) / (d1 + d2) * (d2 - s) := by
        apply mul_pos _ (by linarith)
        apply div_pos _ hd12
        have h1' : 0 < s / d1 * (d2 - s) := mul_pos (div_pos hs0 hd1) (by linarith)
        have h2' : 0 < s / d2 * (d1 + s) := mul_pos (div_pos hs0 hd2) (by linarith)
        linarith
      linarith
  have := div_pos hpos hd2
  rw [← key] at this
  linarith

/-! ## Querying a cache at its first sample -/

theorem searchLoop_at_first {α : Type} [LinearOrderedField α] [FloorRing α]
    (l : List (point2D α)) (x : α) (hlen : 3 ≤ l.length)
    (hx : ∀ k : Int, 1 ≤ k → k < (l.length : Int) → x < (sampleAt l k).X) :
    ∀ (fuel : Nat) (max : Int), 0 ≤ max → max ≤ (l.length : Int) - 1 → max < (fuel : Int) →
      catmullRomCached.searchLoop l x fuel 0 max (Int.tdiv (max + 0) 2) = some 0 := by
  intro fuel
  induction fuel with
  | zero =>
    intro max h0 _ hf
    exfalso
    omega
  | succ n ih =>
    intro max h0 h1 hf
    have e : Int.tdiv (max + 0) 2 = (max + 0) / 2 := Int.tdiv_eq_ediv (by omega) (by decide)
    rw [e]
    by_cases hg : (0 : Int) ≤ max ∧ (max + 0) / 2 > 0 ∧ (max + 0) / 2 < (l.length : Int) - 1
    · rw [searchLoop_step l x n 0 max _ hg]
      have hgt := hx ((max + 0) / 2) (by omega) (by omega)
      rw [if_neg (by
        intro h
        exact absurd h.1 (not_le.mpr hgt)), if_pos hgt]
      exact ih ((max + 0) / 2 - 1) (by omega) (by omega) (by omega)
    · rw [searchLoop_exit l x n 0 max _ hg]
      have : (max + 0) / 2 = 0 := by omega
      rw [this]

theorem InterpolateX_at_first {α : Type} [LinearOrderedField α] [FloorRing α]
    (c : catmullRomCached α) (hlen : 3 ≤ c.cache.length)
    (hx : ∀ k : Int, 1 ≤ k → k < (c.cache.length : Int) →
      (sampleAt c.cache 0).X < (sampleAt c.cache k).X)
    (fuel : Nat) (hfuel : c.cache.length ≤ fuel) :
    c.InterpolateX fuel (sampleAt c.cache 0).X = some (sampleAt c.cache 0).Y := by
  have hs := searchLoop_at_first c.cache (sampleAt c.cache 0).X hlen hx fuel
    ((c.cache.length : Int) - 1) (by omega) (le_refl _) (by omega)
  rw [InterpolateX_of_search c _ fuel 0 (by omega) hs (le_refl _) (by omega)]
  simp [point2D.LinearInterpolation]

theorem sampleAt_map_range {α : Type} [LinearOrderedField α] (f : Nat → point2D α) (m : Nat)
    (k : Int) (h0 : 0 ≤ k) (h1 : k < (m : Int)) :
    sampleAt ((List.range m).map f) k = f k.toNat := by
  have hk : k.toNat < m := by omega
  unfold sampleAt index
  rw [if_pos h0]
  simp [hk]

/-! ## Knot intervals of the centripetal splines -/

theorem chord_root {α : Type} [LinearOrderedField α] (m : MathLib α) (hsq : m.SqrtExact)
    (hpw : m.PowHalfExact) (z : α) (hz : 1 ≤ z) :
    1 ≤ m.Pow (m.Sqrt z) (1 / 2) ∧
      m.Pow (m.Sqrt z) (1 / 2) * m.Pow (m.Sqrt z) (1 / 2) *
        (m.Pow (m.Sqrt z) (1 / 2) * m.Pow (m.Sqrt z) (1 / 2)) = z := by
  obtain ⟨hs0, hs1⟩ := hsq z (by linarith)
  obtain ⟨hd0, hd1⟩ := hpw (m.Sqrt z) hs0
  have h4 : m.Pow (m.Sqrt z) (1 / 2) * m.Pow (m.Sqrt z) (1 / 2) *
      (m.Pow (m.Sqrt z) (1 / 2) * m.Pow (m.Sqrt z) (1 / 2)) = z := by
    rw [hd1, hs1]
  refine ⟨?_, h4⟩
  by_contra hlt
  have hlt1 : m.Pow (m.Sqrt z) (1 / 2) < 1 := not_le.mp hlt
  have h2 : m.Pow (m.Sqrt z) (1 / 2) * m.Pow (m.Sqrt z) (1 / 2) < 1 := by nlinarith
  have h2n : 0 ≤ m.Pow (m.Sqrt z) (1 / 2) * m.Pow (m.Sqrt z) (1 / 2) := mul_nonneg hd0 hd0
  have h3 : m.Pow (m.Sqrt z) (1 / 2) * m.Pow (m.Sqrt z) (1 / 2) *
      (m.Pow (m.Sqrt z) (1 / 2) * m.Pow (m.Sqrt z) (1 / 2)) < 1 := by nlinarith
  linarith

theorem interval_ratio_of_bound {α : Type} [LinearOrderedField α] (d2 d3 : α) (h2 : 1 ≤ d2)
    (h3 : 1 ≤ d3) (hq : d2 * d2 * (d2 * d2) ≤ 33) : d2 * d2 ≤ 2 * d2 * d3 + d3 * d3 := by
  have hsmall : d2 * d2 ≤ 2 * d2 + 1 := by
    by_contra hc
    have hc1 : 2 * d2 + 1 < d2 * d2 := not_le.mp hc
    have hbig : 12 / 5 < d2 := by
      by_contra hle
      have hle1 : d2 ≤ 12 / 5 := not_lt.mp hle
      nlinarith [mul_nonneg (sub_nonneg.mpr h2) (sub_nonneg.mpr hle1)]
    have hsq : 144 / 25 < d2 * d2 := by nlinarith
    have : (144 / 25 : α) * (144 / 25) < d2 * d2 * (d2 * d2) := by nlinarith
    norm_num at this
    linarith
  have : 2 * d2 ≤ 2 * d2 * d3 := by nlinarith
  have : 1 ≤ d3 * d3 := by nlinarith
  linarith

theorem cache_value_at_p1 {α : Type} [LinearOrderedField α] [FloorRing α] (c : catmullRom α)
    (a v1 d1 d2 d3 : α) (r1 : 1 ≤ d1) (r2 : 1 ≤ d2) (r3 : 1 ≤ d3)
    (hB : d2 * d2 ≤ 2 * d2 * d3 + d3 * d3)
    (k1 : c.t1 = d1) (k2 : c.t2 = d1 + d2) (k3 : c.t3 = d1 + d2 + d3)
    (e0 : c.p0.X = a) (e1 : c.p1 = ⟨a + 1, v1⟩) (e2 : c.p2.X = a + 2) (e3 : c.p3.X = a + 3)
    (m : Nat) (hm3 : 3 ≤ m) (fuel : Nat) (hfuel : m < fuel) :
    catmullRomCached.InterpolateX fuel
        { cache := (List.range m).map fun (k : Nat) => c.At (sampleParam c m k) } (a + 1) =
      some v1 := by
  have hmpos : (0 : α) < (m : α) - 1 := by
    have : ((3 : Nat) : α) ≤ (m : α) := by exact_mod_cast hm3
    push_cast at this
    linarith
  have hfirst : sampleAt ((List.range m).map fun (k : Nat) => c.At (sampleParam c m k)) 0 =
      ⟨a + 1, v1⟩ := by
    rw [sampleAt_map_range _ _ 0 (le_refl _) (by omega)]
    have : sampleParam c m (0 : Int).toNat = c.t1 := by
      simp [sampleParam, catmullRom.LowerT]
    rw [this, At_lower c (by rw [k1]; linarith) (by rw [k2]; linarith)
      (by rw [k1, k2]; linarith), e1]
  have hrest : ∀ k : Int, 1 ≤ k →
      k < (((List.range m).map fun (k : Nat) => c.At (sampleParam c m k)).length : Int) →
      (sampleAt ((List.range m).map fun (k : Nat) => c.At (sampleParam c m k)) 0).X <
        (sampleAt ((List.range m).map fun (k : Nat) => c.At (sampleParam c m k)) k).X := by
    intro k hk1 hk2
    rw [List.length_map, List.length_range] at hk2
    rw [hfirst, sampleAt_map_range _ _ k (by omega) hk2]
    have hkpos : (0 : α) < (k.toNat : α) := by
      have : 0 < k.toNat := by omega
      exact_mod_cast this
    have hkle : (k.toNat : α) ≤ (m : α) - 1 := by
      have : k.toNat + 1 ≤ m := by omega
      have h' : ((k.toNat + 1 : Nat) : α) ≤ (m : α) := by exact_mod_cast this
      push_cast at h'
      linarith
    have hparam : sampleParam c m k.toNat = d1 + (k.toNat : α) * d2 / ((m : α) - 1) := by
      simp only [sampleParam, catmullRom.LowerT, catmullRom.UpperT, k1, k2]
      congr 2
      ring
    rw [hparam]
    have hd2 : (0 : α) < d2 := by linarith
    have x1 : c.p1.X = a + 1 := by rw [e1]
    apply At_X_above_p1 c a d1 d2 d3 _ (by linarith) hd2 (by linarith) hB _ _ k1 k2 k3
      e0 x1 e2 e3
    · exact div_pos (mul_pos hkpos hd2) hmpos
    · rw [div_le_iff₀ hmpos]
      exact mul_le_mul_of_nonneg_right hkle hd2.le |>.trans (le_of_eq (mul_comm _ _))
  have hlen : 3 ≤ ((List.range m).map fun (k : Nat) => c.At (sampleParam c m k)).length := by
    rw [List.length_map, List.length_range]
    exact hm3
  have hres := InterpolateX_at_first
    { cache := (List.range m).map fun (k : Nat) => c.At (sampleParam c m k) } hlen hrest fuel
    (by
      show ((List.range m).map fun (k : Nat) => c.At (sampleParam c m k)).length ≤ fuel
      rw [List.length_map, List.length_range]
      omega)
  rw [hfirst] at hres
  exact hres

theorem chord_knots {α : Type} [LinearOrderedField α] [FloorRing α]
    (m : MathLib α) (hsq : m.SqrtExact) (hpw : m.PowHalfExact) (a v0 v1 v2 v3 : α)
    (hv : (v2 - v1) * (v2 - v1) ≤ 32) :
    ∃ d1 d2 d3 : α, 1 ≤ d1 ∧ 1 ≤ d2 ∧ 1 ≤ d3 ∧ d2 * d2 ≤ 2 * d2 * d3 + d3 * d3 ∧
      m.Pow (chordLength m ⟨a, v0⟩ ⟨a + 1, v1⟩) (1 / 2) = d1 ∧
      m.Pow (chordLength m ⟨a + 1, v1⟩ ⟨a + 2, v2⟩) (1 / 2) = d2 ∧
      m.Pow (chordLength m ⟨a + 2, v2⟩ ⟨a + 3, v3⟩) (1 / 2) = d3 := by
  have z1 : (a + 1 - a) * (a + 1 - a) + (v1 - v0) * (v1 - v0) = 1 + (v1 - v0) * (v1 - v0) := by
    ring
  have z2 : (a + 2 - (a + 1)) * (a + 2 - (a + 1)) + (v2 - v1) * (v2 - v1) =
      1 + (v2 - v1) * (v2 - v1) := by ring
  have z3 : (a + 3 - (a + 2)) * (a + 3 - (a + 2)) + (v3 - v2) * (v3 - v2) =
      1 + (v3 - v2) * (v3 - v2) := by ring
  simp only [chordLength, z1, z2, z3]
  obtain ⟨r1, _⟩ := chord_root m hsq hpw (1 + (v1 - v0) * (v1 - v0))
    (by nlinarith [mul_self_nonneg (v1 - v0)])
  obtain ⟨r2, q2⟩ := chord_root m hsq hpw (1 + (v2 - v1) * (v2 - v1))
    (by nlinarith [mul_self_nonneg (v2 - v1)])
  obtain ⟨r3, _⟩ := chord_root m hsq hpw (1 + (v3 - v2) * (v3 - v2))
    (by nlinarith [mul_self_nonneg (v3 - v2)])
  exact ⟨_, _, _, r1, r2, r3,
    interval_ratio_of_bound _ _ r2 r3 (by rw [q2]; linarith), rfl, rfl, rfl⟩

theorem cached_value_at_p1 {α : Type} [LinearOrderedField α] [FloorRing α] (c : catmullRom α)
    (a v1 d1 d2 d3 : α) (r1 : 1 ≤ d1) (r2 : 1 ≤ d2) (r3 : 1 ≤ d3)
    (hB : d2 * d2 ≤ 2 * d2 * d3 + d3 * d3)
    (k1 : c.t1 = d1) (k2 : c.t2 = d2 + d1) (k3 : c.t3 = d3 + (d2 + d1))
    (e0 : c.p0.X = a) (e1 : c.p1 = ⟨a + 1, v1⟩) (e2 : c.p2.X = a + 2) (e3 : c.p3.X = a + 3)
    (n : Int) (hn : 0 ≤ n) (fuel : Nat) (hfuel : sampleCount n < fuel) :
    ((if n < 0 then none else catmullRomCached.init fuel { cache := [] } c n).bind
      fun cc => cc.InterpolateX fuel (a + 1)) = some v1 := by
  have k2' : c.t2 = d1 + d2 := by rw [k2, add_comm]
  have k3' : c.t3 = d1 + d2 + d3 := by rw [k3]; ring
  have hlt : c.LowerT < c.UpperT := by
    simp only [catmullRom.LowerT, catmullRom.UpperT, k1, k2']
    linarith
  have hm3 : 3 ≤ sampleCount n := by
    unfold sampleCount
    have : (3 : Int) ≤ max n 3 := le_max_right _ _
    omega
  rw [if_neg (not_lt.mpr hn), init_eq_samples c hlt _ _ fuel hfuel]
  simp only [Option.some_bind, List.nil_append]
  exact cache_value_at_p1 c a v1 d1 d2 d3 r1 r2 r3 hB k1 k2' k3' e0 e1 e2 e3 _ hm3 fuel hfuel

theorem PerlinCatmullRom.splineValue_at_p1 {σ α : Type} [LinearOrderedField α] [FloorRing α]
    (m : MathLib α) (hsq : m.SqrtExact) (hpw : m.PowHalfExact) (fuel : Nat)
    (s : PerlinCatmullRom σ) (hn : 0 ≤ s.splineCacheSize)
    (hfuel : sampleCount s.splineCacheSize < fuel) (a v0 v1 v2 v3 : α)
    (hv : (v2 - v1) * (v2 - v1) ≤ 32) :
    s.splineValue m fuel ⟨a, v0⟩ ⟨a + 1, v1⟩ ⟨a + 2, v2⟩ ⟨a + 3, v3⟩ (a + 1) = some v1 := by
  obtain ⟨d1, d2, d3, r1, r2, r3, hB, c1, c2, c3⟩ := chord_knots m hsq hpw a v0 v1 v2 v3 hv
  exact cached_value_at_p1
    (newCatmullRom m (1 / 2) (⟨a, v0⟩ : point2D α) ⟨a + 1, v1⟩ ⟨a + 2, v2⟩ ⟨a + 3, v3⟩)
    a v1 d1 d2 d3 r1 r2 r3 hB c1 (c1 ▸ c2 ▸ rfl) (c1 ▸ c2 ▸ c3 ▸ rfl) rfl rfl rfl rfl
    s.splineCacheSize hn fuel hfuel

/-! ## The spline variant at lattice coordinates -/

theorem gradient2D_unit {α : Type} [LinearOrderedField α] [FloorRing α] (m : MathLib α)
    (hu : m.UnitCircle) : ∀ g ∈ gradient2D m, g.X * g.X + g.Y * g.Y = 1 := by
  intro g hg
  simp only [gradient2D, List.mem_cons, List.mem_singleton, List.not_mem_nil, or_false] at hg
  rcases hg with h | h | h | h | h | h | h | h | h | h | h | h <;> subst h
  · simp
  all_goals exact hu _

theorem unit_bounds {α : Type} [LinearOrderedField α] (x y : α) (h : x * x + y * y = 1) :
    -1 ≤ x ∧ x ≤ 1 ∧ -1 ≤ y ∧ y ≤ 1 := by
  refine ⟨?_, ?_, ?_, ?_⟩ <;> nlinarith [mul_self_nonneg x, mul_self_nonneg y,
    mul_self_nonneg (x - 1), mul_self_nonneg (x + 1), mul_self_nonneg (y - 1),
    mul_self_nonneg (y + 1)]

theorem PerlinCatmullRom.latticeNoise_value {σ α : Type} [LinearOrderedField α] [FloorRing α]
    (m : MathLib α) (s : PerlinCatmullRom σ) (hs : TableInvariant s.hash) (xi yj : Int)
    (hx : 0 ≤ xi) (hy : 0 ≤ yj) (px py : α) :
    ∃ g, g ∈ gradient2D m ∧ s.latticeNoise m xi yj ⟨px, py⟩ = some (g.X * px + g.Y * py) := by
  obtain ⟨vy, ey, ry, _⟩ := s.hashIdx_total hs yj hy
  obtain ⟨vh, eh, rh, _⟩ := s.hashIdx_total hs (xi + vy) (by omega)
  have hb := intMod_nonneg_bounds vh (gradient2D m).length rh (by rw [gradient2D_length]; decide)
  obtain ⟨g, eg, hg⟩ := index_isSome_of_lt (gradient2D m) _ hb.1 hb.2
  refine ⟨g, hg, ?_⟩
  unfold PerlinCatmullRom.latticeNoise
  simp only [ey, eh, eg, Option.bind_eq_bind, Option.some_bind, Option.pure_def]
  rfl

theorem PerlinCatmullRom.rowNoise_lattice {σ α : Type} [LinearOrderedField α] [FloorRing α]
    (m : MathLib α) (hsq : m.SqrtExact) (hpw : m.PowHalfExact) (hu : m.UnitCircle)
    (fuel : Nat) (s : PerlinCatmullRom σ) (hs : TableInvariant s.hash)
    (hn : 0 ≤ s.splineCacheSize) (hfuel : sampleCount s.splineCacheSize < fuel)
    (x0 : Int) (hx : 0 ≤ x0) (yj : Int) (hy : 0 ≤ yj) (ry : α) (h1 : -2 ≤ ry) (h2 : ry ≤ 2) :
    ∃ g, g ∈ gradient2D m ∧
      s.rowNoise m fuel x0 0 yj ry = some (max (-1) (min 1 (g.Y * ry))) := by
  obtain ⟨g0, _, e0⟩ := s.latticeNoise_value m hs x0 yj hx hy ((0 : α) + 1) ry
  obtain ⟨g1, m1, e1⟩ := s.latticeNoise_value m hs (x0 + 1) yj (by omega) hy (0 : α) ry
  obtain ⟨g2, m2, e2⟩ := s.latticeNoise_value m hs (x0 + 2) yj (by omega) hy ((0 : α) - 1) ry
  obtain ⟨g3, _, e3⟩ := s.latticeNoise_value m hs (x0 + 3) yj (by omega) hy ((0 : α) - 2) ry
  obtain ⟨_, _, b1, b1'⟩ := unit_bounds _ _ (gradient2D_unit m hu g1 m1)
  obtain ⟨a2, a2', b2, b2'⟩ := unit_bounds _ _ (gradient2D_unit m hu g2 m2)
  have hv : ((g2.X * ((0 : α) - 1) + g2.Y * ry) - (g1.X * 0 + g1.Y * ry)) *
      ((g2.X * ((0 : α) - 1) + g2.Y * ry) - (g1.X * 0 + g1.Y * ry)) ≤ 32 := by
    have p1 : -2 ≤ g2.Y * ry ∧ g2.Y * ry ≤ 2 := by
      constructor <;> nlinarith
    have p2 : -2 ≤ g1.Y * ry ∧ g1.Y * ry ≤ 2 := by
      constructor <;> nlinarith
    have lo : -5 ≤ (g2.X * ((0 : α) - 1) + g2.Y * ry) - (g1.X * 0 + g1.Y * ry) := by linarith
    have hi : (g2.X * ((0 : α) - 1) + g2.Y * ry) - (g1.X * 0 + g1.Y * ry) ≤ 5 := by linarith
    nlinarith
  have ev := s.splineValue_at_p1 m hsq hpw fuel hn hfuel (x0 : α)
    (g0.X * ((0 : α) + 1) + g0.Y * ry) (g1.X * 0 + g1.Y * ry)
    (g2.X * ((0 : α) - 1) + g2.Y * ry) (g3.X * ((0 : α) - 2) + g3.Y * ry) hv
  refine ⟨g1, m1, ?_⟩
  unfold PerlinCatmullRom.rowNoise
  simp only [e0, e1, e2, e3, Option.bind_eq_bind, Option.some_bind, Option.pure_def, add_zero]
  rw [ev]
  simp

theorem clamp_bounds {α : Type} [LinearOrderedField α] (v : α) :
    -1 ≤ max (-1) (min 1 v) ∧ max (-1) (min 1 v) ≤ 1 :=
  ⟨le_max_left _ _, max_le (by norm_num) (min_le_left _ _)⟩

theorem PerlinCatmullRom.splineNoise_lattice {σ α : Type} [LinearOrderedField α] [FloorRing α]
    (m : MathLib α) (hsq : m.SqrtExact) (hpw : m.PowHalfExact) (hu : m.UnitCircle)
    (fuel : Nat) (s : PerlinCatmullRom σ) (hs : TableInvariant s.hash)
    (hn : 0 ≤ s.splineCacheSize) (hfuel : sampleCount s.splineCacheSize < fuel) (i j : Int) :
    PerlinCatmullRom.Noise m fuel s (i : α) (j : α) = some 0 := by
  obtain ⟨hx0, _⟩ := wrap_bounds (i - 1)
  obtain ⟨hy0, _⟩ := wrap_bounds (j - 1)
  obtain ⟨g0, _, e0⟩ := s.rowNoise_lattice m hsq hpw hu fuel hs hn hfuel _ hx0 _ hy0
    ((0 : α) + 1) (by norm_num) (by norm_num)
  obtain ⟨g1, _, e1⟩ := s.rowNoise_lattice m hsq hpw hu fuel hs hn hfuel _ hx0
    (addWhileNegative (intMod (j - 1) hashSize2D) + 1) (by omega) (0 : α) (by norm_num)
    (by norm_num)
  obtain ⟨g2, _, e2⟩ := s.rowNoise_lattice m hsq hpw hu fuel hs hn hfuel _ hx0
    (addWhileNegative (intMod (j - 1) hashSize2D) + 2) (by omega) ((0 : α) - 1) (by norm_num)
    (by norm_num)
  obtain ⟨g3, _, e3⟩ := s.rowNoise_lattice m hsq hpw hu fuel hs hn hfuel _ hx0
    (addWhileNegative (intMod (j - 1) hashSize2D) + 3) (by omega) ((0 : α) - 2) (by norm_num)
    (by norm_num)
  have z1 : max (-1 : α) (min 1 (g1.Y * 0)) = 0 := by simp
  rw [z1] at e1
  obtain ⟨c2, c2'⟩ := clamp_bounds (g2.Y * ((0 : α) - 1))
  have hv : (max (-1 : α) (min 1 (g2.Y * ((0 : α) - 1))) - 0) *
      (max (-1 : α) (min 1 (g2.Y * ((0 : α) - 1))) - 0) ≤ 32 := by nlinarith
  have ev := s.splineValue_at_p1 m hsq hpw fuel hn hfuel
    ((addWhileNegative (intMod (j - 1) hashSize2D) : Int) : α)
    (max (-1) (min 1 (g0.Y * ((0 : α) + 1)))) 0 _ (max (-1) (min 1 (g3.Y * ((0 : α) - 2)))) hv
  have fi : intFloor (i : α) = i := by simp [intFloor]
  have fj : intFloor (j : α) = j := by simp [intFloor]
  unfold PerlinCatmullRom.Noise
  simp only [fi, fj, sub_self, e0, e1, e2, e3, Option.bind_eq_bind, Option.some_bind,
    Option.pure_def, add_zero]
  rw [ev]
  rfl
theorem real_math_contracts :
    (MathLib.mk Real.pi Real.cos Real.sin Real.sqrt fun b a => b ^ a).SqrtExact ∧
      (MathLib.mk Real.pi Real.cos Real.sin Real.sqrt fun b a => b ^ a).PowHalfExact ∧
      (MathLib.mk Real.pi Real.cos Real.sin Real.sqrt fun b a => b ^ a).UnitCircle := by
  refine ⟨fun z hz => ⟨Real.sqrt_nonneg z, Real.mul_self_sqrt hz⟩, fun b hb => ?_, fun θ => ?_⟩
  · show 0 ≤ b ^ (1 / 2 : ℝ) ∧ b ^ (1 / 2 : ℝ) * b ^ (1 / 2 : ℝ) = b
    rw [← Real.sqrt_eq_rpow]
    exact ⟨Real.sqrt_nonneg b, Real.mul_self_sqrt hb⟩
  · show Real.cos θ * Real.cos θ + Real.sin θ * Real.sin θ = 1
    have := Real.cos_sq_add_sin_sq θ
    nlinarith

theorem PerlinCatmullRom.splineNoise_lattice_real {σ : Type} (lib : RandLib σ)
    (hlib : lib.InRange) (seed : Int) (splineCacheSize : Int) (hn : 0 ≤ splineCacheSize)
    (i j : Int) :
    PerlinCatmullRom.Noise (MathLib.mk Real.pi Real.cos Real.sin Real.sqrt fun b a => b ^ a)
      (sampleCount splineCacheSize + 1) (NewPerlinCatmullRom lib splineCacheSize seed)
      (i : ℝ) (j : ℝ) = some 0 :=
  PerlinCatmullRom.splineNoise_lattice _ real_math_contracts.1 real_math_contracts.2.1
    real_math_contracts.2.2 _ (NewPerlinCatmullRom lib splineCacheSize seed)
    (table_invariant_of_draws _ lib hlib _ rfl) hn (Nat.lt_succ_self _) i j

/-! ## The fade polynomial -/

theorem fader_hasDerivAt (u : ℝ) : HasDerivAt (fader : ℝ → ℝ) (30 * u ^ 2 * (u - 1) ^ 2) u := by
  have h : (fader : ℝ → ℝ) = fun t => 6 * t ^ 5 - 15 * t ^ 4 + 10 * t ^ 3 := by
    funext t
    unfold fader
    ring
  rw [h]
  have hd := (((hasDerivAt_pow 5 u).const_mul 6).sub ((hasDerivAt_pow 4 u).const_mul 15)).add
    ((hasDerivAt_pow 3 u).const_mul 10)
  convert hd using 1
  norm_num
  ring

theorem fader_deriv : deriv (fader : ℝ → ℝ) = fun u => 30 * u ^ 2 * (u - 1) ^ 2 :=
  funext fun u => (fader_hasDerivAt u).deriv

theorem fader_deriv_hasDerivAt (u : ℝ) :
    HasDerivAt (deriv (fader : ℝ → ℝ)) (60 * u * (u - 1) * (2 * u - 1)) u := by
  have h : deriv (fader : ℝ → ℝ) = fun t => 30 * t ^ 4 - 60 * t ^ 3 + 30 * t ^ 2 := by
    rw [fader_deriv]
    funext t
    ring
  rw [h]
  have hd := (((hasDerivAt_pow 4 u).const_mul 30).sub ((hasDerivAt_pow 3 u).const_mul 60)).add
    ((hasDerivAt_pow 2 u).const_mul 30)
  convert hd using 1
  norm_num
  ring

/-- C21: `fader(t)` equals `t^3*(6t^2 - 15t + 10)` for every `t`, with
`fader(0) = 0` and `fader(1) = 1`; over the reals `fader` is differentiable
with derivative `30 t^2 (t-1)^2`, that derivative is differentiable with
derivative `60 t (t-1) (2t-1)`, and both vanish at `t = 0` and at `t = 1`. -/
theorem fader_polynomial_with_flat_ends {α : Type} [LinearOrderedField α] [FloorRing α]
    (t : α) :
    fader t = t ^ 3 * (6 * t ^ 2 - 15 * t + 10) ∧ fader (0 : α) = 0 ∧ fader (1 : α) = 1 ∧
      (∀ u : ℝ, HasDerivAt (fader : ℝ → ℝ) (30 * u ^ 2 * (u - 1) ^ 2) u) ∧
      (∀ u : ℝ, HasDerivAt (deriv (fader : ℝ → ℝ)) (60 * u * (u - 1) * (2 * u - 1)) u) ∧
      deriv (fader : ℝ → ℝ) 0 = 0 ∧ deriv (fader : ℝ → ℝ) 1 = 0 ∧
      deriv (deriv (fader : ℝ → ℝ)) 0 = 0 ∧ deriv (deriv (fader : ℝ → ℝ)) 1 = 0 := by
  refine ⟨by unfold fader; ring, by unfold fader; norm_num, by unfold fader; norm_num,
    fader_hasDerivAt, fader_deriv_hasDerivAt, ?_, ?_, ?_, ?_⟩
  · rw [(fader_hasDerivAt 0).deriv]
    norm_num
  · rw [(fader_hasDerivAt 1).deriv]
    norm_num
  · rw [(fader_deriv_hasDerivAt 0).deriv]
    norm_num
  · rw [(fader_deriv_hasDerivAt 1).deriv]
    norm_num

/-! ## Interpolation of the middle control points -/

theorem At_upper {α : Type} [LinearOrderedField α] [FloorRing α] (c : catmullRom α)
    (h12 : c.t2 - c.t1 ≠ 0) (h23 : c.t3 - c.t2 ≠ 0) (h13 : c.t3 - c.t1 ≠ 0) :
    c.At c.t2 = c.p2 := by
  have e2 : (c.t2 - c.t1) / (c.t2 - c.t1) = 1 := div_self h12
  have e3 : (c.t3 - c.t2) / (c.t3 - c.t2) = 1 := div_self h23
  have e4 : (c.t3 - c.t2) / (c.t3 - c.t1) + (c.t2 - c.t1) / (c.t3 - c.t1) = 1 := by
    rw [← add_div, sub_add_sub_cancel, div_self h13]
  have hx : c.p2.X * ((c.t3 - c.t2) / (c.t3 - c.t1)) + c.p2.X * ((c.t2 - c.t1) / (c.t3 - c.t1)) =
      c.p2.X := by
    rw [← mul_add, e4, mul_one]
  have hy : c.p2.Y * ((c.t3 - c.t2) / (c.t3 - c.t1)) + c.p2.Y * ((c.t2 - c.t1) / (c.t3 - c.t1)) =
      c.p2.Y := by
    rw [← mul_add, e4, mul_one]
  cases hp : c.p2 with
  | mk px py =>
    rw [hp] at hx hy
    simp only [catmullRom.At, catmullRom.lowerUpper, point2D.Scale, point2D.Add, sub_self,
      zero_div, mul_zero, zero_add, add_zero, e2, e3, mul_one, hp, point2D.mk.injEq]
    exact ⟨hx, hy⟩

/-- C27: for every spline with strictly increasing knots `0 < t1 < t2 < t3`,
`catmullRom.At` interpolates its two middle control points:
`At(LowerT()) = p1` and `At(UpperT()) = p2`. -/
theorem At_interpolates_middle_control_points {α : Type} [LinearOrderedField α] [FloorRing α]
    (c : catmullRom α) (h1 : 0 < c.t1) (h12 : c.t1 < c.t2) (h23 : c.t2 < c.t3) :
    c.At c.LowerT = c.p1 ∧ c.At c.UpperT = c.p2 :=
  ⟨At_lower c (by linarith) (by linarith) (by linarith),
    At_upper c (by linarith) (by linarith) (by linarith)⟩

theorem At_interpolates_middle_control_points_witness :
    (0 < splineSample.t1 ∧ splineSample.t1 < splineSample.t2 ∧
        splineSample.t2 < splineSample.t3) ∧
      splineSample.At splineSample.LowerT = splineSample.p1 ∧
      splineSample.At splineSample.UpperT = splineSample.p2 :=
  ⟨by norm_num [splineSample],
    At_interpolates_middle_control_points splineSample (by norm_num [splineSample])
      (by norm_num [splineSample]) (by norm_num [splineSample])⟩

/-! ## The simplex skew constants -/

/-- C28: with `F = coordTransformToUnskew(2)` and `G = coordTransformToSkew(2)`
(and `math.Sqrt(3)` not zero), for every `(x, y)` the map
`(x, y) -> (x + (x+y)*F, y + (x+y)*F)` is undone by
`(x', y') -> (x' + (x'+y')*G, y' + (x'+y')*G)`, equivalently
`G = -F/(1 + 2F)`; so the point `(x - firstX, y - firstY)` that `Simplex.Noise`
subtracts is the point whose image under the first map is the integer cell
`(simplexX, simplexY)`, and the image of `(firstX, firstY)` is the fractional
part of the image of `(x, y)`. -/
theorem skew_constants_mutually_inverse {α : Type} [LinearOrderedField α] [FloorRing α]
    (m : MathLib α) (h3 : m.Sqrt 3 ≠ 0) (x y : α) :
    (x + (x + y) * coordTransformToUnskew m 2) +
        ((x + (x + y) * coordTransformToUnskew m 2) +
          (y + (x + y) * coordTransformToUnskew m 2)) * coordTransformToSkew m 2 = x ∧
      (y + (x + y) * coordTransformToUnskew m 2) +
        ((x + (x + y) * coordTransformToUnskew m 2) +
          (y + (x + y) * coordTransformToUnskew m 2)) * coordTransformToSkew m 2 = y ∧
      coordTransformToSkew m 2 =
        -coordTransformToUnskew m 2 / (1 + 2 * coordTransformToUnskew m 2) ∧
      (x - simplexFirst m x y x) +
        ((x - simplexFirst m x y x) + (y - simplexFirst m x y y)) *
          coordTransformToUnskew m 2 = (simplexCell m x y x : α) ∧
      (y - simplexFirst m x y y) +
        ((x - simplexFirst m x y x) + (y - simplexFirst m x y y)) *
          coordTransformToUnskew m 2 = (simplexCell m x y y : α) ∧
      (0 ≤ simplexFirst m x y x +
          (simplexFirst m x y x + simplexFirst m x y y) * coordTransformToUnskew m 2 ∧
        simplexFirst m x y x +
          (simplexFirst m x y x + simplexFirst m x y y) * coordTransformToUnskew m 2 < 1) ∧
      (0 ≤ simplexFirst m x y y +
          (simplexFirst m x y x + simplexFirst m x y y) * coordTransformToUnskew m 2 ∧
        simplexFirst m x y y +
          (simplexFirst m x y x + simplexFirst m x y y) * coordTransformToUnskew m 2 < 1) := by
  have hc : (((2 : Int) + 1 : Int) : α) = 3 := by norm_num
  have hF : coordTransformToUnskew m 2 = (m.Sqrt 3 - 1) / 2 := by
    simp only [coordTransformToUnskew, hc, Int.cast_ofNat]
  have hG : coordTransformToSkew m 2 = (1 / m.Sqrt 3 - 1) / 2 := by
    simp only [coordTransformToSkew, hc, Int.cast_ofNat]
  have hfx : simplexFirst m x y x +
      (simplexFirst m x y x + simplexFirst m x y y) * coordTransformToUnskew m 2 =
        (x + (x + y) * coordTransformToUnskew m 2) - (simplexCell m x y x : α) := by
    simp only [simplexFirst, hF, hG, Int.cast_add]
    field_simp
    ring
  have hfy : simplexFirst m x y y +
      (simplexFirst m x y x + simplexFirst m x y y) * coordTransformToUnskew m 2 =
        (y + (x + y) * coordTransformToUnskew m 2) - (simplexCell m x y y : α) := by
    simp only [simplexFirst, hF, hG, Int.cast_add]
    field_simp
    ring
  have hs1 : 1 + 2 * ((m.Sqrt 3 - 1) / 2) = m.Sqrt 3 := by ring
  refine ⟨?_, ?_, ?_, ?_, ?_, ?_, ?_⟩
  · rw [hF, hG]
    field_simp
    ring
  · rw [hF, hG]
    field_simp
    ring
  · have hmul : (1 / m.Sqrt 3 - 1) / 2 * m.Sqrt 3 = -((m.Sqrt 3 - 1) / 2) := by
      field_simp
      ring
    rw [hF, hG, hs1, eq_div_iff h3]
    exact hmul
  · simp only [simplexFirst, hF, hG, Int.cast_add]
    field_simp
    ring
  · simp only [simplexFirst, hF, hG, Int.cast_add]
    field_simp
    ring
  · rw [hfx]
    unfold simplexCell intFloor
    exact ⟨sub_nonneg.mpr (Int.floor_le _),
      by linarith [Int.lt_floor_add_one (x + (x + y) * coordTransformToUnskew m 2)]⟩
  · rw [hfy]
    unfold simplexCell intFloor
    exact ⟨sub_nonneg.mpr (Int.floor_le _),
      by linarith [Int.lt_floor_add_one (y + (x + y) * coordTransformToUnskew m 2)]⟩

theorem skew_constants_mutually_inverse_witness :
    ratMath.Sqrt 3 ≠ 0 ∧
      ((1 : ℚ) + (1 + 2) * coordTransformToUnskew ratMath 2) +
        (((1 : ℚ) + (1 + 2) * coordTransformToUnskew ratMath 2) +
          ((2 : ℚ) + (1 + 2) * coordTransformToUnskew ratMath 2)) *
            coordTransformToSkew ratMath 2 = 1 :=
  ⟨by norm_num [ratMath],
    (skew_constants_mutually_inverse ratMath (by norm_num [ratMath]) 1 2).1⟩

/-! ## Lattice points shared by adjacent cells, and periodicity -/

theorem wrap_eq_emod (c : Int) : addWhileNegative (intMod c hashSize2D) = c % hashSize2D := by
  have hH : hashSize2D = 8192 := by decide
  obtain ⟨q, hq⟩ := intMod_congr c hashSize2D
  obtain ⟨hb1, hb2⟩ := intMod_bounds c hashSize2D (by decide)
  rcases le_or_lt 0 (intMod c hashSize2D) with h | h
  · rw [addWhileNegative_of_nonneg _ h]
    rw [hH] at *
    omega
  · rw [addWhileNegative_of_neg _ h (by omega)]
    rw [hH] at *
    omega

theorem wrap_add_mul (c k : Int) :
    addWhileNegative (intMod (c + k * hashSize2D) hashSize2D) =
      addWhileNegative (intMod c hashSize2D) := by
  rw [wrap_eq_emod, wrap_eq_emod, Int.add_mul_emod_self]

theorem reducedCell_succ (c : Int) :
    (reducedCell c + 1 < hashSize2D ∧ reducedCell (c + 1) = reducedCell c + 1) ∨
      (reducedCell c + 1 = hashSize2D ∧ reducedCell (c + 1) = 0) := by
  have hH : hashSize2D = 8192 := by decide
  unfold reducedCell
  rw [wrap_eq_emod, wrap_eq_emod, hH]
  omega

theorem TableInvariant.index_wrap {hash : List Int} (hv : TableInvariant hash) (k : Int)
    (h0 : 0 ≤ k) (h1 : k < hashSize2D) : index hash (k + hashSize2D) = index hash k := by
  obtain ⟨v, e1, e2⟩ := hv.2.2 k h0 h1
  rw [e1, e2]

theorem TableInvariant.index_succ_cell {hash : List Int} (hv : TableInvariant hash) (c h : Int)
    (h0 : 0 ≤ h) (h1 : h < hashSize2D) :
    index hash (reducedCell c + 1 + h) = index hash (reducedCell (c + 1) + h) := by
  rcases reducedCell_succ c with ⟨_, e⟩ | ⟨e1, e2⟩
  · rw [e]
  · rw [e1, e2, zero_add, add_comm, hv.index_wrap h h0 h1]

theorem TableInvariant.index_succ_row {hash : List Int} (hv : TableInvariant hash) (c : Int) :
    index hash (reducedCell c + 1) = index hash (reducedCell (c + 1)) := by
  rcases reducedCell_succ c with ⟨_, e⟩ | ⟨e1, e2⟩
  · rw [e]
  · rw [e1, e2]
    have := hv.index_wrap 0 (le_refl _) (by decide)
    rw [zero_add] at this
    exact this

/-- C23: in `Perlin.Noise` the gradient index of a lattice point depends only
on the lattice point. For every table satisfying the construction invariant
and all integers `i`, `j`, the indices that cell `(i, j)` computes for its
corners `(i+1, j)`, `(i, j+1)` and `(i+1, j+1)` are computed without a failing
lookup and equal the index that the cells `(i+1, j)`, `(i, j+1)` and
`(i+1, j+1)` compute for their own `(0,0)` corner, also across the wrap from
`hashSize2D - 1` to `0` and for negative cells. -/
theorem gradient_depends_only_on_lattice_point {σ α : Type} [LinearOrderedField α]
    [FloorRing α] (m : MathLib α) (s : Perlin σ) (hs : TableInvariant s.hash) (i j : Int) :
    ∃ g10 g01 g11 : Int,
      s.gradIndex m (reducedCell i + 1) (reducedCell j) = some g10 ∧
      s.gradIndex m (reducedCell (i + 1)) (reducedCell j) = some g10 ∧
      s.gradIndex m (reducedCell i) (reducedCell j + 1) = some g01 ∧
      s.gradIndex m (reducedCell i) (reducedCell (j + 1)) = some g01 ∧
      s.gradIndex m (reducedCell i + 1) (reducedCell j + 1) = some g11 ∧
      s.gradIndex m (reducedCell (i + 1)) (reducedCell (j + 1)) = some g11 := by
  have hH : hashSize2D = 8192 := by decide
  obtain ⟨hx0, hx1⟩ := reducedCell_bounds i
  obtain ⟨hy0, hy1⟩ := reducedCell_bounds j
  obtain ⟨vy0, ey0, ry0, ry0b⟩ := hs.index_lt _ hy0 (by omega)
  obtain ⟨vy1, ey1, ry1, ry1b⟩ := hs.index_lt (reducedCell j + 1) (by omega) (by omega)
  obtain ⟨v10, e10, _, _⟩ := hs.index_lt (reducedCell i + 1 + vy0) (by omega) (by omega)
  obtain ⟨v01, e01, _, _⟩ := hs.index_lt (reducedCell i + vy1) (by omega) (by omega)
  obtain ⟨v11, e11, _, _⟩ := hs.index_lt (reducedCell i + 1 + vy1) (by omega) (by omega)
  have f1 : index s.hash (reducedCell (j + 1)) = some vy1 := by
    rw [← hs.index_succ_row j, ey1]
  have f10 : index s.hash (reducedCell (i + 1) + vy0) = some v10 := by
    rw [← hs.index_succ_cell i vy0 ry0 ry0b, e10]
  have f11 : index s.hash (reducedCell (i + 1) + vy1) = some v11 := by
    rw [← hs.index_succ_cell i vy1 ry1 ry1b, e11]
  refine ⟨intMod v10 (gradient2D m).length, intMod v01 (gradient2D m).length,
    intMod v11 (gradient2D m).length, ?_, ?_, ?_, ?_, ?_, ?_⟩
  · simp only [Perlin.gradIndex, ey0, e10, Option.some_bind, Option.map_some']
  · simp only [Perlin.gradIndex, ey0, f10, Option.some_bind, Option.map_some']
  · simp only [Perlin.gradIndex, ey1, e01, Option.some_bind, Option.map_some']
  · simp only [Perlin.gradIndex, f1, e01, Option.some_bind, Option.map_some']
  · simp only [Perlin.gradIndex, ey1, e11, Option.some_bind, Option.map_some']
  · simp only [Perlin.gradIndex, f1, f11, Option.some_bind, Option.map_some']

theorem gradient_depends_only_on_lattice_point_witness :
    TableInvariant (NewPerlin lcgRand 42).hash ∧
      ∃ g : Int,
        (NewPerlin lcgRand 42).gradIndex ratMath (reducedCell 8191 + 1) (reducedCell (-1) + 1) =
          some g ∧
        (NewPerlin lcgRand 42).gradIndex ratMath (reducedCell (8191 + 1))
          (reducedCell (-1 + 1)) = some g := by
  have h : TableInvariant (NewPerlin lcgRand 42).hash :=
    table_invariant_of_draws _ lcgRand lcgRand_inRange _ rfl
  obtain ⟨_, _, g11, _, _, _, _, e1, e2⟩ :=
    gradient_depends_only_on_lattice_point ratMath (NewPerlin lcgRand 42) h 8191 (-1)
  exact ⟨h, g11, e1, e2⟩

/-- C24: Perlin noise is periodic with period `hashSize2D` on both axes: for
every table, every `(x, y)` and all integers `k`, `l`,
`Perlin.Noise(x + k*hashSize2D, y + l*hashSize2D) = Perlin.Noise(x, y)` in
exact arithmetic (the same value, or the same failure of a lookup). -/
theorem Perlin_Noise_periodic {σ α : Type} [LinearOrderedField α] [FloorRing α]
    (m : MathLib α) (s : Perlin σ) (x y : α) (k l : Int) :
    Perlin.Noise m s (x + (k : α) * (hashSize2D : α)) (y + (l : α) * (hashSize2D : α)) =
      Perlin.Noise m s x y := by
  have hfx : intFloor (x + (k : α) * (hashSize2D : α)) = intFloor x + k * hashSize2D := by
    unfold intFloor
    rw [← Int.cast_mul, Int.floor_add_int]
  have hfy : intFloor (y + (l : α) * (hashSize2D : α)) = intFloor y + l * hashSize2D := by
    unfold intFloor
    rw [← Int.cast_mul, Int.floor_add_int]
  have hrx : x + (k : α) * (hashSize2D : α) - ((intFloor x + k * hashSize2D : Int) : α) =
      x - (intFloor x : α) := by
    push_cast
    ring
  have hry : y + (l : α) * (hashSize2D : α) - ((intFloor y + l * hashSize2D : Int) : α) =
      y - (intFloor y : α) := by
    push_cast
    ring
  unfold Perlin.Noise
  simp only [hfx, hfy, hrx, hry, wrap_add_mul]

/-! ## The splines of the spline-interpolated Perlin noise are non-degenerate -/

theorem ratMath_sqrtGeOne : ratMath.SqrtGeOne := by
  intro z hz
  simp only [ratMath]
  linarith

theorem ratMath_powHalfGeOne : ratMath.PowHalfGeOne := by
  intro b hb
  simp only [ratMath]
  linarith

theorem chordLength_ge_one {α : Type} [LinearOrderedField α] (m : MathLib α)
    (hsq : m.SqrtGeOne) (a b v w : α) (hab : b - a = 1) :
    1 ≤ chordLength m ⟨a, v⟩ ⟨b, w⟩ := by
  unfold chordLength
  apply hsq
  show 1 ≤ (b - a) * (b - a) + (w - v) * (w - v)
  rw [hab]
  nlinarith [mul_self_nonneg (w - v)]

theorem knots_of_intervals {α : Type} [LinearOrderedField α] [FloorRing α] (c : catmullRom α)
    (d1 d2 d3 : α) (r1 : 1 ≤ d1) (r2 : 1 ≤ d2) (r3 : 1 ≤ d3)
    (k1 : c.t1 = d1) (k2 : c.t2 = d2 + d1) (k3 : c.t3 = d3 + (d2 + d1))
    (nPoints : Int) (fuel : Nat) (hfuel : sampleCount nPoints < fuel) :
    (0 < c.t1 ∧ c.t1 < c.t2 ∧ c.t2 < c.t3) ∧
      (1 ≤ c.t1 - 0 ∧ 1 ≤ c.t2 - c.t1 ∧ 1 ≤ c.t3 - c.t2) ∧
      (c.t1 - 0 ≠ 0 ∧ c.t2 - c.t1 ≠ 0 ∧ c.t3 - c.t2 ≠ 0 ∧ c.t2 - 0 ≠ 0 ∧ c.t3 - c.t1 ≠ 0) ∧
      ∃ cached : catmullRomCached α,
        catmullRomCached.init fuel { cache := [] } c nPoints = some cached ∧
          cached.cache.length = sampleCount nPoints := by
  have hlt : c.LowerT < c.UpperT := by
    simp only [catmullRom.LowerT, catmullRom.UpperT, k1, k2]
    linarith
  refine ⟨?_, ?_, ?_, _, init_eq_samples c hlt nPoints _ fuel hfuel, ?_⟩
  · rw [k1, k2, k3]
    exact ⟨by linarith, by linarith, by linarith⟩
  · rw [k1, k2, k3]
    exact ⟨by linarith, by linarith, by linarith⟩
  · rw [k1, k2, k3]
    refine ⟨?_, ?_, ?_, ?_, ?_⟩ <;> apply ne_of_gt <;> linarith
  · simp only [List.nil_append, List.length_map, List.length_range]

/-- C25: every spline `PerlinCatmullRom.Noise` builds is non-degenerate. Its
control points are `(a, v0)`, `(a+1, v1)`, `(a+2, v2)`, `(a+3, v3)` (`a` is
`float64(x0)` for the four row splines and `float64(y0)` for the column
spline), so, when `math.Sqrt` and `math.Pow(., 0.5)` map arguments of at least
1 to results of at least 1, each chord length is at least 1, the knots of
`newCatmullRom(0.5, ...)` satisfy `0 < t1 < t2 < t3` with each knot interval
at least 1, none of the five denominators of `catmullRom.lowerUpper` in `At`
is zero, and the loop of `catmullRomCached.init` terminates with a cache of
`max(nPoints, 3)` samples. -/
theorem Noise_splines_nondegenerate {α : Type} [LinearOrderedField α] [FloorRing α]
    (m : MathLib α) (hsq : m.SqrtGeOne) (hpw : m.PowHalfGeOne) (a v0 v1 v2 v3 : α)
    (nPoints : Int) (fuel : Nat) (hfuel : sampleCount nPoints < fuel) :
    (1 ≤ chordLength m ⟨a, v0⟩ ⟨a + 1, v1⟩ ∧ 1 ≤ chordLength m ⟨a + 1, v1⟩ ⟨a + 2, v2⟩ ∧
        1 ≤ chordLength m ⟨a + 2, v2⟩ ⟨a + 3, v3⟩) ∧
      ∃ c : catmullRom α,
        c = newCatmullRom m (1 / 2) ⟨a, v0⟩ ⟨a + 1, v1⟩ ⟨a + 2, v2⟩ ⟨a + 3, v3⟩ ∧
        (0 < c.t1 ∧ c.t1 < c.t2 ∧ c.t2 < c.t3) ∧
        (1 ≤ c.t1 - 0 ∧ 1 ≤ c.t2 - c.t1 ∧ 1 ≤ c.t3 - c.t2) ∧
        (c.t1 - 0 ≠ 0 ∧ c.t2 - c.t1 ≠ 0 ∧ c.t3 - c.t2 ≠ 0 ∧ c.t2 - 0 ≠ 0 ∧
          c.t3 - c.t1 ≠ 0) ∧
        ∃ cached : catmullRomCached α,
          catmullRomCached.init fuel { cache := [] } c nPoints = some cached ∧
            cached.cache.length = sampleCount nPoints := by
  have c1 := chordLength_ge_one m hsq a (a + 1) v0 v1 (by ring)
  have c2 := chordLength_ge_one m hsq (a + 1) (a + 2) v1 v2 (by ring)
  have c3 := chordLength_ge_one m hsq (a + 2) (a + 3) v2 v3 (by ring)
  exact ⟨⟨c1, c2, c3⟩, _, rfl,
    knots_of_intervals _ _ _ _ (hpw _ c1) (hpw _ c2) (hpw _ c3) rfl rfl rfl nPoints fuel hfuel⟩

theorem Noise_splines_nondegenerate_witness :
    ratMath.SqrtGeOne ∧ ratMath.PowHalfGeOne ∧ sampleCount 5 < 6 ∧
      ∃ cached : catmullRomCached ℚ,
        catmullRomCached.init 6 { cache := [] }
            (newCatmullRom ratMath (1 / 2) ⟨7, 0⟩ ⟨7 + 1, 1⟩ ⟨7 + 2, -1⟩ ⟨7 + 3, 2⟩) 5 =
          some cached ∧ cached.cache.length = sampleCount 5 := by
  obtain ⟨_, c, hc, _, _, _, hinit⟩ :=
    Noise_splines_nondegenerate ratMath ratMath_sqrtGeOne ratMath_powHalfGeOne 7 0 1 (-1) 2 5 6
      (by decide)
  subst hc
  exact ⟨ratMath_sqrtGeOne, ratMath_powHalfGeOne, by decide, hinit⟩

/-! ## Queries and row values of the spline-interpolated Perlin noise -/

theorem PerlinCatmullRom.rowNoise_bounds {σ α : Type} [LinearOrderedField α] [FloorRing α]
    (m : MathLib α) (fuel : Nat) (s : PerlinCatmullRom σ) (x0 : Int) (relX : α) (yj : Int)
    (ry r : α) (h : s.rowNoise m fuel x0 relX yj ry = some r) : -1 ≤ r ∧ r ≤ 1 := by
  unfold PerlinCatmullRom.rowNoise at h
  simp only [Option.bind_eq_bind, Option.bind_eq_some, Option.pure_def, Option.some.injEq] at h
  obtain ⟨n0, _, n1, _, n2, _, n3, _, nx, _, rfl⟩ := h
  exact clamp_bounds nx

/-- C22: for every input `(x, y)` of `PerlinCatmullRom.Noise` (with a table
satisfying the construction invariant, a non-negative cache size and positive
knot intervals) the four row values `noiseX0 .. noiseX3` are computed, each
lies in `[-1, 1]`, they are the control-point y-values of the column spline,
and the value `Noise` returns is the result of `InterpolateX` on the column
cache itself, with no clamp. -/
theorem row_values_clamped_result_not_clamped {σ α : Type} [LinearOrderedField α]
    [FloorRing α] (m : MathLib α) (hm : m.ChordPositive) (fuel : Nat)
    (s : PerlinCatmullRom σ) (hs : TableInvariant s.hash) (hn : 0 ≤ s.splineCacheSize)
    (hfuel : sampleCount s.splineCacheSize < fuel) (x y : α) :
    ∃ (r0 r1 r2 r3 v : α) (column : catmullRomCached α),
      s.rowNoise m fuel (reducedCell (intFloor x - 1)) (x - (intFloor x : α))
        (reducedCell (intFloor y - 1)) (y - (intFloor y : α) + 1) = some r0 ∧
      s.rowNoise m fuel (reducedCell (intFloor x - 1)) (x - (intFloor x : α))
        (reducedCell (intFloor y - 1) + 1) (y - (intFloor y : α)) = some r1 ∧
      s.rowNoise m fuel (reducedCell (intFloor x - 1)) (x - (intFloor x : α))
        (reducedCell (intFloor y - 1) + 2) (y - (intFloor y : α) - 1) = some r2 ∧
      s.rowNoise m fuel (reducedCell (intFloor x - 1)) (x - (intFloor x : α))
        (reducedCell (intFloor y - 1) + 3) (y - (intFloor y : α) - 2) = some r3 ∧
      (-1 ≤ r0 ∧ r0 ≤ 1) ∧ (-1 ≤ r1 ∧ r1 ≤ 1) ∧ (-1 ≤ r2 ∧ r2 ≤ 1) ∧ (-1 ≤ r3 ∧ r3 ≤ 1) ∧
      newCentripetalCached m fuel s.splineCacheSize
        ⟨(reducedCell (intFloor y - 1) : α), r0⟩ ⟨(reducedCell (intFloor y - 1) : α) + 1, r1⟩
        ⟨(reducedCell (intFloor y - 1) : α) + 2, r2⟩
        ⟨(reducedCell (intFloor y - 1) : α) + 3, r3⟩ = some column ∧
      column.InterpolateX fuel
        ((reducedCell (intFloor y - 1) : α) + 1 + (y - (intFloor y : α))) = some v ∧
      PerlinCatmullRom.Noise m fuel s x y = some v := by
  obtain ⟨hx0, _⟩ := reducedCell_bounds (intFloor x - 1)
  obtain ⟨hy0, _⟩ := reducedCell_bounds (intFloor y - 1)
  obtain ⟨r0, e0⟩ := s.rowNoise_isSome m hm fuel hs hn hfuel _ hx0 (x - (intFloor x : α))
    _ hy0 (y - (intFloor y : α) + 1)
  obtain ⟨r1, e1⟩ := s.rowNoise_isSome m hm fuel hs hn hfuel _ hx0 (x - (intFloor x : α))
    (reducedCell (intFloor y - 1) + 1) (by omega) (y - (intFloor y : α))
  obtain ⟨r2, e2⟩ := s.rowNoise_isSome m hm fuel hs hn hfuel _ hx0 (x - (intFloor x : α))
    (reducedCell (intFloor y - 1) + 2) (by omega) (y - (intFloor y : α) - 1)
  obtain ⟨r3, e3⟩ := s.rowNoise_isSome m hm fuel hs hn hfuel _ hx0 (x - (intFloor x : α))
    (reducedCell (intFloor y - 1) + 3) (by omega) (y - (intFloor y : α) - 2)
  obtain ⟨v, ev⟩ := s.splineValue_isSome m hm fuel hn hfuel
    ⟨(reducedCell (intFloor y - 1) : α), r0⟩ ⟨(reducedCell (intFloor y - 1) : α) + 1, r1⟩
    ⟨(reducedCell (intFloor y - 1) : α) + 2, r2⟩ ⟨(reducedCell (intFloor y - 1) : α) + 3, r3⟩
    (by simp; ring) ((reducedCell (intFloor y - 1) : α) + 1 + (y - (intFloor y : α)))
  have hcol := ev
  unfold PerlinCatmullRom.splineValue at hcol
  simp only [Option.bind_eq_bind, Option.bind_eq_some] at hcol
  obtain ⟨column, ec, ei⟩ := hcol
  refine ⟨r0, r1, r2, r3, v, column, e0, e1, e2, e3, s.rowNoise_bounds m fuel _ _ _ _ _ e0,
    s.rowNoise_bounds m fuel _ _ _ _ _ e1, s.rowNoise_bounds m fuel _ _ _ _ _ e2,
    s.rowNoise_bounds m fuel _ _ _ _ _ e3, ec, ei, ?_⟩
  unfold reducedCell at e0 e1 e2 e3 ev
  unfold PerlinCatmullRom.Noise
  simp only [e0, e1, e2, e3, ev, Option.bind_eq_bind, Option.some_bind, Option.pure_def]

theorem row_values_clamped_result_not_clamped_witness :
    ratMath.ChordPositive ∧ TableInvariant (NewPerlinCatmullRom lcgRand 3 42).hash ∧
      ∃ v : ℚ,
        PerlinCatmullRom.Noise ratMath 4 (NewPerlinCatmullRom lcgRand 3 42) (1 / 2) (-5 / 2) =
          some v := by
  have h : TableInvariant (NewPerlinCatmullRom lcgRand 3 42).hash :=
    table_invariant_of_draws _ lcgRand lcgRand_inRange _ rfl
  obtain ⟨_, _, _, _, v, _, _, _, _, _, _, _, _, _, _, _, hv⟩ :=
    row_values_clamped_result_not_clamped ratMath ratMath_chordPositive 4
      (NewPerlinCatmullRom lcgRand 3 42) h (by decide) (by decide) (1 / 2) (-5 / 2)
  exact ⟨ratMath_chordPositive, h, v, hv⟩

/-- C26: in `PerlinCatmullRom.Noise`, for every `(x, y)` in exact arithmetic,
with `x0`, `y0` the reduced cell coordinates and `relX`, `relY` the fractional
parts, each row spline has second and third control points at `x0 + 1` and
`x0 + 2` and is queried at `x0 + 1 + relX`, the column spline has them at
`y0 + 1` and `y0 + 2` and is queried at `y0 + 1 + relY`, and
`x0 + 1 <= x0 + 1 + relX < x0 + 2` and `y0 + 1 <= y0 + 1 + relY < y0 + 2`. -/
theorem Noise_queries_in_usable_segment {σ α : Type} [LinearOrderedField α] [FloorRing α]
    (m : MathLib α) (fuel : Nat) (s : PerlinCatmullRom σ) (x y : α) :
    ∃ (x0 y0 : Int) (relX relY : α),
      x0 = reducedCell (intFloor x - 1) ∧ y0 = reducedCell (intFloor y - 1) ∧
      relX = x - (intFloor x : α) ∧ relY = y - (intFloor y : α) ∧
      ((x0 : α) + 1 ≤ (x0 : α) + 1 + relX ∧ (x0 : α) + 1 + relX < (x0 : α) + 2) ∧
      ((y0 : α) + 1 ≤ (y0 : α) + 1 + relY ∧ (y0 : α) + 1 + relY < (y0 : α) + 2) ∧
      (∀ (p0 p1 p2 p3 : point2D α) (q : α),
        s.splineValue m fuel p0 p1 p2 p3 q =
          (newCentripetalCached m fuel s.splineCacheSize p0 p1 p2 p3).bind fun c =>
            c.InterpolateX fuel q) ∧
      (∀ (yj : Int) (ry : α),
        s.rowNoise m fuel x0 relX yj ry =
          (s.latticeNoise m x0 yj ⟨relX + 1, ry⟩).bind fun n0 =>
          (s.latticeNoise m (x0 + 1) yj ⟨relX, ry⟩).bind fun n1 =>
          (s.latticeNoise m (x0 + 2) yj ⟨relX - 1, ry⟩).bind fun n2 =>
          (s.latticeNoise m (x0 + 3) yj ⟨relX - 2, ry⟩).bind fun n3 =>
          (s.splineValue m fuel ⟨(x0 : α), n0⟩ ⟨(x0 : α) + 1, n1⟩ ⟨(x0 : α) + 2, n2⟩
            ⟨(x0 : α) + 3, n3⟩ ((x0 : α) + 1 + relX)).bind fun noiseX =>
          some (max (-1) (min 1 noiseX))) ∧
      PerlinCatmullRom.Noise m fuel s x y =
        (s.rowNoise m fuel x0 relX y0 (relY + 1)).bind fun r0 =>
        (s.rowNoise m fuel x0 relX (y0 + 1) relY).bind fun r1 =>
        (s.rowNoise m fuel x0 relX (y0 + 2) (relY - 1)).bind fun r2 =>
        (s.rowNoise m fuel x0 relX (y0 + 3) (relY - 2)).bind fun r3 =>
        s.splineValue m fuel ⟨(y0 : α), r0⟩ ⟨(y0 : α) + 1, r1⟩ ⟨(y0 : α) + 2, r2⟩
          ⟨(y0 : α) + 3, r3⟩ ((y0 : α) + 1 + relY) := by
  have hx1 : (0 : α) ≤ x - (intFloor x : α) := sub_nonneg.mpr (Int.floor_le x)
  have hx2 : x - (intFloor x : α) < 1 := by
    have := Int.lt_floor_add_one x
    unfold intFloor
    linarith
  have hy1 : (0 : α) ≤ y - (intFloor y : α) := sub_nonneg.mpr (Int.floor_le y)
  have hy2 : y - (intFloor y : α) < 1 := by
    have := Int.lt_floor_add_one y
    unfold intFloor
    linarith
  refine ⟨_, _, _, _, rfl, rfl, rfl, rfl, ⟨by linarith, by linarith⟩,
    ⟨by linarith, by linarith⟩, fun _ _ _ _ _ => rfl, fun _ _ => rfl, ?_⟩
  unfold PerlinCatmullRom.Noise reducedCell
  simp only [Option.bind_eq_bind, Option.pure_def, Option.bind_some]

/-! ## `Perlin.Noise` in terms of the gradient indices of the four corners -/

theorem Perlin.Noise_eq_gradIndex {σ α : Type} [LinearOrderedField α] [FloorRing α]
    (m : MathLib α) (s : Perlin σ) (x y : α) :
    Perlin.Noise m s x y =
      (s.gradIndex m (reducedCell (intFloor x)) (reducedCell (intFloor y))).bind fun grad00 =>
      (s.gradIndex m (reducedCell (intFloor x) + 1) (reducedCell (intFloor y))).bind
        fun grad10 =>
      (s.gradIndex m (reducedCell (intFloor x)) (reducedCell (intFloor y) + 1)).bind
        fun grad01 =>
      (s.gradIndex m (reducedCell (intFloor x) + 1) (reducedCell (intFloor y) + 1)).bind
        fun grad11 =>
      (index (gradient2D m) grad00).bind fun g00 =>
      (index (gradient2D m) grad10).bind fun g10 =>
      (index (gradient2D m) grad01).bind fun g01 =>
      (index (gradient2D m) grad11).bind fun g11 =>
      some (linearInterpolation
        (linearInterpolation (g00.DotFloat64 (x - (intFloor x : α)) (y - (intFloor y : α)))
          (g10.DotFloat64 (x - (intFloor x : α) - 1) (y - (intFloor y : α)))
          (fader (x - (intFloor x : α))))
        (linearInterpolation
          (g01.DotFloat64 (x - (intFloor x : α)) (y - (intFloor y : α) - 1))
          (g11.DotFloat64 (x - (intFloor x : α) - 1) (y - (intFloor y : α) - 1))
          (fader (x - (intFloor x : α))))
        (fader (y - (intFloor y : α)))) := by
  unfold Perlin.Noise Perlin.gradIndex reducedCell
  simp only [Option.bind_eq_bind, Option.pure_def]
  generalize addWhileNegative (intMod (intFloor x) hashSize2D) = x0
  generalize addWhileNegative (intMod (intFloor y) hashSize2D) = y0
  cases index s.hash y0 with
  | none => rfl
  | some hy0 =>
    simp only [Option.some_bind]
    cases index s.hash (x0 + hy0) with
    | none => rfl
    | some h00 =>
      simp only [Option.some_bind, Option.map_some']
      cases index s.hash (x0 + 1 + hy0) with
      | none => rfl
      | some h10 =>
        simp only [Option.some_bind, Option.map_some']
        cases index s.hash (y0 + 1) with
        | none => rfl
        | some hy1 =>
          simp only [Option.some_bind]
          cases index s.hash (x0 + hy1) with
          | none => rfl
          | some h01 =>
            simp only [Option.some_bind, Option.map_some']
            cases index s.hash (x0 + 1 + hy1) with
            | none => rfl
            | some h11 =>
              simp only [Option.some_bind, Option.map_some']
theorem Simplex.Noise_eq_first {σ α : Type} [LinearOrderedField α] [FloorRing α]
    (m : MathLib α) (s : Simplex σ) (x y : α) :
    Simplex.Noise m s x y = (do
      let firstX := simplexFirst m x y x
      let firstY := simplexFirst m x y y
      let skewFactor := coordTransformToSkew m 2
      let unitX : Int := if firstX > firstY then 1 else 0
      let unitY : Int := if firstX > firstY then 0 else 1
      let middleX := firstX - (unitX : α) - skewFactor
      let middleY := firstY - (unitY : α) - skewFactor
      let lastX := firstX - 1 - 2 * skewFactor
      let lastY := firstY - 1 - 2 * skewFactor
      let simplexX := reducedCell (simplexCell m x y x)
      let simplexY := reducedCell (simplexCell m x y y)
      let hy0 ← index s.hash simplexY
      let h0 ← index s.hash (simplexX + hy0)
      let grad0 := intMod h0 (gradient2D m).length
      let hy1 ← index s.hash (simplexY + unitY)
      let h1 ← index s.hash (simplexX + unitX + hy1)
      let grad1 := intMod h1 (gradient2D m).length
      let hy2 ← index s.hash (simplexY + 1)
      let h2 ← index s.hash (simplexX + 1 + hy2)
      let grad2 := intMod h2 (gradient2D m).length
      let t0 := 1 / 2 - firstX * firstX - firstY * firstY
      let t1 := 1 / 2 - middleX * middleX - middleY * middleY
      let t2 := 1 / 2 - lastX * lastX - lastY * lastY
      let contrib0 ←
        if t0 > 0 then
          (index (gradient2D m) grad0).map fun g =>
            t0 * t0 * t0 * t0 * g.DotFloat64 firstX firstY
        else some 0
      let contrib1 ←
        if t1 > 0 then
          (index (gradient2D m) grad1).map fun g =>
            t1 * t1 * t1 * t1 * g.DotFloat64 middleX middleY
        else some 0
      let contrib2 ←
        if t2 > 0 then
          (index (gradient2D m) grad2).map fun g =>
            t2 * t2 * t2 * t2 * g.DotFloat64 lastX lastY
        else some 0
      return contrib0 + contrib1 + contrib2) :=
  rfl

/-! ## Determinism: the table is a function of the draws, `Noise` of the table -/

theorem drawAt_succ {σ : Type} (lib : RandLib σ) (rng : σ) (k : Nat) :
    drawAt lib rng (k + 1) = drawAt lib (lib.Intn rng hashSize2D).2 k := by
  unfold drawAt drawState
  rw [Function.iterate_succ_apply]

theorem appendDraws_eq {σ : Type} (lib : RandLib σ) (n : Nat) (rng : σ) (hash : List Int) :
    (appendDraws lib n rng hash).2 = hash ++ (List.range n).map (drawAt lib rng) := by
  induction n generalizing rng hash with
  | zero => simp [appendDraws]
  | succ k ih =>
    rw [appendDraws, ih, List.range_succ_eq_map, List.map_cons, List.map_map,
      List.append_assoc, List.singleton_append]
    congr 2

theorem appendDraws_congr {σ : Type} (lib : RandLib σ) (n : Nat) (r1 r2 : σ)
    (h : ∀ k : Nat, k < n → drawAt lib r1 k = drawAt lib r2 k) :
    (appendDraws lib n r1 []).2 = (appendDraws lib n r2 []).2 := by
  rw [appendDraws_eq, appendDraws_eq]
  congr 1
  apply List.map_congr_left
  intro k hk
  exact h k (List.mem_range.mp hk)

theorem table_eq_of_draws {σ : Type} (lib : RandLib σ) (t1 t2 : List Int) (r1 r2 : σ)
    (h1 : t1 = (appendDraws lib hashSize2D.toNat r1 []).2 ++
      (appendDraws lib hashSize2D.toNat r1 []).2)
    (h2 : t2 = (appendDraws lib hashSize2D.toNat r2 []).2 ++
      (appendDraws lib hashSize2D.toNat r2 []).2)
    (h : ∀ k : Nat, k < hashSize2D.toNat → drawAt lib r1 k = drawAt lib r2 k) : t1 = t2 := by
  rw [h1, h2, appendDraws_congr lib _ r1 r2 h]

theorem table_eq_seedTable {σ : Type} (lib : RandLib σ) (t : List Int) (seed : Int)
    (h : t = (appendDraws lib hashSize2D.toNat (lib.NewSource seed) []).2 ++
      (appendDraws lib hashSize2D.toNat (lib.NewSource seed) []).2) :
    t = seedTable lib seed := by
  rw [h, appendDraws_eq, List.nil_append]
  rfl

theorem run_lift_option {S β : Type} (o : Option β) (s : S) :
    (StateT.lift o : StateT S Option β).run s = o.map fun v => (v, s) := by
  cases o <;> rfl

theorem run_bind_of_run {S β γ : Type} (c : StateT S Option β) (k : β → StateT S Option γ)
    (f : Option β) (g : β → Option γ) (s : S) (hc : c.run s = f.map fun v => (v, s))
    (hk : ∀ b, (k b).run s = (g b).map fun v => (v, s)) :
    (c >>= k).run s = (f.bind g).map fun v => (v, s) := by
  rw [StateT.run_bind, hc]
  cases f with
  | none => rfl
  | some b => exact hk b

theorem Perlin.run_readHash {σ : Type} (i : Int) (s : Perlin σ) :
    (Perlin.readHash i).run s = (index s.hash i).map fun v => (v, s) := by
  unfold Perlin.readHash
  rw [StateT.run_bind, StateT.run_get]
  exact run_lift_option _ s

theorem Perlin.run_NoiseM {σ α : Type} [LinearOrderedField α] [FloorRing α]
    (m : MathLib α) (x y : α) (s : Perlin σ) :
    (Perlin.NoiseM m x y).run s = (Perlin.Noise m s x y).map fun v => (v, s) := by
  unfold Perlin.NoiseM Perlin.Noise
  refine run_bind_of_run _ _ _ _ s (Perlin.run_readHash _ s) fun hy0 => ?_
  refine run_bind_of_run _ _ _ _ s (Perlin.run_readHash _ s) fun h00 => ?_
  refine run_bind_of_run _ _ _ _ s (Perlin.run_readHash _ s) fun h10 => ?_
  refine run_bind_of_run _ _ _ _ s (Perlin.run_readHash _ s) fun hy1 => ?_
  refine run_bind_of_run _ _ _ _ s (Perlin.run_readHash _ s) fun h01 => ?_
  refine run_bind_of_run _ _ _ _ s (Perlin.run_readHash _ s) fun h11 => ?_
  refine run_bind_of_run _ _ _ _ s (run_lift_option _ s) fun g00 => ?_
  refine run_bind_of_run _ _ _ _ s (run_lift_option _ s) fun g10 => ?_
  refine run_bind_of_run _ _ _ _ s (run_lift_option _ s) fun g01 => ?_
  refine run_bind_of_run _ _ _ _ s (run_lift_option _ s) fun g11 => ?_
  rfl

theorem Simplex.run_simplexReadHash {σ : Type} (i : Int) (s : Simplex σ) :
    (Simplex.readHash i).run s = (index s.hash i).map fun v => (v, s) := by
  unfold Simplex.readHash
  rw [StateT.run_bind, StateT.run_get]
  exact run_lift_option _ s

set_option maxHeartbeats 2000000 in
theorem Simplex.run_simplexNoiseM {σ α : Type} [LinearOrderedField α] [FloorRing α]
    (m : MathLib α) (x y : α) (s : Simplex σ) :
    (Simplex.NoiseM m x y).run s = (Simplex.Noise m s x y).map fun v => (v, s) := by
  unfold Simplex.NoiseM Simplex.Noise
  refine run_bind_of_run _ _ _ _ s (Simplex.run_simplexReadHash _ s) fun hy0 => ?_
  refine run_bind_of_run _ _ _ _ s (Simplex.run_simplexReadHash _ s) fun h0 => ?_
  refine run_bind_of_run _ _ _ _ s (Simplex.run_simplexReadHash _ s) fun hy1 => ?_
  refine run_bind_of_run _ _ _ _ s (Simplex.run_simplexReadHash _ s) fun h1 => ?_
  refine run_bind_of_run _ _ _ _ s (Simplex.run_simplexReadHash _ s) fun hy2 => ?_
  refine run_bind_of_run _ _ _ _ s (Simplex.run_simplexReadHash _ s) fun h2 => ?_
  dsimp only
  split_ifs
  all_goals
    refine run_bind_of_run _ _ _ _ s (run_lift_option _ s) fun c0 => ?_
    refine run_bind_of_run _ _ _ _ s (run_lift_option _ s) fun c1 => ?_
    refine run_bind_of_run _ _ _ _ s (run_lift_option _ s) fun c2 => ?_
    rfl

theorem PerlinCatmullRom.run_hashIdxM {σ : Type} (idx : Int) (s : PerlinCatmullRom σ) :
    (PerlinCatmullRom.hashIdxM idx).run s = (s.hashIdx idx).map fun v => (v, s) := by
  unfold PerlinCatmullRom.hashIdxM PerlinCatmullRom.hashIdx
  rw [StateT.run_bind, StateT.run_get]
  exact run_lift_option _ s

theorem PerlinCatmullRom.run_latticeNoiseM {σ α : Type} [LinearOrderedField α] [FloorRing α]
    (m : MathLib α) (xi yj : Int) (pt : point2D α) (s : PerlinCatmullRom σ) :
    (PerlinCatmullRom.latticeNoiseM m xi yj pt).run s =
      (s.latticeNoise m xi yj pt).map fun v => (v, s) := by
  unfold PerlinCatmullRom.latticeNoiseM PerlinCatmullRom.latticeNoise
  refine run_bind_of_run _ _ _ _ s (PerlinCatmullRom.run_hashIdxM _ s) fun hy => ?_
  refine run_bind_of_run _ _ _ _ s (PerlinCatmullRom.run_hashIdxM _ s) fun h => ?_
  refine run_bind_of_run _ _ _ _ s (run_lift_option _ s) fun g => ?_
  rfl

theorem PerlinCatmullRom.run_splineValueM {σ α : Type} [LinearOrderedField α] [FloorRing α]
    (m : MathLib α) (fuel : Nat) (p0 p1 p2 p3 : point2D α) (q : α) (s : PerlinCatmullRom σ) :
    (PerlinCatmullRom.splineValueM m fuel p0 p1 p2 p3 q).run s =
      (s.splineValue m fuel p0 p1 p2 p3 q).map fun v => (v, s) := by
  unfold PerlinCatmullRom.splineValueM PerlinCatmullRom.splineValue
  rw [StateT.run_bind, StateT.run_get, pure_bind]
  exact run_bind_of_run _ _ _ _ s (run_lift_option _ s) fun c => run_lift_option _ s

theorem PerlinCatmullRom.run_rowNoiseM {σ α : Type} [LinearOrderedField α] [FloorRing α]
    (m : MathLib α) (fuel : Nat) (x0 : Int) (relX : α) (yj : Int) (ry : α)
    (s : PerlinCatmullRom σ) :
    (PerlinCatmullRom.rowNoiseM m fuel x0 relX yj ry).run s =
      (s.rowNoise m fuel x0 relX yj ry).map fun v => (v, s) := by
  unfold PerlinCatmullRom.rowNoiseM PerlinCatmullRom.rowNoise
  refine run_bind_of_run _ _ _ _ s (PerlinCatmullRom.run_latticeNoiseM m _ _ _ s) fun n0 => ?_
  refine run_bind_of_run _ _ _ _ s (PerlinCatmullRom.run_latticeNoiseM m _ _ _ s) fun n1 => ?_
  refine run_bind_of_run _ _ _ _ s (PerlinCatmullRom.run_latticeNoiseM m _ _ _ s) fun n2 => ?_
  refine run_bind_of_run _ _ _ _ s (PerlinCatmullRom.run_latticeNoiseM m _ _ _ s) fun n3 => ?_
  refine run_bind_of_run _ _ _ _ s (PerlinCatmullRom.run_splineValueM m fuel _ _ _ _ _ s)
    fun nx => ?_
  rfl

theorem PerlinCatmullRom.run_splineNoiseM {σ α : Type} [LinearOrderedField α] [FloorRing α]
    (m : MathLib α) (fuel : Nat) (x y : α) (s : PerlinCatmullRom σ) :
    (PerlinCatmullRom.NoiseM m fuel x y).run s =
      (PerlinCatmullRom.Noise m fuel s x y).map fun v => (v, s) := by
  unfold PerlinCatmullRom.NoiseM PerlinCatmullRom.Noise
  refine run_bind_of_run _ _ _ _ s (PerlinCatmullRom.run_rowNoiseM m fuel _ _ _ _ s)
    fun r0 => ?_
  refine run_bind_of_run _ _ _ _ s (PerlinCatmullRom.run_rowNoiseM m fuel _ _ _ _ s)
    fun r1 => ?_
  refine run_bind_of_run _ _ _ _ s (PerlinCatmullRom.run_rowNoiseM m fuel _ _ _ _ s)
    fun r2 => ?_
  refine run_bind_of_run _ _ _ _ s (PerlinCatmullRom.run_rowNoiseM m fuel _ _ _ _ s)
    fun r3 => ?_
  refine run_bind_of_run _ _ _ _ s (PerlinCatmullRom.run_splineValueM m fuel _ _ _ _ _ s)
    fun v => ?_
  rfl
theorem run_twice {S β : Type} (c : StateT S Option β) (f : Option β) (s : S)
    (hc : c.run s = f.map fun v => (v, s)) :
    (c >>= fun a => c >>= fun b => pure (a, b)).run s = f.map fun v => ((v, v), s) := by
  rw [StateT.run_bind, hc]
  cases f with
  | none => rfl
  | some v =>
    show (c >>= fun b => pure (v, b)).run s = _
    rw [StateT.run_bind, hc]
    rfl

theorem Perlin.perlinNoise_of_table {σ α : Type} [LinearOrderedField α] [FloorRing α]
    (m : MathLib α) (s t : Perlin σ) (h : s.hash = t.hash) (x y : α) :
    Perlin.Noise m s x y = Perlin.Noise m t x y := by
  unfold Perlin.Noise
  rw [h]

theorem Simplex.simplexNoise_of_table {σ α : Type} [LinearOrderedField α] [FloorRing α]
    (m : MathLib α) (s t : Simplex σ) (h : s.hash = t.hash) (x y : α) :
    Simplex.Noise m s x y = Simplex.Noise m t x y := by
  unfold Simplex.Noise
  rw [h]

theorem lcgRand_draws_agree (k : Nat) :
    drawAt lcgRand (lcgRand.NewSource 42) k = drawAt lcgRand (lcgRand.NewSource 2147483690) k := by
  cases k with
  | zero => rfl
  | succ j =>
    rw [drawAt_succ, drawAt_succ]
    rfl

/-- C9: for each generator type, two instances constructed from seeds whose
random sources give the same first `hashSize2D` draws (in particular from the
same seed) hold identical permutation tables, namely the table `seedTable` of
the draws followed by a second copy; `Noise` reads nothing of an instance but
its table (and the cache size), so the two instances return identical
`Noise(x, y)` whatever the states of their sources; and a call of `Noise`
as an operation on its receiver returns that value and leaves the receiver as
it was, so a repeated call returns it again. -/
theorem same_seed_same_noise {σ α : Type} [LinearOrderedField α] [FloorRing α]
    (lib : RandLib σ) (m : MathLib α) (seed1 seed2 : Int)
    (hdraws : ∀ k : Nat, k < hashSize2D.toNat →
      drawAt lib (lib.NewSource seed1) k = drawAt lib (lib.NewSource seed2) k)
    (splineCacheSize : Int) (fuel : Nat) (x y : α) :
    ((NewPerlin lib seed1).hash = seedTable lib seed1 ∧
        (NewPerlin lib seed1).hash = (NewPerlin lib seed2).hash ∧
        Perlin.Noise m (NewPerlin lib seed1) x y = Perlin.Noise m (NewPerlin lib seed2) x y ∧
        (Perlin.NoiseM m x y).run (NewPerlin lib seed1) =
          (Perlin.Noise m (NewPerlin lib seed1) x y).map (fun v => (v, NewPerlin lib seed1)) ∧
        (Perlin.NoiseM m x y >>= fun a => Perlin.NoiseM m x y >>= fun b => pure (a, b)).run
            (NewPerlin lib seed1) =
          (Perlin.Noise m (NewPerlin lib seed1) x y).map
            (fun v => ((v, v), NewPerlin lib seed1))) ∧
      ((NewSimplex lib seed1).hash = seedTable lib seed1 ∧
        (NewSimplex lib seed1).hash = (NewSimplex lib seed2).hash ∧
        Simplex.Noise m (NewSimplex lib seed1) x y =
          Simplex.Noise m (NewSimplex lib seed2) x y ∧
        (Simplex.NoiseM m x y).run (NewSimplex lib seed1) =
          (Simplex.Noise m (NewSimplex lib seed1) x y).map
            (fun v => (v, NewSimplex lib seed1)) ∧
        (Simplex.NoiseM m x y >>= fun a => Simplex.NoiseM m x y >>= fun b => pure (a, b)).run
            (NewSimplex lib seed1) =
          (Simplex.Noise m (NewSimplex lib seed1) x y).map
            (fun v => ((v, v), NewSimplex lib seed1))) ∧
      ((NewPerlinCatmullRom lib splineCacheSize seed1).hash = seedTable lib seed1 ∧
        (NewPerlinCatmullRom lib splineCacheSize seed1).hash =
          (NewPerlinCatmullRom lib splineCacheSize seed2).hash ∧
        PerlinCatmullRom.Noise m fuel (NewPerlinCatmullRom lib splineCacheSize seed1) x y =
          PerlinCatmullRom.Noise m fuel (NewPerlinCatmullRom lib splineCacheSize seed2) x y ∧
        (PerlinCatmullRom.NoiseM m fuel x y).run (NewPerlinCatmullRom lib splineCacheSize seed1) =
          (PerlinCatmullRom.Noise m fuel (NewPerlinCatmullRom lib splineCacheSize seed1) x y).map
            (fun v => (v, NewPerlinCatmullRom lib splineCacheSize seed1)) ∧
        (PerlinCatmullRom.NoiseM m fuel x y >>= fun a =>
            PerlinCatmullRom.NoiseM m fuel x y >>= fun b => pure (a, b)).run
            (NewPerlinCatmullRom lib splineCacheSize seed1) =
          (PerlinCatmullRom.Noise m fuel (NewPerlinCatmullRom lib splineCacheSize seed1) x y).map
            (fun v => ((v, v), NewPerlinCatmullRom lib splineCacheSize seed1))) := by
  have hp : (NewPerlin lib seed1).hash = (NewPerlin lib seed2).hash :=
    table_eq_of_draws lib _ _ _ _ rfl rfl hdraws
  have hs : (NewSimplex lib seed1).hash = (NewSimplex lib seed2).hash :=
    table_eq_of_draws lib _ _ _ _ rfl rfl hdraws
  have hc : (NewPerlinCatmullRom lib splineCacheSize seed1).hash =
      (NewPerlinCatmullRom lib splineCacheSize seed2).hash :=
    table_eq_of_draws lib _ _ _ _ rfl rfl hdraws
  exact ⟨⟨table_eq_seedTable lib _ seed1 rfl, hp, Perlin.perlinNoise_of_table m _ _ hp x y,
      Perlin.run_NoiseM m x y _, run_twice _ _ _ (Perlin.run_NoiseM m x y _)⟩,
    ⟨table_eq_seedTable lib _ seed1 rfl, hs, Simplex.simplexNoise_of_table m _ _ hs x y,
      Simplex.run_simplexNoiseM m x y _, run_twice _ _ _ (Simplex.run_simplexNoiseM m x y _)⟩,
    ⟨table_eq_seedTable lib _ seed1 rfl, hc,
      PerlinCatmullRom.Noise_congr m fuel _ _ hc (fun _ _ _ _ => rfl) x y,
      PerlinCatmullRom.run_splineNoiseM m fuel x y _,
      run_twice _ _ _ (PerlinCatmullRom.run_splineNoiseM m fuel x y _)⟩⟩

theorem same_seed_same_noise_witness :
    (∀ k : Nat, k < hashSize2D.toNat →
        drawAt lcgRand (lcgRand.NewSource 42) k =
          drawAt lcgRand (lcgRand.NewSource 2147483690) k) ∧
      (NewPerlin lcgRand 42).hash = (NewPerlin lcgRand 2147483690).hash ∧
      Perlin.Noise ratMath (NewPerlin lcgRand 42) (1 / 2 : ℚ) (1 / 3) =
        Perlin.Noise ratMath (NewPerlin lcgRand 2147483690) (1 / 2 : ℚ) (1 / 3) :=
  ⟨fun k _ => lcgRand_draws_agree k,
    (same_seed_same_noise lcgRand ratMath 42 2147483690 (fun k _ => lcgRand_draws_agree k) 3 8
      (1 / 2) (1 / 3)).1.2.1,
    (same_seed_same_noise lcgRand ratMath 42 2147483690 (fun k _ => lcgRand_draws_agree k) 3 8
      (1 / 2) (1 / 3)).1.2.2.1⟩

/-! ## `Perlin.Noise` at lattice points, with the 64-bit conversion -/

theorem intFloor64_of_inRange {α : Type} [LinearOrderedField α] [FloorRing α] (x : α)
    (h1 : -9223372036854775808 ≤ intFloor x) (h2 : intFloor x < 9223372036854775808) :
    intFloor64 x = intFloor x := by
  unfold intFloor64
  unfold intFloor at h1 h2
  rw [if_pos ⟨h1, h2⟩]
  rfl

theorem intFloor64_of_large {α : Type} [LinearOrderedField α] [FloorRing α] (x : α)
    (h : 9223372036854775808 ≤ intFloor x) : intFloor64 x = -9223372036854775808 := by
  unfold intFloor64
  unfold intFloor at h
  rw [if_neg (by omega)]

theorem Perlin.Noise64_of_inRange {σ α : Type} [LinearOrderedField α] [FloorRing α]
    (m : MathLib α) (s : Perlin σ) (x y : α)
    (hx1 : -9223372036854775808 ≤ intFloor x) (hx2 : intFloor x < 9223372036854775808)
    (hy1 : -9223372036854775808 ≤ intFloor y) (hy2 : intFloor y < 9223372036854775808) :
    Perlin.Noise64 m s x y = Perlin.Noise m s x y := by
  unfold Perlin.Noise64 Perlin.Noise
  rw [intFloor64_of_inRange x hx1 hx2, intFloor64_of_inRange y hy1 hy2]

theorem Perlin.Noise64_lattice {σ α : Type} [LinearOrderedField α] [FloorRing α]
    (m : MathLib α) (s : Perlin σ) (hs : TableInvariant s.hash) (i j : Int)
    (hi1 : -9223372036854775808 ≤ i) (hi2 : i < 9223372036854775808)
    (hj1 : -9223372036854775808 ≤ j) (hj2 : j < 9223372036854775808) :
    Perlin.Noise64 m s (i : α) (j : α) = some 0 := by
  have fi : intFloor (i : α) = i := by simp [intFloor]
  have fj : intFloor (j : α) = j := by simp [intFloor]
  rw [Perlin.Noise64_of_inRange m s _ _ (by rw [fi]; exact hi1) (by rw [fi]; exact hi2)
    (by rw [fj]; exact hj1) (by rw [fj]; exact hj2)]
  exact Perlin.Noise_lattice m s hs i j

theorem seedTable_index {σ : Type} (lib : RandLib σ) (seed : Int) (k : Nat)
    (hk : k < hashSize2D.toNat) :
    index (seedTable lib seed) (k : Int) = some (drawAt lib (lib.NewSource seed) k) := by
  rw [index_natCast]
  unfold seedTable
  rw [List.getElem?_append_left (by rw [List.length_map, List.length_range]; exact hk),
    List.getElem?_map, List.getElem?_range hk]
  rfl

theorem Perlin.Noise64_beyond_int_range {σ : Type} (s : Perlin σ) (hs : TableInvariant s.hash)
    (e0 : index s.hash 0 = some 42) (e42 : index s.hash (0 + 42) = some 48)
    (e43 : index s.hash (0 + 1 + 42) = some 1193) :
    ∃ v : ℚ, Perlin.Noise64 ratMath s ((10000000000000000000 : Int) : ℚ) ((0 : Int) : ℚ) =
        some v ∧ v < -(10 : ℚ) ^ 116 := by
  have hH : hashSize2D = 8192 := by decide
  have fx : intFloor64 (((10000000000000000000 : Int) : ℚ)) = -9223372036854775808 :=
    intFloor64_of_large _ (by simp [intFloor])
  have fy : intFloor64 (((0 : Int) : ℚ)) = 0 := by
    rw [intFloor64_of_inRange _ (by simp [intFloor]) (by simp [intFloor])]
    simp [intFloor]
  have rx : addWhileNegative (intMod (-9223372036854775808) hashSize2D) = 0 := by
    rw [wrap_eq_emod]
    decide
  have ry : addWhileNegative (intMod 0 hashSize2D) = 0 := by
    rw [wrap_eq_emod]
    decide
  obtain ⟨hy1, ey1, ry1, ry1b⟩ := hs.index_lt (0 + 1) (by decide) (by decide)
  obtain ⟨h01, e01, r01, _⟩ := hs.index_lt (0 + hy1) (by omega) (by omega)
  obtain ⟨h11, e11, r11, _⟩ := hs.index_lt (0 + 1 + hy1) (by omega) (by omega)
  obtain ⟨g01, eg01⟩ := gradient2D_index ratMath h01 r01
  obtain ⟨g11, eg11⟩ := gradient2D_index ratMath h11 r11
  have eg00 : index (gradient2D ratMath) (intMod 48 (gradient2D ratMath).length) =
      some ⟨1, 0⟩ := rfl
  have eg10 : index (gradient2D ratMath) (intMod 1193 (gradient2D ratMath).length) =
      some ⟨ratMath.Cos (unitCircleDelta ratMath * 5), ratMath.Sin (unitCircleDelta ratMath * 5)⟩ :=
    rfl
  have key : Perlin.Noise64 ratMath s ((10000000000000000000 : Int) : ℚ) ((0 : Int) : ℚ) =
      some (linearInterpolation
        (linearInterpolation
          ((⟨1, 0⟩ : point2D ℚ).DotFloat64 (((10000000000000000000 : Int) : ℚ) - ((-9223372036854775808 : Int) : ℚ))
            (((0 : Int) : ℚ) - ((0 : Int) : ℚ)))
          ((⟨ratMath.Cos (unitCircleDelta ratMath * 5),
              ratMath.Sin (unitCircleDelta ratMath * 5)⟩ : point2D ℚ).DotFloat64
            ((((10000000000000000000 : Int) : ℚ) - ((-9223372036854775808 : Int) : ℚ)) - 1)
            (((0 : Int) : ℚ) - ((0 : Int) : ℚ)))
          (fader (((10000000000000000000 : Int) : ℚ) - ((-9223372036854775808 : Int) : ℚ))))
        (linearInterpolation
          (g01.DotFloat64 (((10000000000000000000 : Int) : ℚ) - ((-9223372036854775808 : Int) : ℚ))
            ((((0 : Int) : ℚ) - ((0 : Int) : ℚ)) - 1))
          (g11.DotFloat64 ((((10000000000000000000 : Int) : ℚ) - ((-9223372036854775808 : Int) : ℚ)) - 1)
            ((((0 : Int) : ℚ) - ((0 : Int) : ℚ)) - 1))
          (fader (((10000000000000000000 : Int) : ℚ) - ((-9223372036854775808 : Int) : ℚ))))
        (fader (((0 : Int) : ℚ) - ((0 : Int) : ℚ)))) := by
    unfold Perlin.Noise64
    simp only [fx, fy, rx, ry, e0, e42, e43, ey1, e01, e11, eg00, eg10, eg01, eg11,
      Option.bind_eq_bind, Option.some_bind, Option.pure_def]
  refine ⟨_, key, ?_⟩
  norm_num [linearInterpolation, point2D.DotFloat64, fader, ratMath, unitCircleDelta]

/-- C1, evaluated with the 64-bit conversion of `intFloor`: for every seed and
all integers `i`, `j` that fit in an `int`, `Perlin.Noise(i, j)` returns `0`;
at the integer `10^19`, which does not fit, the conversion yields `-2^63`,
`relX` is `10^19 + 2^63` instead of `0`, and `Noise(10^19, 0)` returns a value
below `-10^116`, not `0`. -/
theorem Perlin_Noise_lattice_zero_only_in_int_range :
    (∀ seed i j : Int, -9223372036854775808 ≤ i → i < 9223372036854775808 →
        -9223372036854775808 ≤ j → j < 9223372036854775808 →
        Perlin.Noise64 ratMath (NewPerlin lcgRand seed) (i : ℚ) (j : ℚ) = some 0) ∧
      intFloor64 (((10000000000000000000 : Int) : ℚ)) = -9223372036854775808 ∧
      ∃ v : ℚ,
        Perlin.Noise64 ratMath (NewPerlin lcgRand 42) ((10000000000000000000 : Int) : ℚ)
            ((0 : Int) : ℚ) = some v ∧
          v < -(10 : ℚ) ^ 116 := by
  refine ⟨?_, intFloor64_of_large _ (by simp [intFloor]), ?_⟩
  · intro seed i j hi1 hi2 hj1 hj2
    exact Perlin.Noise64_lattice ratMath (NewPerlin lcgRand seed)
      (table_invariant_of_draws (NewPerlin lcgRand seed).hash lcgRand lcgRand_inRange _ rfl)
      i j hi1 hi2 hj1 hj2
  · have ht : (NewPerlin lcgRand 42).hash = seedTable lcgRand 42 :=
      table_eq_seedTable lcgRand _ 42 rfl
    refine Perlin.Noise64_beyond_int_range (NewPerlin lcgRand 42)
      (table_invariant_of_draws (NewPerlin lcgRand 42).hash lcgRand lcgRand_inRange _ rfl)
      ?_ ?_ ?_
    · rw [ht]
      exact seedTable_index lcgRand 42 0 (by decide)
    · rw [ht]
      exact seedTable_index lcgRand 42 42 (by decide)
    · rw [ht]
      exact seedTable_index lcgRand 42 43 (by decide)

/-! ## The cache construction in float64 -/

theorem roundTiesEven_eq (q : ℚ) (n : Int) (h1 : (n : ℚ) - 1 / 2 < q)
    (h2 : q < (n : ℚ) + 1 / 2) : roundTiesEven q = n := by
  unfold roundTiesEven
  rcases lt_or_le q (n : ℚ) with h | h
  · have hf : ⌊q⌋ = n - 1 := by
      rw [Int.floor_eq_iff]
      push_cast
      constructor <;> linarith
    rw [hf]
    push_cast
    rw [if_neg (by linarith), if_pos (by linarith)]
    omega
  · have hf : ⌊q⌋ = n := by
      rw [Int.floor_eq_iff]
      constructor <;> linarith
    rw [hf, if_pos (by linarith)]

theorem float64Round_eq (q : ℚ) (e n : Int) (hpos : 0 < q) (h1 : (2 : ℚ) ^ e ≤ q)
    (h2 : q < (2 : ℚ) ^ (e + 1)) (h3 : (n : ℚ) - 1 / 2 < q / 2 ^ (e - 52))
    (h4 : q / 2 ^ (e - 52) < (n : ℚ) + 1 / 2) : float64Round q = (n : ℚ) * 2 ^ (e - 52) := by
  have hlog : Int.log 2 |q| = e := by
    rw [abs_of_pos hpos]
    apply le_antisymm
    · have := (Int.lt_zpow_iff_log_lt (by norm_num : 1 < 2) hpos).mp (by exact_mod_cast h2)
      omega
    · exact (Int.zpow_le_iff_le_log (by norm_num : 1 < 2) hpos).mp (by exact_mod_cast h1)
  unfold float64Round
  rw [if_neg (ne_of_gt hpos), hlog, roundTiesEven_eq _ n h3 h4]

theorem initLoopRounded_id {α : Type} [LinearOrderedField α] [FloorRing α]
    (curve : catmullRom α) (delta : α) :
    ∀ (fuel : Nat) (t : α) (cache : List (point2D α)),
      catmullRomCached.initLoopRounded id curve delta fuel t cache =
        catmullRomCached.initLoop curve delta fuel t cache := by
  intro fuel
  induction fuel with
  | zero =>
    intro t cache
    rfl
  | succ f ih =>
    intro t cache
    rw [catmullRomCached.initLoopRounded, catmullRomCached.initLoop, ih]
    rfl

theorem initRounded_id {α : Type} [LinearOrderedField α] [FloorRing α] (fuel : Nat)
    (c : catmullRomCached α) (curve : catmullRom α) (nPoints : Int) :
    catmullRomCached.initRounded id fuel c curve nPoints = c.init fuel curve nPoints := by
  unfold catmullRomCached.initRounded catmullRomCached.init
  simp only [id, initLoopRounded_id]

theorem initLoopRounded_step {α : Type} [LinearOrderedField α] [FloorRing α]
    (rnd : α → α) (curve : catmullRom α) (delta : α) (fuel : Nat) (t : α)
    (cache : List (point2D α)) (h : t ≤ curve.UpperT) :
    catmullRomCached.initLoopRounded rnd curve delta (fuel + 1) t cache =
      catmullRomCached.initLoopRounded rnd curve delta fuel (rnd (t + delta))
        (cache ++ [curve.At t]) := by
  rw [catmullRomCached.initLoopRounded, if_pos h]

theorem initLoopRounded_exit {α : Type} [LinearOrderedField α] [FloorRing α]
    (rnd : α → α) (curve : catmullRom α) (delta : α) (fuel : Nat) (t : α)
    (cache : List (point2D α)) (h : curve.UpperT < t) :
    catmullRomCached.initLoopRounded rnd curve delta (fuel + 1) t cache = some cache := by
  rw [catmullRomCached.initLoopRounded, if_neg (not_le.mpr h)]

theorem float64Round_one : float64Round 1 = 1 := by
  rw [float64Round_eq 1 0 4503599627370496 (by norm_num) (by norm_num) (by norm_num)
    (by norm_num) (by norm_num)]
  norm_num

theorem float64Round_sixth :
    float64Round (1 / 6) = 6004799503160661 / 36028797018963968 := by
  rw [float64Round_eq (1 / 6) (-3) 6004799503160661 (by norm_num) (by norm_num) (by norm_num)
    (by norm_num) (by norm_num)]
  norm_num

theorem float64Round_step1 :
    float64Round (1 + 6004799503160661 / 36028797018963968) =
      5254199565265579 / 4503599627370496 := by
  rw [float64Round_eq _ 0 5254199565265579 (by norm_num) (by norm_num) (by norm_num)
    (by norm_num) (by norm_num)]
  norm_num

theorem float64Round_step2 :
    float64Round (5254199565265579 / 4503599627370496 + 6004799503160661 / 36028797018963968) =
      3002399751580331 / 2251799813685248 := by
  rw [float64Round_eq _ 0 6004799503160662 (by norm_num) (by norm_num) (by norm_num)
    (by norm_num) (by norm_num)]
  norm_num

theorem float64Round_step3 :
    float64Round (3002399751580331 / 2251799813685248 + 6004799503160661 / 36028797018963968) =
      6755399441055745 / 4503599627370496 := by
  rw [float64Round_eq _ 0 6755399441055745 (by norm_num) (by norm_num) (by norm_num)
    (by norm_num) (by norm_num)]
  norm_num

theorem float64Round_step4 :
    float64Round (6755399441055745 / 4503599627370496 + 6004799503160661 / 36028797018963968) =
      1876499844737707 / 1125899906842624 := by
  rw [float64Round_eq _ 0 7505999378950828 (by norm_num) (by norm_num) (by norm_num)
    (by norm_num) (by norm_num)]
  norm_num

theorem float64Round_step5 :
    float64Round (1876499844737707 / 1125899906842624 + 6004799503160661 / 36028797018963968) =
      8256599316845911 / 4503599627370496 := by
  rw [float64Round_eq _ 0 8256599316845911 (by norm_num) (by norm_num) (by norm_num)
    (by norm_num) (by norm_num)]
  norm_num

theorem float64Round_step6 :
    float64Round (8256599316845911 / 4503599627370496 + 6004799503160661 / 36028797018963968) =
      4503599627370497 / 2251799813685248 := by
  rw [float64Round_eq _ 1 4503599627370497 (by norm_num) (by norm_num) (by norm_num)
    (by norm_num) (by norm_num)]
  norm_num

theorem initRounded_float64_sample :
    catmullRomCached.initRounded float64Round 8 { cache := [] } splineSample 7 =
      some { cache :=
        [ splineSample.At 1,
          splineSample.At (5254199565265579 / 4503599627370496),
          splineSample.At (3002399751580331 / 2251799813685248),
          splineSample.At (6755399441055745 / 4503599627370496),
          splineSample.At (1876499844737707 / 1125899906842624),
          splineSample.At (8256599316845911 / 4503599627370496) ] } := by
  have hu : splineSample.UpperT = 2 := rfl
  have hl : splineSample.LowerT = 1 := rfl
  have hn : (((if (7 : Int) ≤ 2 then 3 else 7) - 1 : Int) : ℚ) = 6 := by norm_num
  unfold catmullRomCached.initRounded
  simp only [hn, hl]
  rw [hu, show (2 : ℚ) - 1 = 1 by norm_num, float64Round_one, float64Round_sixth]
  rw [initLoopRounded_step _ _ _ 7 _ _ (by rw [hu]; norm_num), float64Round_step1]
  rw [initLoopRounded_step _ _ _ 6 _ _ (by rw [hu]; norm_num), float64Round_step2]
  rw [initLoopRounded_step _ _ _ 5 _ _ (by rw [hu]; norm_num), float64Round_step3]
  rw [initLoopRounded_step _ _ _ 4 _ _ (by rw [hu]; norm_num), float64Round_step4]
  rw [initLoopRounded_step _ _ _ 3 _ _ (by rw [hu]; norm_num), float64Round_step5]
  rw [initLoopRounded_step _ _ _ 2 _ _ (by rw [hu]; norm_num), float64Round_step6]
  rw [initLoopRounded_exit _ _ _ 1 _ _ (by rw [hu]; norm_num)]
  rfl

/-- C6, evaluated in float64 for the uniform spline with knots 1, 2, 3 and
`nPoints = 7`: in exact arithmetic `init` stores the 7 samples of the claim,
but with `delta` and `t += delta` rounded as float64 rounds them the running
parameter reaches `2.0000000000000004 > UpperT` after the sixth sample, so
`init` stores 6 samples, not `max(nPoints, 3) = 7`, and the last one is
`At(1.8333333333333337)`, not `At(UpperT)`. -/
theorem init_drops_last_sample_in_float64 :
    catmullRomCached.initRounded id 8 { cache := [] } splineSample 7 =
        catmullRomCached.init 8 { cache := [] } splineSample 7 ∧
      (catmullRomCached.init 8 { cache := [] } splineSample 7).map
          (fun c => c.cache.length) = some 7 ∧
      catmullRomCached.initRounded float64Round 8 { cache := [] } splineSample 7 =
        some { cache :=
          [ splineSample.At 1,
          splineSample.At (5254199565265579 / 4503599627370496),
          splineSample.At (3002399751580331 / 2251799813685248),
          splineSample.At (6755399441055745 / 4503599627370496),
          splineSample.At (1876499844737707 / 1125899906842624),
          splineSample.At (8256599316845911 / 4503599627370496) ] } ∧
      (catmullRomCached.initRounded float64Round 8 { cache := [] } splineSample 7).map
          (fun c => c.cache.length) = some 6 ∧
      (8256599316845911 / 4503599627370496 : ℚ) < splineSample.UpperT ∧
      float64Round (8256599316845911 / 4503599627370496 + 6004799503160661 / 36028797018963968) =
        4503599627370497 / 2251799813685248 ∧
      splineSample.UpperT < 4503599627370497 / 2251799813685248 := by
  refine ⟨initRounded_id _ _ _ _, ?_, initRounded_float64_sample, ?_, ?_, float64Round_step6, ?_⟩
  · rw [init_eq_samples splineSample (by norm_num [splineSample, catmullRom.LowerT,
      catmullRom.UpperT]) 7 _ 8 (by decide)]
    simp only [Option.map_some', List.nil_append, List.length_map, List.length_range]
    rfl
  · rw [initRounded_float64_sample]
    rfl
  · norm_num [splineSample, catmullRom.UpperT]
  · norm_num [splineSample, catmullRom.UpperT]

end Noise
